import Mathlib

/-!
# Prim's minimum spanning forest over an adjacency-list graph

A shallow embedding of `Node.h`, `Edge.h`, `Graph.{h,cpp}`, `PriorityQueue.h`
and `MST.{h,cpp}`.

Modelling conventions.

* a `double` that is a weight, a `distTo` value or a priority of the queue used
  by `MST` is modelled by `Rat`: every finite double is a rational and the
  comparisons used by the code (`<`, `>`) agree with the rational order.
  NaN and the infinities are outside that part of the model.
* the type `Double` holds all values of a `double`: the finite ones, the two
  infinities and NaN, with the comparisons and the rounded addition of
  IEEE 754 binary64.  `cost()` accumulates in `Double`, and the section
  `Ieee` repeats the members of `PriorityQueue<T>` with priorities in `Double`.
* `int` is modelled by `Int` (vertex ids, counters) without wrap-around; the
  heap index `currentSize` is a `Nat` because the constructor sets it to `0`
  and the only decrement is guarded by `assert (currentSize > 0)`.
* `std::vector` and `std::list` are `List`s.  An access outside a vector is
  undefined behaviour in the source and is the error `Err.bounds` here.
* `Edge<int>*` is modelled by the pointed-to value; a null pointer is `none`.
* member functions take the object as first argument and return the new
  object inside `Except Err`.
* loops whose bound is not syntactic carry a fuel argument and fail with
  `Err.fuel` when it runs out.
-/

namespace Algorithms

/-- Ways in which a run of the code can fail. -/
inductive Err where
  /-- an index outside a `std::vector` (undefined behaviour in the source) -/
  | bounds
  /-- a failed `assert` -/
  | assertion
  /-- a `std::vector` constructed with a negative size -/
  | length
  /-- the `std::invalid_argument` thrown by `Edge::other` -/
  | invalidArgument
  /-- the fuel of a loop of the model ran out -/
  | fuel
deriving DecidableEq, Repr

deriving instance DecidableEq for Except

/-- The value `std::numeric_limits<double>::max()`, that is `2^1024 - 2^971`. -/
def DBL_MAX : Rat :=
  179769313486231570814527423731704356798070567525844996598917476803157260780028538760589558632766878171540458953514382464234321326889464182768467546703537516986049910576551282076245490090389328944075868508455133942304583236903222948165808559332123348274797826204144723168738177180919299881250404026184124858368

/-! ## The type `double` -/

/-- A value of the type `double` (IEEE 754 binary64): a finite number, an
infinity or NaN.  The two zeros are not told apart. -/
inductive Double where
  | finite (q : Rat)
  | infinite (negative : Bool)
  | nan
deriving DecidableEq, Repr

namespace Double

/-- The comparison `a > b` of two doubles: false when either one is NaN. -/
def gt : Double → Double → Bool
  | finite a, finite b => decide (a > b)
  | finite _, infinite n => n
  | infinite n, finite _ => !n
  | infinite n, infinite m => !n && m
  | _, _ => false

/-- The comparison `a <= b` of two doubles: false when either one is NaN. -/
def le : Double → Double → Bool
  | finite a, finite b => decide (a ≤ b)
  | finite _, infinite n => !n
  | infinite n, finite _ => n
  | infinite n, infinite m => n || !m
  | _, _ => false

/-- The power `2 ^ e` for an integer exponent. -/
def pow2 (e : Int) : Rat :=
  if 0 ≤ e then 2 ^ e.toNat else 1 / 2 ^ (-e).toNat

/-- Rounding of a rational to the nearest integer, a tie going to the even
one. -/
def roundHalfEven (x : Rat) : Int :=
  let f := ⌊x⌋
  let r := x - f
  if r < 1 / 2 then f
  else if 1 / 2 < r then f + 1
  else if f % 2 = 0 then f else f + 1

/-- The exponent of the spacing of the doubles around `x`: 52 below the
binary exponent of `x`, and `-1074` in the subnormal range. -/
def ulpExponent (x : Rat) : Int :=
  max (Int.log 2 |x|) (-1022) - 52

/-- The double nearest to the exact result `x`, a tie going to the even
significand; a result beyond the largest finite double is an infinity. -/
def round (x : Rat) : Double :=
  let q := pow2 (ulpExponent x)
  let y : Rat := roundHalfEven (x / q) * q
  if DBL_MAX < |y| then infinite (decide (x < 0)) else finite y

/-- The sum `a + b` of two doubles. -/
def add : Double → Double → Double
  | finite a, finite b => round (a + b)
  | finite _, infinite n => infinite n
  | infinite n, finite _ => infinite n
  | infinite n, infinite m => if n = m then infinite n else nan
  | _, _ => nan

end Double


/-! ## Vectors -/

/-- Read `xs[i]` for an `int` index `i` of a `std::vector`. -/
def vecGet {α : Type} (xs : List α) (i : Int) : Except Err α :=
  if i < 0 then .error .bounds
  else match xs[i.toNat]? with
    | some a => .ok a
    | none => .error .bounds

/-- Write `xs[i] = a` for an `int` index `i` of a `std::vector`. -/
def vecSet {α : Type} (xs : List α) (i : Int) (a : α) : Except Err (List α) :=
  if 0 ≤ i ∧ i.toNat < xs.length then .ok (xs.set i.toNat a) else .error .bounds

/-! ## PriorityQueue.h -/

/-- The `struct HeapEntry` of `PriorityQueue<T>`. -/
structure HeapEntry (T : Type) where
  value : T
  priority : Rat
deriving DecidableEq, Repr

/-- A value-initialised `HeapEntry`: `T()` and `0.0`. -/
instance {T : Type} [Inhabited T] : Inhabited (HeapEntry T) := ⟨⟨default, 0⟩⟩

/-- The class `PriorityQueue<T>`: the vector `heap` and `currentSize`. -/
structure PriorityQueue (T : Type) where
  heap : List (HeapEntry T)
  currentSize : Nat
deriving DecidableEq, Repr

/-- The constructor `PriorityQueue(int maxCapacity)`. -/
def mkPriorityQueue {T : Type} [Inhabited T] (maxCapacity : Int) :
    Except Err (PriorityQueue T) :=
  if maxCapacity < 0 then .error .length
  else .ok ⟨List.replicate maxCapacity.toNat default, 0⟩

namespace PriorityQueue

variable {T : Type}

/-- Read `heap[i]`. -/
def slot (pq : PriorityQueue T) (i : Nat) : Except Err (HeapEntry T) :=
  match pq.heap[i]? with
  | some e => .ok e
  | none => .error .bounds

/-- Write `heap[i] = e`. -/
def setSlot (pq : PriorityQueue T) (i : Nat) (e : HeapEntry T) :
    Except Err (PriorityQueue T) :=
  if i < pq.heap.length then .ok { pq with heap := pq.heap.set i e } else .error .bounds

/-- The member `swap(i, j)`. -/
def swap (pq : PriorityQueue T) (i j : Nat) : Except Err (PriorityQueue T) := do
  let temp ← pq.slot i
  let hj ← pq.slot j
  let pq1 ← pq.setSlot i hj
  pq1.setSlot j temp

/-- The member `greater(i, j)`. -/
def greater (pq : PriorityQueue T) (i j : Nat) : Except Err Bool := do
  let a ← pq.slot i
  let b ← pq.slot j
  .ok (decide (a.priority > b.priority))

/-- The loop of `percolateUp(k)`; every iteration halves `k`. -/
def percolateUpLoop : Nat → PriorityQueue T → Nat → Except Err (PriorityQueue T)
  | 0, pq, k => if k > 1 then .error .fuel else .ok pq
  | fuel + 1, pq, k =>
    if k > 1 then do
      let g ← pq.greater (k / 2) k
      if g then do
        let pq1 ← pq.swap k (k / 2)
        percolateUpLoop fuel pq1 (k / 2)
      else .ok pq
    else .ok pq

/-- The member `percolateUp(k)`. -/
def percolateUp (pq : PriorityQueue T) (k : Nat) : Except Err (PriorityQueue T) :=
  percolateUpLoop k pq k

/-- The loop of `percolateDown(k)`; every iteration at least doubles `k`. -/
def percolateDownLoop : Nat → PriorityQueue T → Nat → Except Err (PriorityQueue T)
  | 0, pq, k => if 2 * k ≤ pq.currentSize then .error .fuel else .ok pq
  | fuel + 1, pq, k =>
    if 2 * k ≤ pq.currentSize then do
      let j := 2 * k
      let g1 ← if j < pq.currentSize then pq.greater j (j + 1) else .ok false
      let j := if g1 then j + 1 else j
      let g2 ← pq.greater k j
      if !g2 then .ok pq
      else do
        let pq1 ← pq.swap k j
        percolateDownLoop fuel pq1 j
    else .ok pq

/-- The member `percolateDown(k)`. -/
def percolateDown (pq : PriorityQueue T) (k : Nat) : Except Err (PriorityQueue T) :=
  percolateDownLoop pq.currentSize pq k

/-- The member `push(element, priority)`. -/
def push [Inhabited T] (pq : PriorityQueue T) (element : T) (priority : Rat) :
    Except Err (PriorityQueue T) := do
  let length := pq.heap.length
  let pq1 : PriorityQueue T :=
    if (pq.currentSize : Int) = (length : Int) - 1 then
      { pq with heap := pq.heap ++ List.replicate (2 * length - length) default }
    else pq
  let hole := pq1.currentSize + 1
  let pq2 : PriorityQueue T := { pq1 with currentSize := hole }
  let e ← pq2.slot hole
  let pq3 ← pq2.setSlot hole { e with value := element }
  let e ← pq3.slot hole
  let pq4 ← pq3.setSlot hole { e with priority := priority }
  pq4.percolateUp hole

/-- The member `pop()`. -/
def pop (pq : PriorityQueue T) : Except Err (PriorityQueue T) :=
  if pq.currentSize > 0 then do
    let last ← pq.slot pq.currentSize
    let pq1 : PriorityQueue T := { pq with currentSize := pq.currentSize - 1 }
    let pq2 ← pq1.setSlot 1 last
    pq2.percolateDown 1
  else .error .assertion

/-- The member `changePriority(element, priority)`. -/
def changePriority (pq : PriorityQueue T) (element : T) (priority : Rat) :
    Except Err (PriorityQueue T) := do
  let e ← pq.slot pq.currentSize
  let pq1 ← pq.setSlot pq.currentSize { e with value := element }
  let e ← pq1.slot pq1.currentSize
  let pq2 ← pq1.setSlot pq1.currentSize { e with priority := priority }
  pq2.percolateUp pq2.currentSize

/-- The loop of `contains(element)` over the indices still to visit. -/
def containsLoop [DecidableEq T] (pq : PriorityQueue T) (element : T) :
    List Nat → Except Err Bool
  | [] => .ok false
  | i :: rest => do
    let e ← pq.slot i
    if e.value = element then .ok true else containsLoop pq element rest

/-- The member `contains(element)`: `for (int i = 0; i < currentSize; i++)`. -/
def contains [DecidableEq T] (pq : PriorityQueue T) (element : T) : Except Err Bool :=
  containsLoop pq element (List.range pq.currentSize)

/-- The member `top()`. -/
def top (pq : PriorityQueue T) : Except Err T := do
  let e ← pq.slot 1
  .ok e.value

/-- The member `delMin()`. -/
def delMin (pq : PriorityQueue T) : Except Err (T × PriorityQueue T) := do
  let u ← pq.top
  let pq1 ← pq.pop
  .ok (u, pq1)

/-- The member `size()`. -/
def size (pq : PriorityQueue T) : Nat := pq.currentSize

/-- The member `isEmpty()`. -/
def isEmpty (pq : PriorityQueue T) : Bool := pq.currentSize == 0

end PriorityQueue

/-! ## PriorityQueue.h with priorities of type `double`

The members of `PriorityQueue<T>` once more, line by line as above, with the
priorities in `Double`: `greater` is the comparison `>` of doubles, which is
false when either side is NaN. -/

namespace Ieee

/-- The `struct HeapEntry` of `PriorityQueue<T>`. -/
structure HeapEntry (T : Type) where
  value : T
  priority : Double
deriving DecidableEq, Repr

/-- A value-initialised `HeapEntry`: `T()` and `0.0`. -/
instance {T : Type} [Inhabited T] : Inhabited (HeapEntry T) := ⟨⟨default, .finite 0⟩⟩

/-- The class `PriorityQueue<T>`: the vector `heap` and `currentSize`. -/
structure PriorityQueue (T : Type) where
  heap : List (HeapEntry T)
  currentSize : Nat
deriving DecidableEq, Repr

/-- The constructor `PriorityQueue(int maxCapacity)`. -/
def mkPriorityQueue {T : Type} [Inhabited T] (maxCapacity : Int) :
    Except Err (PriorityQueue T) :=
  if maxCapacity < 0 then .error .length
  else .ok ⟨List.replicate maxCapacity.toNat default, 0⟩

namespace PriorityQueue

variable {T : Type}

/-- Read `heap[i]`. -/
def slot (pq : PriorityQueue T) (i : Nat) : Except Err (HeapEntry T) :=
  match pq.heap[i]? with
  | some e => .ok e
  | none => .error .bounds

/-- Write `heap[i] = e`. -/
def setSlot (pq : PriorityQueue T) (i : Nat) (e : HeapEntry T) :
    Except Err (PriorityQueue T) :=
  if i < pq.heap.length then .ok { pq with heap := pq.heap.set i e } else .error .bounds

/-- The member `swap(i, j)`. -/
def swap (pq : PriorityQueue T) (i j : Nat) : Except Err (PriorityQueue T) := do
  let temp ← pq.slot i
  let hj ← pq.slot j
  let pq1 ← pq.setSlot i hj
  pq1.setSlot j temp

/-- The member `greater(i, j)`. -/
def greater (pq : PriorityQueue T) (i j : Nat) : Except Err Bool := do
  let a ← pq.slot i
  let b ← pq.slot j
  .ok (Double.gt a.priority b.priority)

/-- The loop of `percolateUp(k)`; every iteration halves `k`. -/
def percolateUpLoop : Nat → PriorityQueue T → Nat → Except Err (PriorityQueue T)
  | 0, pq, k => if k > 1 then .error .fuel else .ok pq
  | fuel + 1, pq, k =>
    if k > 1 then do
      let g ← pq.greater (k / 2) k
      if g then do
        let pq1 ← pq.swap k (k / 2)
        percolateUpLoop fuel pq1 (k / 2)
      else .ok pq
    else .ok pq

/-- The member `percolateUp(k)`. -/
def percolateUp (pq : PriorityQueue T) (k : Nat) : Except Err (PriorityQueue T) :=
  percolateUpLoop k pq k

/-- The loop of `percolateDown(k)`; every iteration at least doubles `k`. -/
def percolateDownLoop : Nat → PriorityQueue T → Nat → Except Err (PriorityQueue T)
  | 0, pq, k => if 2 * k ≤ pq.currentSize then .error .fuel else .ok pq
  | fuel + 1, pq, k =>
    if 2 * k ≤ pq.currentSize then do
      let j := 2 * k
      let g1 ← if j < pq.currentSize then pq.greater j (j + 1) else .ok false
      let j := if g1 then j + 1 else j
      let g2 ← pq.greater k j
      if !g2 then .ok pq
      else do
        let pq1 ← pq.swap k j
        percolateDownLoop fuel pq1 j
    else .ok pq

/-- The member `percolateDown(k)`. -/
def percolateDown (pq : PriorityQueue T) (k : Nat) : Except Err (PriorityQueue T) :=
  percolateDownLoop pq.currentSize pq k

/-- The member `push(element, priority)`. -/
def push [Inhabited T] (pq : PriorityQueue T) (element : T) (priority : Double) :
    Except Err (PriorityQueue T) := do
  let length := pq.heap.length
  let pq1 : PriorityQueue T :=
    if (pq.currentSize : Int) = (length : Int) - 1 then
      { pq with heap := pq.heap ++ List.replicate (2 * length - length) default }
    else pq
  let hole := pq1.currentSize + 1
  let pq2 : PriorityQueue T := { pq1 with currentSize := hole }
  let e ← pq2.slot hole
  let pq3 ← pq2.setSlot hole { e with value := element }
  let e ← pq3.slot hole
  let pq4 ← pq3.setSlot hole { e with priority := priority }
  pq4.percolateUp hole

/-- The member `pop()`. -/
def pop (pq : PriorityQueue T) : Except Err (PriorityQueue T) :=
  if pq.currentSize > 0 then do
    let last ← pq.slot pq.currentSize
    let pq1 : PriorityQueue T := { pq with currentSize := pq.currentSize - 1 }
    let pq2 ← pq1.setSlot 1 last
    pq2.percolateDown 1
  else .error .assertion

/-- The member `changePriority(element, priority)`. -/
def changePriority (pq : PriorityQueue T) (element : T) (priority : Double) :
    Except Err (PriorityQueue T) := do
  let e ← pq.slot pq.currentSize
  let pq1 ← pq.setSlot pq.currentSize { e with value := element }
  let e ← pq1.slot pq1.currentSize
  let pq2 ← pq1.setSlot pq1.currentSize { e with priority := priority }
  pq2.percolateUp pq2.currentSize

/-- The loop of `contains(element)` over the indices still to visit. -/
def containsLoop [DecidableEq T] (pq : PriorityQueue T) (element : T) :
    List Nat → Except Err Bool
  | [] => .ok false
  | i :: rest => do
    let e ← pq.slot i
    if e.value = element then .ok true else containsLoop pq element rest

/-- The member `contains(element)`: `for (int i = 0; i < currentSize; i++)`. -/
def contains [DecidableEq T] (pq : PriorityQueue T) (element : T) : Except Err Bool :=
  containsLoop pq element (List.range pq.currentSize)

/-- The member `top()`. -/
def top (pq : PriorityQueue T) : Except Err T := do
  let e ← pq.slot 1
  .ok e.value

/-- The member `delMin()`. -/
def delMin (pq : PriorityQueue T) : Except Err (T × PriorityQueue T) := do
  let u ← pq.top
  let pq1 ← pq.pop
  .ok (u, pq1)

/-- The member `size()`. -/
def size (pq : PriorityQueue T) : Nat := pq.currentSize

/-- The member `isEmpty()`. -/
def isEmpty (pq : PriorityQueue T) : Bool := pq.currentSize == 0

end PriorityQueue

end Ieee

/-! ## Node.h and Edge.h -/

/-- The class `Edge<int>`: the values of the two `Node<int>` it points to and
the weight. -/
structure Edge where
  x : Int
  y : Int
  weight : Rat
deriving DecidableEq, Repr

namespace Edge

/-- The member `getWeight()`. -/
def getWeight (e : Edge) : Rat := e.weight

/-- The member `either()`. -/
def either (e : Edge) : Int := e.x

/-- The member `other(vertex)`. -/
def other (e : Edge) (vertex : Int) : Except Err Int :=
  if vertex = e.x then .ok e.y
  else if vertex = e.y then .ok e.x
  else .error .invalidArgument

end Edge

/-! ## Graph.h and Graph.cpp -/

/-- The class `Graph`: `V`, `E` and the vector of adjacency lists. -/
structure Graph where
  V : Int
  E : Int
  adjacencyList : List (List Edge)
deriving DecidableEq, Repr

/-- The constructor `Graph(int V)`.  For a negative `V` the vector constructor
throws before the `assert` is reached. -/
def mkGraph (V : Int) : Except Err Graph :=
  if V < 0 then .error .length
  else .ok ⟨V, 0, List.replicate V.toNat []⟩

namespace Graph

/-- The member `getV()`. -/
def getV (g : Graph) : Int := g.V

/-- The member `getE()`. -/
def getE (g : Graph) : Int := g.E

/-- The check `assert(x > 0 || x <= V)` that opens the members taking a vertex. -/
def assertVertex (g : Graph) (x : Int) : Except Err Unit :=
  if x > 0 ∨ x ≤ g.V then .ok () else .error .assertion

/-- The member `isAdjacent(x, y)`. -/
def isAdjacent (g : Graph) (x y : Int) : Except Err Bool := do
  g.assertVertex x
  g.assertVertex y
  let l ← vecGet g.adjacencyList x
  .ok (l.any fun e => decide (e.x = x ∧ e.y = y))

/-- The member `getNeighbors(x)`. -/
def getNeighbors (g : Graph) (x : Int) : Except Err (List Edge) := do
  g.assertVertex x
  vecGet g.adjacencyList x

/-- The member `getDegree(v)`. -/
def getDegree (g : Graph) (v : Int) : Except Err Int := do
  g.assertVertex v
  let l ← vecGet g.adjacencyList v
  .ok (l.length : Int)

/-- The member `addEdge(x, y, w)`: the loop returns `false` at the first edge of
`adjacencyList[x]` whose `getX()` value equals `y`. -/
def addEdge (g : Graph) (x y : Int) (w : Rat) : Except Err (Bool × Graph) := do
  g.assertVertex x
  g.assertVertex y
  let l ← vecGet g.adjacencyList x
  if l.any fun e => decide (e.x = y) then .ok (false, g)
  else do
    let adj ← vecSet g.adjacencyList x (l ++ [⟨x, y, w⟩])
    .ok (true, { g with E := g.E + 1, adjacencyList := adj })

/-- The member `removeEdge(x, y)`: the loop stops at the first edge of
`adjacencyList[x]` whose `getX()` value equals `y`; `remove(*itr)` takes out
the list element holding that pointer, which is the element found. -/
def removeEdge (g : Graph) (x y : Int) : Except Err (Bool × Graph) := do
  g.assertVertex x
  g.assertVertex y
  let l ← vecGet g.adjacencyList x
  match l.findIdx? fun e => decide (e.x = y) with
  | some i => do
    let adj ← vecSet g.adjacencyList x (l.eraseIdx i)
    .ok (true, { g with E := g.E - 1, adjacencyList := adj })
  | none => .ok (false, g)

end Graph

/-- Read `uvw[i]` in the vector of tokens. -/
def tokenAt {Tok : Type} (uvw : List Tok) (i : Nat) : Except Err Tok :=
  match uvw[i]? with
  | some t => .ok t
  | none => .error .bounds

/-- The value of `uvw.size() - 2`, computed in `size_t` (64 bits, unsigned). -/
def sizeMinusTwo (size : Nat) : Nat :=
  (size + 2 ^ 64 - 2) % 2 ^ 64

/-- The loop `for (unsigned int i = 1; i < uvw.size()-2; i+=3)` of
`Graph(const std::string&)`; `i` is an `unsigned int` of 32 bits.  The two
`convert` instances are parameters. -/
def Graph.tokenLoop {Tok : Type} (convertInt : Tok → Int) (convertDouble : Tok → Rat)
    (uvw : List Tok) : Nat → Nat → Graph → Except Err Graph
  | 0, i, g => if i < sizeMinusTwo uvw.length then .error .fuel else .ok g
  | fuel + 1, i, g =>
    if i < sizeMinusTwo uvw.length then do
      let tu ← tokenAt uvw i
      let tv ← tokenAt uvw ((i + 1) % 2 ^ 32)
      let tw ← tokenAt uvw ((i + 2) % 2 ^ 32)
      let r ← g.addEdge (convertInt tu) (convertInt tv) (convertDouble tw)
      Graph.tokenLoop convertInt convertDouble uvw fuel ((i + 3) % 2 ^ 32) r.2
    else .ok g

/-- The constructor `Graph(const std::string& filename)` on the tokens `uvw`
read from a file that could be opened. -/
def mkGraphFromTokens {Tok : Type} (convertInt : Tok → Int) (convertDouble : Tok → Rat)
    (uvw : List Tok) : Except Err Graph := do
  let t0 ← tokenAt uvw 0
  let V := convertInt t0
  let g ← (if V < 0 then .error .length else .ok ⟨V, 0, List.replicate V.toNat []⟩ :
    Except Err Graph)
  Graph.tokenLoop convertInt convertDouble uvw uvw.length 1 g

/-! ## MST.h and MST.cpp -/

/-- The class `MST`.  The queue is a `PriorityQueue<double>` in the source and
holds vertex ids, which convert to `double` and back without loss. -/
structure MST where
  edgeTo : List (Option Edge)
  distTo : List Rat
  marked : List Bool
  pq : PriorityQueue Int
deriving DecidableEq, Repr

namespace MST

/-- The body of the loop of `scan(g, v)` for one edge `e` of `adj[v]`. -/
def scanEdge (st : MST) (v : Int) (e : Edge) : Except Err MST := do
  let w ← e.other v
  let mw ← vecGet st.marked w
  if mw then .ok st
  else do
    let dw ← vecGet st.distTo w
    if e.getWeight < dw then do
      let distTo ← vecSet st.distTo w e.getWeight
      let edgeTo ← vecSet st.edgeTo w (some e)
      let c ← st.pq.contains w
      let d ← vecGet distTo w
      let pq ← if c then st.pq.changePriority w d else st.pq.push w d
      .ok { st with distTo := distTo, edgeTo := edgeTo, pq := pq }
    else .ok st

/-- The loop `for (Edge<int>* e : adj[v])` of `scan`. -/
def scanLoop (v : Int) : List Edge → MST → Except Err MST
  | [], st => .ok st
  | e :: rest, st => do
    let st1 ← scanEdge st v e
    scanLoop v rest st1

/-- The member `scan(g, v)`. -/
def scan (st : MST) (g : Graph) (v : Int) : Except Err MST := do
  let marked ← vecSet st.marked v true
  let adj := g.adjacencyList
  let l ← vecGet adj v
  scanLoop v l { st with marked := marked }

/-- The loop `while (!pq.isEmpty())` of `prim`. -/
def primLoop (g : Graph) : Nat → MST → Except Err MST
  | 0, st => if st.pq.isEmpty then .ok st else .error .fuel
  | fuel + 1, st =>
    if st.pq.isEmpty then .ok st
    else do
      let v ← st.pq.top
      let pq ← st.pq.pop
      let st1 ← scan { st with pq := pq } g v
      primLoop g fuel st1

/-- Fuel given to each run of the loop of `prim`: one more than the number of
vertices plus the number of stored edge records. -/
def loopFuel (g : Graph) : Nat :=
  g.adjacencyList.length + (g.adjacencyList.map List.length).sum + 1

/-- The member `prim(g, s)`. -/
def prim (st : MST) (g : Graph) (s : Int) : Except Err MST := do
  let distTo ← vecSet st.distTo s 0
  let d ← vecGet distTo s
  let pq ← st.pq.push s d
  primLoop g (loopFuel g) { st with distTo := distTo, pq := pq }

/-- The loop `for (int v = 0; v < graph.getV(); v++)` of the constructor, over
the values of `v` still to visit. -/
def ctorLoop (g : Graph) : List Nat → MST → Except Err MST
  | [], st => .ok st
  | v :: rest, st => do
    let m ← vecGet st.marked (v : Int)
    let st1 ← if !m then prim st g (v : Int) else .ok st
    ctorLoop g rest st1

/-- The member `edges()`. -/
def edges (st : MST) : List Edge :=
  st.edgeTo.filterMap id

/-- The member `cost()`: `weight` starts at `0.0` and every `weight +=
e->getWeight()` rounds the sum to a double. -/
def cost (st : MST) : Double :=
  st.edges.foldl (fun weight e => Double.add weight (.finite e.getWeight)) (.finite 0)

end MST

/-- The constructor `MST(Graph& graph)`. -/
def mkMST (graph : Graph) : Except Err MST :=
  if graph.getV < 0 then .error .length
  else do
    let n := graph.getV.toNat
    let pq ← mkPriorityQueue graph.getV
    MST.ctorLoop graph (List.range n)
      ⟨List.replicate n none, List.replicate n DBL_MAX, List.replicate n false, pq⟩

/-! ## Vocabulary of the statements -/

namespace PriorityQueue

variable {T : Type}

/-- The entry found in heap slot `i`. -/
def entry [Inhabited T] (pq : PriorityQueue T) (i : Nat) : HeapEntry T :=
  (pq.heap[i]?).getD default

/-- The priority found in heap slot `i`. -/
def key [Inhabited T] (pq : PriorityQueue T) (i : Nat) : Rat :=
  (pq.entry i).priority

/-- The queue after the contents of slots `i` and `j` changed places. -/
def swapped [Inhabited T] (pq : PriorityQueue T) (i j : Nat) : PriorityQueue T :=
  { pq with heap := (pq.heap.set i (pq.entry j)).set j (pq.entry i) }

/-- The child of slot `k` that `percolateDown` compares with `k`. -/
def minChild [Inhabited T] (pq : PriorityQueue T) (k : Nat) : Nat :=
  if 2 * k < pq.currentSize ∧ pq.key (2 * k + 1) < pq.key (2 * k) then 2 * k + 1 else 2 * k

/-- Heap order stated on priorities, with the edge into slot `k` left out and
the children of `k` compared with the parent of `k` instead: the state of the
loop of `percolateUp`. -/
def UpInv [Inhabited T] (pq : PriorityQueue T) (k : Nat) : Prop :=
  (∀ j, 2 ≤ j → j ≤ pq.currentSize → j ≠ k → pq.key (j / 2) ≤ pq.key j) ∧
  (2 ≤ k → ∀ c, c ≤ pq.currentSize → c / 2 = k → pq.key (k / 2) ≤ pq.key c)

/-- Heap order stated on priorities, with the edges out of slot `k` left out
and the children of `k` compared with the parent of `k` instead: the state of
the loop of `percolateDown`. -/
def DownInv [Inhabited T] (pq : PriorityQueue T) (k : Nat) : Prop :=
  (∀ j, 2 ≤ j → j ≤ pq.currentSize → j / 2 ≠ k → pq.key (j / 2) ≤ pq.key j) ∧
  (2 ≤ k → ∀ c, c ≤ pq.currentSize → c / 2 = k → pq.key (k / 2) ≤ pq.key c)

/-- Heap order stated on priorities. -/
def KeyOrdered [Inhabited T] (pq : PriorityQueue T) : Prop :=
  ∀ j, 2 ≤ j → j ≤ pq.currentSize → pq.key (j / 2) ≤ pq.key j

/-- Slot `k` holds `e`, and `e` has a smaller priority than every other
queued entry. -/
def StrictMinAt [Inhabited T] (pq : PriorityQueue T) (k : Nat) (e : HeapEntry T) : Prop :=
  pq.entry k = e ∧ ∀ m, 1 ≤ m → m ≤ pq.currentSize → m ≠ k → e.priority < pq.key m

/-- The queue after the two assignments that open `changePriority`: slot
`currentSize` holds the new element and priority. -/
def overwriteLast (pq : PriorityQueue T) (element : T) (priority : Rat) : PriorityQueue T :=
  { pq with heap := pq.heap.set pq.currentSize ⟨element, priority⟩ }

/-- The queued entries: the contents of heap slots `1 .. currentSize`. -/
def entries (pq : PriorityQueue T) : List (HeapEntry T) :=
  (pq.heap.drop 1).take pq.currentSize

/-- Every slot that is in use lies inside the vector, and so does the slot a
`push` without resize would fill: `currentSize < heap.size()`. -/
def InBounds (pq : PriorityQueue T) : Prop :=
  pq.currentSize < pq.heap.length

instance (pq : PriorityQueue T) : Decidable pq.InBounds :=
  inferInstanceAs (Decidable (pq.currentSize < pq.heap.length))

/-- Heap order: for `2 ≤ k ≤ currentSize` the priority in slot `k / 2` is at
most the priority in slot `k`, both slots being inside the vector. -/
def HeapOrdered (pq : PriorityQueue T) : Prop :=
  ∀ k, 2 ≤ k → k ≤ pq.currentSize →
    ∃ a b, pq.heap[k / 2]? = some a ∧ pq.heap[k]? = some b ∧ a.priority ≤ b.priority

/-- The queues reached from `PriorityQueue(maxCapacity)`, `maxCapacity ≥ 1`, by
calls of `push`, `pop` and `changePriority` that return. -/
inductive Reachable [Inhabited T] : PriorityQueue T → Prop where
  | init (maxCapacity : Int) (pq : PriorityQueue T) :
      1 ≤ maxCapacity → mkPriorityQueue maxCapacity = .ok pq → Reachable pq
  | push (pq pq1 : PriorityQueue T) (element : T) (priority : Rat) :
      Reachable pq → pq.push element priority = .ok pq1 → Reachable pq1
  | pop (pq pq1 : PriorityQueue T) :
      Reachable pq → pq.pop = .ok pq1 → Reachable pq1
  | changePriority (pq pq1 : PriorityQueue T) (element : T) (priority : Rat) :
      Reachable pq → pq.changePriority element priority = .ok pq1 → Reachable pq1

/-- A queue built by `PriorityQueue<int>(2)`, `push(7, 3)`, `push(8, 1)`,
`push(9, 2)`. -/
def sampleQueue : PriorityQueue Int :=
  ⟨[⟨0, 0⟩, ⟨8, 1⟩, ⟨7, 3⟩, ⟨9, 2⟩], 3⟩

end PriorityQueue

/-- A client that calls `addEdge(x, y, w)` for each triple in turn, ignoring
the returned flags. -/
def Graph.addEdges (g : Graph) : List (Int × Int × Rat) → Except Err Graph
  | [] => .ok g
  | (x, y, w) :: rest => do
    let r ← g.addEdge x y w
    addEdges r.2 rest

/-- A client that builds `Graph(V)` and adds the edges of `calls` in order. -/
def buildGraph (V : Int) (calls : List (Int × Int × Rat)) : Except Err Graph := do
  let g ← mkGraph V
  g.addEdges calls

/-- A client that builds the graph, constructs `MST(graph)` and reads
`edges()` and `cost()`. -/
def runMST (V : Int) (calls : List (Int × Int × Rat)) :
    Except Err (List Edge × Double) := do
  let g ← buildGraph V calls
  let st ← mkMST g
  .ok (st.edges, st.cost)

/-- All edge records stored in the graph. -/
def Graph.storedEdges (g : Graph) : List Edge := g.adjacencyList.flatten

/-- The vertices `a` and `b` are joined by a path of edges of `es`, every edge
read in both directions. -/
def Joined (es : List Edge) (a b : Int) : Prop :=
  Relation.ReflTransGen
    (fun u v => ∃ e ∈ es, (e.x = u ∧ e.y = v) ∨ (e.x = v ∧ e.y = u)) a b

/-- The representation invariant of `Graph`: one adjacency list per vertex. -/
def Graph.WellFormed (g : Graph) : Prop :=
  0 ≤ g.V ∧ g.adjacencyList.length = g.V.toNat

instance (g : Graph) : Decidable g.WellFormed :=
  inferInstanceAs (Decidable (0 ≤ g.V ∧ g.adjacencyList.length = g.V.toNat))

/-- The graph built by `Graph(2)` and `addEdge(0, 1, 1)`. -/
def sampleGraph : Graph := ⟨2, 1, [[⟨0, 1, 1⟩], []]⟩

/-- Five vertices, six undirected edges, each added in both directions. -/
def callsA : List (Int × Int × Rat) :=
  [(0, 1, 3), (1, 0, 3), (0, 2, 1), (2, 0, 1), (0, 3, 2), (3, 0, 2),
   (2, 3, 1), (3, 2, 1), (3, 4, 5), (4, 3, 5), (1, 4, 1), (4, 1, 1)]

/-- Five vertices, five undirected edges, each added in both directions. -/
def callsB : List (Int × Int × Rat) :=
  [(0, 4, 3), (4, 0, 3), (0, 2, 1), (2, 0, 1), (0, 3, 2), (3, 0, 2),
   (2, 3, 1), (3, 2, 1), (4, 1, 1), (1, 4, 1)]

/-- Four stored edges of the graph built from `callsA`: 0-1, 0-2, 2-3, 1-4. -/
def treeA : List Edge := [⟨0, 1, 3⟩, ⟨0, 2, 1⟩, ⟨2, 3, 1⟩, ⟨1, 4, 1⟩]

/-- The state of the constructor of `MST` between two runs of `prim` on a graph
without edges. -/
def MST.EdgelessInv (n : Nat) (st : MST) : Prop :=
  st.edgeTo = List.replicate n none ∧ st.marked.length = n ∧ st.distTo.length = n ∧
    st.pq.currentSize = 0 ∧ st.pq.InBounds

/-- The calls `addEdge(0,1,1)`, `addEdge(0,2,2)`, `addEdge(0,3,2)`,
`addEdge(1,3,1)`, `addEdge(3,4,5)`, `addEdge(2,4,1)`. -/
def callsP : List (Int × Int × Rat) :=
  [(0, 1, 1), (0, 2, 2), (0, 3, 2), (1, 3, 1), (3, 4, 5), (2, 4, 1)]

/-- The calls of `callsP` with the second and the third exchanged. -/
def callsQ : List (Int × Int × Rat) :=
  [(0, 1, 1), (0, 3, 2), (0, 2, 2), (1, 3, 1), (3, 4, 5), (2, 4, 1)]

/-- The calls of the four-vertex scenario. -/
def callsS : List (Int × Int × Rat) :=
  [(0, 1, 1), (1, 2, 2), (0, 2, 3), (2, 3, 4)]

/-- The graphs reached from `Graph(V)` by calls of `addEdge` and `removeEdge`
that return. -/
inductive Graph.Reachable : Graph → Prop where
  | init (V : Int) (g : Graph) : mkGraph V = .ok g → Graph.Reachable g
  | addEdge (g g1 : Graph) (x y : Int) (w : Rat) (b : Bool) :
      Graph.Reachable g → g.addEdge x y w = .ok (b, g1) → Graph.Reachable g1
  | removeEdge (g g1 : Graph) (x y : Int) (b : Bool) :
      Graph.Reachable g → g.removeEdge x y = .ok (b, g1) → Graph.Reachable g1

/-- A client that adds up `getDegree(v)` for `v = 0, ..., getV() - 1`. -/
def Graph.degreeSum (g : Graph) : Except Err Int :=
  (List.range g.getV.toNat).foldlM
    (fun (acc : Int) (v : Nat) => do
      let d ← g.getDegree (v : Int)
      pure (acc + d)) 0

/-- The number of edge records, list by list. -/
def Graph.recordCount (g : Graph) : Int :=
  (g.adjacencyList.map fun l => (l.length : Int)).sum

/-- Every edge record lies in the list of its first endpoint. -/
def Graph.FirstEndpointOwns (g : Graph) : Prop :=
  ∀ (v : Nat) (l : List Edge), g.adjacencyList[v]? = some l → ∀ e ∈ l, e.x = (v : Int)

/-- Every edge record has its second endpoint in `[0, V)`. -/
def Graph.EndpointsInRange (g : Graph) : Prop :=
  ∀ (v : Nat) (l : List Edge), g.adjacencyList[v]? = some l →
    ∀ e ∈ l, 0 ≤ e.y ∧ e.y < g.V

/-- What holds of a graph built by `Graph(V)` and calls of `addEdge` with both
endpoints in `[0, V)`. -/
def Graph.Built (g : Graph) : Prop :=
  g.WellFormed ∧ g.FirstEndpointOwns ∧ g.EndpointsInRange

namespace MST

/-- The flag `marked[w]`, false outside the vector. -/
def isMarked (st : MST) (w : Int) : Bool :=
  (st.marked[w.toNat]?).getD false

/-- The value `distTo[w]`, `0` outside the vector. -/
def dist (st : MST) (w : Int) : Rat :=
  (st.distTo[w.toNat]?).getD 0

/-- An edge record that `scan` would relax in this state: its second endpoint
is not marked and its weight is below `distTo` of that endpoint. -/
def Relaxable (st : MST) (e : Edge) : Bool :=
  !st.isMarked e.y && decide (e.weight < st.dist e.y)

/-- The number of queued entries plus the number of edge records that can
still be relaxed; every iteration of the loop of `prim` lowers it. -/
def potential (g : Graph) (st : MST) : Nat :=
  st.pq.currentSize + g.storedEdges.countP st.Relaxable

/-- The state after `distTo[s] = 0.0` and the `push` that open `prim`. -/
def startPrim (st : MST) (s : Int) (pq : PriorityQueue Int) : MST :=
  { st with distTo := st.distTo.set s.toNat 0, pq := pq }

/-- The state after `pq.pop()` and `marked[v] = true`. -/
def markVertex (st : MST) (v : Int) (pq : PriorityQueue Int) : MST :=
  { st with marked := st.marked.set v.toNat true, pq := pq }

/-- The state after `scan` relaxed the edge `e`: `distTo` and `edgeTo` of its
second endpoint are set and the queue was updated. -/
def relaxEdge (st : MST) (e : Edge) (pq : PriorityQueue Int) : MST :=
  { st with distTo := st.distTo.set e.y.toNat e.weight,
            edgeTo := st.edgeTo.set e.y.toNat (some e), pq := pq }

/-- The shape of the state during the construction: three vectors of length
`V`, a queue whose slots in use lie inside its vector, queued values in
`[0, V)`. -/
structure Inv (g : Graph) (st : MST) : Prop where
  lenE : st.edgeTo.length = g.V.toNat
  lenD : st.distTo.length = g.V.toNat
  lenM : st.marked.length = g.V.toNat
  inb : st.pq.InBounds
  vals : ∀ e ∈ st.pq.entries, 0 ≤ e.value ∧ e.value < g.V

/-- A property of the state that the three state changes of the construction
keep, whatever the queue becomes. -/
structure Preserved (g : Graph) (Q : MST → Prop) : Prop where
  start : ∀ (st : MST) (s : Int) (pq : PriorityQueue Int), Inv g st → Q st →
    0 ≤ s → s < g.V → st.isMarked s = false → (st.isMarked 0 = true ∨ s = 0) →
    Q (st.startPrim s pq)
  mark : ∀ (st : MST) (v : Int) (pq : PriorityQueue Int), Inv g st → Q st →
    0 ≤ v → v < g.V → (st.isMarked 0 = true ∨ v = 0) → Q (st.markVertex v pq)
  relax : ∀ (st : MST) (e : Edge) (pq : PriorityQueue Int), Inv g st → Q st →
    e ∈ g.storedEdges → 0 ≤ e.y → e.y < g.V → st.isMarked e.x = true →
    st.isMarked 0 = true → st.isMarked e.y = false → e.weight < st.dist e.y →
    Q (st.relaxEdge e pq)

/-- Either vertex 0 is marked or only vertex 0 is queued. -/
def ZeroFirst (st : MST) : Prop :=
  st.isMarked 0 = true ∨ ∀ e ∈ st.pq.entries, e.value = 0

/-- Every non-null `edgeTo[w]` is a stored edge whose second endpoint is `w`,
and `w` is not 0. -/
def EdgeToOk (g : Graph) (st : MST) : Prop :=
  ∀ (w : Nat) (e : Edge), st.edgeTo[w]? = some (some e) →
    e ∈ g.storedEdges ∧ e.y = (w : Int) ∧ w ≠ 0

end MST

/-- The tokens of a file: the vertex count followed by the triples. -/
def tokensOf {Tok : Type} (t0 : Tok) (triples : List (Tok × Tok × Tok)) : List Tok :=
  t0 :: triples.flatMap fun t => [t.1, t.2.1, t.2.2]

/-- The `addEdge` calls that the triples stand for. -/
def callsOf {Tok : Type} (convertInt : Tok → Int) (convertDouble : Tok → Rat)
    (triples : List (Tok × Tok × Tok)) : List (Int × Int × Rat) :=
  triples.map fun t => (convertInt t.1, convertInt t.2.1, convertDouble t.2.2)

/-- The edges of `es`, read in both directions, contain no cycle: no edge
occurs twice and no edge joins two vertices that the other edges already
join (so there is no self-loop, no pair of parallel edges and no longer
cycle). -/
def Acyclic (es : List Edge) : Prop :=
  es.Nodup ∧ ∀ e ∈ es, ¬ Joined (es.erase e) e.x e.y

/-- A numbering `rank` of the vertices in the order in which they were first
marked, `t` vertices being marked so far: marked vertices have numbers below
`t`, the others the number `t`, and every non-null `edgeTo[w]` starts at a
marked vertex with a smaller number than `w`. -/
def MST.MarkOrder (st : MST) (rank : Int → Nat) (t : Nat) : Prop :=
  (∀ u : Int, st.isMarked u = true → rank u < t) ∧
  (∀ u : Int, st.isMarked u = false → rank u = t) ∧
  (∀ (w : Nat) (e : Edge), st.edgeTo[w]? = some (some e) →
    st.isMarked e.x = true ∧ rank e.x < rank (w : Int))

/-- Some numbering of the vertices is a marking order of the state. -/
def MST.Ranked (st : MST) : Prop :=
  ∃ (rank : Int → Nat) (t : Nat), st.MarkOrder rank t

namespace Ieee

/-- A client that calls `push(element, priority)` for each pair in turn. -/
def pushAll {T : Type} [Inhabited T] (pq : PriorityQueue T) :
    List (T × Double) → Except Err (PriorityQueue T)
  | [] => .ok pq
  | (element, priority) :: rest => do
    let pq1 ← pq.push element priority
    pushAll pq1 rest

namespace PriorityQueue

variable {T : Type}

/-- The queued entries: the contents of heap slots `1 .. currentSize`. -/
def entries (pq : PriorityQueue T) : List (HeapEntry T) :=
  (pq.heap.drop 1).take pq.currentSize

/-- Heap order with the comparison `<=` of doubles: for `2 ≤ k ≤ currentSize`
the priority in slot `k / 2` is `<=` the priority in slot `k`, both slots
being inside the vector. -/
def HeapOrdered (pq : PriorityQueue T) : Prop :=
  ∀ k, 2 ≤ k → k ≤ pq.currentSize →
    ∃ a b, pq.heap[k / 2]? = some a ∧ pq.heap[k]? = some b ∧
      Double.le a.priority b.priority = true

end PriorityQueue

/-- An entry with a finite priority, as an entry with a `double` priority. -/
def embedEntry {T : Type} (e : Algorithms.HeapEntry T) : HeapEntry T :=
  ⟨e.value, .finite e.priority⟩

/-- A queue with finite priorities, as a queue with `double` priorities. -/
def embed {T : Type} (pq : Algorithms.PriorityQueue T) : PriorityQueue T :=
  ⟨pq.heap.map embedEntry, pq.currentSize⟩

/-- The queues reached from `PriorityQueue(maxCapacity)`, `maxCapacity ≥ 1`, by
calls of `push`, `pop` and `changePriority` that return and whose priorities
are finite. -/
inductive FiniteReachable {T : Type} [Inhabited T] : PriorityQueue T → Prop where
  | init (maxCapacity : Int) (pq : PriorityQueue T) :
      1 ≤ maxCapacity → mkPriorityQueue maxCapacity = .ok pq → FiniteReachable pq
  | push (pq pq1 : PriorityQueue T) (element : T) (priority : Rat) :
      FiniteReachable pq → pq.push element (.finite priority) = .ok pq1 → FiniteReachable pq1
  | pop (pq pq1 : PriorityQueue T) :
      FiniteReachable pq → pq.pop = .ok pq1 → FiniteReachable pq1
  | changePriority (pq pq1 : PriorityQueue T) (element : T) (priority : Rat) :
      FiniteReachable pq → pq.changePriority element (.finite priority) = .ok pq1 →
      FiniteReachable pq1

/-- A queue built by `PriorityQueue<int>(2)`, `push(7, 3.0)`, `push(8, 1.0)`,
`push(9, 2.0)`. -/
def sampleQueue : PriorityQueue Int :=
  ⟨[⟨0, .finite 0⟩, ⟨8, .finite 1⟩, ⟨7, .finite 3⟩, ⟨9, .finite 2⟩], 3⟩

end Ieee

/-! ## Theorems -/

/-- The literal of `DBL_MAX` is `2^1024 - 2^971`. -/
theorem DBL_MAX_eq : DBL_MAX = 2 ^ 1024 - 2 ^ 971 := by
  norm_num [DBL_MAX]

/-! ### Rounding and addition of doubles -/

namespace Double

theorem pow2_eq_zpow (e : Int) : pow2 e = (2 : Rat) ^ e := by
  unfold pow2
  split
  · rename_i h
    conv_rhs => rw [← Int.toNat_of_nonneg h]
    rw [zpow_natCast]
  · rename_i h
    have h1 : e = -(((-e).toNat : Nat) : Int) := by
      rw [Int.toNat_of_nonneg (by omega)]; omega
    conv_rhs => rw [h1]
    rw [zpow_neg, zpow_natCast, one_div]

theorem roundHalfEven_intCast (m : Int) : roundHalfEven (m : Rat) = m := by
  unfold roundHalfEven
  simp

/-- A rational that is a whole multiple of the spacing at its own exponent and
lies within the finite range is a double: rounding leaves it as it is. -/
theorem round_of_multiple (x : Rat) (m : Int) (hm : x / pow2 (ulpExponent x) = m)
    (hmax : |x| ≤ DBL_MAX) : round x = finite x := by
  have hq : pow2 (ulpExponent x) ≠ 0 := by
    rw [pow2_eq_zpow]
    exact zpow_ne_zero _ (by norm_num)
  have hy : ((roundHalfEven (x / pow2 (ulpExponent x)) : Int) : Rat) * pow2 (ulpExponent x) = x := by
    rw [hm, roundHalfEven_intCast, ← hm]
    field_simp
  unfold round
  simp only [hy]
  rw [if_neg (not_lt.mpr hmax)]

/-- Integers below `2 ^ 53` in absolute value are doubles. -/
theorem round_intCast (n : Int) (h : n.natAbs < 2 ^ 53) : round (n : Rat) = finite n := by
  have habs : |(n : Rat)| = (n.natAbs : Rat) := by
    rw [← Int.cast_abs, Int.abs_eq_natAbs, Int.cast_natCast]
  have hlt : |(n : Rat)| < 2 ^ 53 := by
    rw [habs]
    exact_mod_cast h
  have hmax : |(n : Rat)| ≤ DBL_MAX := by
    rw [DBL_MAX_eq]
    have : (2 : Rat) ^ 53 ≤ 2 ^ 1024 - 2 ^ 971 := by norm_num
    exact le_trans (le_of_lt hlt) this
  by_cases hn : n = 0
  · subst hn
    exact round_of_multiple _ 0 (by simp) hmax
  have hpos : (0 : Rat) < |(n : Rat)| := abs_pos.mpr (by exact_mod_cast hn)
  have h1 : (1 : Rat) ≤ |(n : Rat)| := by
    rw [habs]
    have : 1 ≤ n.natAbs := Nat.one_le_iff_ne_zero.mpr (by simpa using hn)
    exact_mod_cast this
  have he0 : 0 ≤ Int.log 2 |(n : Rat)| := by
    rw [← Int.zpow_le_iff_le_log (by norm_num) hpos]
    simpa using h1
  have he1 : Int.log 2 |(n : Rat)| < 53 := by
    rw [← Int.lt_zpow_iff_log_lt (by norm_num) hpos]
    exact_mod_cast hlt
  have hulp : ulpExponent (n : Rat) = -(((52 - Int.log 2 |(n : Rat)|).toNat : Nat) : Int) := by
    unfold ulpExponent
    rw [Int.toNat_of_nonneg (by omega)]
    omega
  refine round_of_multiple _ (n * 2 ^ (52 - Int.log 2 |(n : Rat)|).toNat) ?_ hmax
  rw [pow2_eq_zpow, hulp, zpow_neg, zpow_natCast, div_inv_eq_mul]
  push_cast
  rfl

theorem ulpExponent_eq (x : Rat) (e : Int) (hx : x ≠ 0) (h1 : (2 : Rat) ^ e ≤ |x|)
    (h2 : |x| < (2 : Rat) ^ (e + 1)) (he : -1022 ≤ e) : ulpExponent x = e - 52 := by
  have hpos : (0 : Rat) < |x| := abs_pos.mpr hx
  have ha : e ≤ Int.log 2 |x| := by
    rw [← Int.zpow_le_iff_le_log (by norm_num) hpos]
    exact_mod_cast h1
  have hb : Int.log 2 |x| < e + 1 := by
    rw [← Int.lt_zpow_iff_log_lt (by norm_num) hpos]
    exact_mod_cast h2
  unfold ulpExponent
  omega

theorem roundHalfEven_eq (x : Rat) (f : Int) (hf : (f : Rat) ≤ x) (hf1 : x < f + 1) :
    roundHalfEven x =
      if x - f < 1 / 2 then f else if 1 / 2 < x - f then f + 1
      else if f % 2 = 0 then f else f + 1 := by
  have hfl : ⌊x⌋ = f := Int.floor_eq_iff.mpr ⟨hf, hf1⟩
  unfold roundHalfEven
  simp only [hfl]

/-- The sum of the doubles nearest to 0.1 and 0.2 lies half way between two
doubles and is rounded to the one with the even significand, which is not the
exact sum. -/
theorem add_rounds_the_sum :
    add (finite (3602879701896397 / 36028797018963968))
        (finite (3602879701896397 / 18014398509481984)) =
      finite (1351079888211149 / 4503599627370496) ∧
    (3602879701896397 / 36028797018963968 + 3602879701896397 / 18014398509481984 : Rat) ≠
      1351079888211149 / 4503599627370496 := by
  refine ⟨?_, by norm_num⟩
  have hx : (3602879701896397 / 36028797018963968 + 3602879701896397 / 18014398509481984 : Rat)
      = 10808639105689191 / 36028797018963968 := by norm_num
  have hu : ulpExponent (10808639105689191 / 36028797018963968) = -2 - 52 :=
    ulpExponent_eq _ (-2) (by norm_num) (by rw [abs_of_pos (by norm_num)]; norm_num)
      (by rw [abs_of_pos (by norm_num)]; norm_num) (by norm_num)
  have hq : pow2 (-2 - 52) = 1 / 2 ^ 54 := by
    unfold pow2
    rw [if_neg (by decide), show (-(-2 - 52 : Int)).toNat = 54 by decide]
  have hr : roundHalfEven (10808639105689191 / 36028797018963968 / (1 / 2 ^ 54)) =
      5404319552844596 := by
    rw [roundHalfEven_eq _ 5404319552844595 (by norm_num) (by norm_num)]
    norm_num
  show round _ = _
  rw [hx]
  unfold round
  simp only [hu, hq, hr]
  rw [if_neg]
  · norm_num
  · rw [DBL_MAX_eq]
    norm_num
    rw [abs_of_pos (by norm_num)]
    norm_num

end Double


namespace Double

/-- Adding integers one by one is exact as long as the partial sums stay below
`2 ^ 53` in absolute value. -/
theorem foldl_add_int (B : Nat) : ∀ (ws : List Rat) (acc : Int),
    (∀ w ∈ ws, ∃ n : Int, w = n ∧ n.natAbs ≤ B) →
    acc.natAbs + ws.length * B < 2 ^ 53 →
    ws.foldl (fun weight w => add weight (finite w)) (finite acc) = finite (acc + ws.sum) := by
  intro ws
  induction ws with
  | nil =>
    intro acc _ _
    simp
  | cons w t ih =>
    intro acc hw hb
    obtain ⟨n, hn, hnB⟩ := hw w (List.mem_cons_self _ _)
    subst hn
    simp only [List.length_cons] at hb
    have hstep : add (finite acc) (finite n) = finite ((acc + n : Int) : Rat) := by
      show round ((acc : Rat) + n) = _
      rw [← Int.cast_add]
      apply round_intCast
      have := Int.natAbs_add_le acc n
      have h1 : t.length * B + B = (t.length + 1) * B := by ring
      omega
    simp only [List.foldl_cons, hstep, List.sum_cons]
    rw [ih (acc + n) (fun w hw1 => hw w (List.mem_cons_of_mem _ hw1)) (by
      have := Int.natAbs_add_le acc n
      have h1 : t.length * B + B = (t.length + 1) * B := by ring
      omega)]
    push_cast
    rw [add_assoc]

end Double

namespace MST

theorem cost_eq_foldl (st : MST) :
    st.cost = (st.edges.map Edge.getWeight).foldl
      (fun weight w => Double.add weight (.finite w)) (.finite 0) := by
  unfold cost
  rw [List.foldl_map]

/-- With integer weights of absolute value at most `B` and fewer than
`2 ^ 53 / B` edges no addition of `cost()` rounds. -/
theorem cost_of_int_weights (st : MST) (B : Nat)
    (h : ∀ e ∈ st.edges, ∃ n : Int, e.weight = n ∧ n.natAbs ≤ B)
    (hB : st.edges.length * B < 2 ^ 53) :
    st.cost = .finite (st.edges.map Edge.getWeight).sum := by
  rw [cost_eq_foldl]
  have h0 := Double.foldl_add_int B (st.edges.map Edge.getWeight) 0 (by
    intro w hw
    obtain ⟨e, he, rfl⟩ := List.mem_map.mp hw
    exact h e he) (by simpa using hB)
  simpa using h0

/-- The same with a hypothesis that can be evaluated. -/
theorem cost_of_small_ints (st : MST) (B : Nat)
    (h : ∀ e ∈ st.edges, e.weight.den = 1 ∧ e.weight.num.natAbs ≤ B)
    (hB : st.edges.length * B < 2 ^ 53) :
    st.cost = .finite (st.edges.map Edge.getWeight).sum :=
  cost_of_int_weights st B
    (fun e he => ⟨e.weight.num, (Rat.coe_int_num_of_den_eq_one (h e he).1).symm, (h e he).2⟩) hB

end MST

/-- The double nearest to 0.1 is a double: adding it to `0.0` is exact. -/
theorem Double.add_zero_tenth :
    Double.add (.finite 0) (.finite (3602879701896397 / 36028797018963968)) =
      .finite (3602879701896397 / 36028797018963968) := by
  have hu : Double.ulpExponent (3602879701896397 / 36028797018963968) = -4 - 52 :=
    Double.ulpExponent_eq _ (-4) (by norm_num) (by rw [abs_of_pos (by norm_num)]; norm_num)
      (by rw [abs_of_pos (by norm_num)]; norm_num) (by norm_num)
  have hq : Double.pow2 (-4 - 52) = 1 / 2 ^ 56 := by
    unfold Double.pow2
    rw [if_neg (by decide), show (-(-4 - 52 : Int)).toNat = 56 by decide]
  show Double.round (0 + 3602879701896397 / 36028797018963968) = _
  rw [zero_add]
  refine Double.round_of_multiple _ 7205759403792794 ?_ ?_
  · rw [hu, hq]
    norm_num
  · rw [DBL_MAX_eq, abs_of_pos (by norm_num)]
    norm_num

/-- With the weights 0.1 and 0.2 (the doubles nearest to them) `cost()` is the
double `0x1.3333333333334p-2`, not the exact sum of the two weights: the
second addition rounds. -/
theorem MST.cost_rounds_the_sum :
    MST.cost ⟨[none, some ⟨0, 1, 3602879701896397 / 36028797018963968⟩,
        some ⟨1, 2, 3602879701896397 / 18014398509481984⟩], [], [], ⟨[], 0⟩⟩ =
      .finite (1351079888211149 / 4503599627370496) ∧
    (3602879701896397 / 36028797018963968 + 3602879701896397 / 18014398509481984 : Rat) ≠
      1351079888211149 / 4503599627370496 := by
  refine ⟨?_, Double.add_rounds_the_sum.2⟩
  show Double.add (Double.add (.finite 0) (.finite (3602879701896397 / 36028797018963968)))
    (.finite (3602879701896397 / 18014398509481984)) = _
  rw [Double.add_zero_tenth]
  exact Double.add_rounds_the_sum.1


namespace PriorityQueue

variable {T : Type}

/-! ### Slots -/

theorem slot_of_lt [Inhabited T] (pq : PriorityQueue T) {i : Nat} (h : i < pq.heap.length) :
    pq.slot i = .ok (pq.entry i) := by
  simp [slot, entry, List.getElem?_eq_getElem h]

theorem setSlot_of_lt (pq : PriorityQueue T) {i : Nat} (e : HeapEntry T)
    (h : i < pq.heap.length) :
    pq.setSlot i e = .ok { pq with heap := pq.heap.set i e } := by
  simp [setSlot, h]

theorem entry_set [Inhabited T] (pq : PriorityQueue T) (i m : Nat) (e : HeapEntry T)
    (h : i < pq.heap.length) :
    entry { pq with heap := pq.heap.set i e } m = if m = i then e else pq.entry m := by
  unfold entry
  by_cases hm : m = i
  · subst hm; simp [h]
  · simp [hm, List.getElem?_set_ne (Ne.symm hm)]

theorem swap_of_lt [Inhabited T] (pq : PriorityQueue T) {i j : Nat}
    (hi : i < pq.heap.length) (hj : j < pq.heap.length) :
    pq.swap i j = .ok (pq.swapped i j) := by
  simp [swap, slot_of_lt pq hi, slot_of_lt pq hj, setSlot_of_lt, hi, hj, swapped, bind,
    Except.bind, setSlot]

theorem greater_of_lt [Inhabited T] (pq : PriorityQueue T) {i j : Nat}
    (hi : i < pq.heap.length) (hj : j < pq.heap.length) :
    pq.greater i j = .ok (decide (pq.key j < pq.key i)) := by
  simp [greater, slot_of_lt pq hi, slot_of_lt pq hj, key, bind, Except.bind]

theorem swapped_length [Inhabited T] (pq : PriorityQueue T) (i j : Nat) :
    (pq.swapped i j).heap.length = pq.heap.length := by
  simp [swapped]

theorem swapped_currentSize [Inhabited T] (pq : PriorityQueue T) (i j : Nat) :
    (pq.swapped i j).currentSize = pq.currentSize := rfl

theorem entry_swapped [Inhabited T] (pq : PriorityQueue T) {i j : Nat} (m : Nat)
    (hi : i < pq.heap.length) (hj : j < pq.heap.length) :
    (pq.swapped i j).entry m =
      if m = j then pq.entry i else if m = i then pq.entry j else pq.entry m := by
  unfold swapped entry
  by_cases hmj : m = j
  · subst hmj; simp [hj]
  · by_cases hmi : m = i
    · subst hmi; simp [hmj, List.getElem?_set_ne (Ne.symm hmj), hi]
    · simp [hmj, hmi, List.getElem?_set_ne (Ne.symm hmj), List.getElem?_set_ne (Ne.symm hmi)]

theorem key_swapped [Inhabited T] (pq : PriorityQueue T) {i j : Nat} (m : Nat)
    (hi : i < pq.heap.length) (hj : j < pq.heap.length) :
    (pq.swapped i j).key m =
      if m = j then pq.key i else if m = i then pq.key j else pq.key m := by
  unfold key
  rw [entry_swapped pq m hi hj]
  split
  · rfl
  · split <;> rfl

/-! ### The two loops -/

/-- Invariant rule for the loop of `percolateUp`: a property kept by every
exchange of slot `k` with its parent holds when the loop ends, and the loop
ends within `k` iterations. -/
theorem percolateUpLoop_rule [Inhabited T] (P : PriorityQueue T → Nat → Prop)
    (hstep : ∀ (pq : PriorityQueue T) k, P pq k → 1 < k → k < pq.heap.length →
      pq.key k < pq.key (k / 2) → P (pq.swapped k (k / 2)) (k / 2)) :
    ∀ (fuel : Nat) (pq : PriorityQueue T) (k : Nat), k ≤ fuel → k < pq.heap.length → P pq k →
      ∃ pq1 k1, percolateUpLoop fuel pq k = .ok pq1 ∧ P pq1 k1 ∧
        (k1 ≤ 1 ∨ ¬ pq1.key k1 < pq1.key (k1 / 2)) := by
  intro fuel
  induction fuel with
  | zero =>
    intro pq k hk _ hP
    have hk0 : k = 0 := by omega
    subst hk0
    exact ⟨pq, 0, by simp [percolateUpLoop], hP, Or.inl (by omega)⟩
  | succ fuel ih =>
    intro pq k hk hlen hP
    by_cases h1 : 1 < k
    · have hp : k / 2 < pq.heap.length := by omega
      by_cases hlt : pq.key k < pq.key (k / 2)
      · have hrec := ih (pq.swapped k (k / 2)) (k / 2) (by omega)
          (by rw [swapped_length]; exact hp) (hstep pq k hP h1 hlen hlt)
        obtain ⟨pq1, k1, hrun, hP1, hstop⟩ := hrec
        refine ⟨pq1, k1, ?_, hP1, hstop⟩
        simp [percolateUpLoop, h1, greater_of_lt pq hp hlen, hlt, swap_of_lt pq hlen hp,
          bind, Except.bind, hrun]
      · refine ⟨pq, k, ?_, hP, Or.inr hlt⟩
        simp [percolateUpLoop, h1, greater_of_lt pq hp hlen, hlt, bind, Except.bind]
    · exact ⟨pq, k, by simp [percolateUpLoop, h1], hP, Or.inl (by omega)⟩

theorem minChild_cases [Inhabited T] (pq : PriorityQueue T) (k : Nat)
    (h : 2 * k ≤ pq.currentSize) :
    (pq.minChild k = 2 * k ∨ pq.minChild k = 2 * k + 1) ∧ pq.minChild k ≤ pq.currentSize ∧
      pq.key (pq.minChild k) ≤ pq.key (2 * k) ∧
      (2 * k + 1 ≤ pq.currentSize → pq.key (pq.minChild k) ≤ pq.key (2 * k + 1)) := by
  unfold minChild
  split
  · rename_i hc
    refine ⟨Or.inr rfl, by omega, le_of_lt hc.2, fun _ => le_refl _⟩
  · rename_i hc
    refine ⟨Or.inl rfl, h, le_refl _, fun h2 => ?_⟩
    have : ¬ pq.key (2 * k + 1) < pq.key (2 * k) := fun hlt => hc ⟨by omega, hlt⟩
    exact not_lt.mp this

/-- One iteration of the loop of `percolateDown`. -/
theorem percolateDownLoop_succ [Inhabited T] (fuel : Nat) (pq : PriorityQueue T) (k : Nat)
    (h2 : 2 * k ≤ pq.currentSize) (hlen : pq.currentSize < pq.heap.length) :
    percolateDownLoop (fuel + 1) pq k =
      if pq.key (pq.minChild k) < pq.key k then
        percolateDownLoop fuel (pq.swapped k (pq.minChild k)) (pq.minChild k)
      else .ok pq := by
  have hkl : k < pq.heap.length := by omega
  have h2l : 2 * k < pq.heap.length := by omega
  by_cases h3 : 2 * k < pq.currentSize
  · have h3l : 2 * k + 1 < pq.heap.length := by omega
    by_cases h4 : pq.key (2 * k + 1) < pq.key (2 * k)
    · have hm : pq.minChild k = 2 * k + 1 := by simp [minChild, h3, h4]
      rw [hm]
      by_cases h5 : pq.key (2 * k + 1) < pq.key k
      · simp [percolateDownLoop, h2, h3, h4, h5, greater_of_lt pq h2l h3l,
          greater_of_lt pq hkl h3l, swap_of_lt pq hkl h3l, bind, Except.bind]
      · simp [percolateDownLoop, h2, h3, h4, h5, greater_of_lt pq h2l h3l,
          greater_of_lt pq hkl h3l, bind, Except.bind]
    · have hm : pq.minChild k = 2 * k := by simp [minChild, h4]
      rw [hm]
      by_cases h5 : pq.key (2 * k) < pq.key k
      · simp [percolateDownLoop, h2, h3, h4, h5, greater_of_lt pq h2l h3l,
          greater_of_lt pq hkl h2l, swap_of_lt pq hkl h2l, bind, Except.bind]
      · simp [percolateDownLoop, h2, h3, h4, h5, greater_of_lt pq h2l h3l,
          greater_of_lt pq hkl h2l, bind, Except.bind]
  · have hm : pq.minChild k = 2 * k := by simp [minChild, h3]
    rw [hm]
    by_cases h5 : pq.key (2 * k) < pq.key k
    · simp [percolateDownLoop, h2, h3, h5, greater_of_lt pq hkl h2l, swap_of_lt pq hkl h2l,
        bind, Except.bind]
    · simp [percolateDownLoop, h2, h3, h5, greater_of_lt pq hkl h2l, bind, Except.bind]

/-- Invariant rule for the loop of `percolateDown`: a property kept by every
exchange of slot `k` with its smaller child holds when the loop ends, and the
loop ends within `currentSize + 1 - k` iterations. -/
theorem percolateDownLoop_rule [Inhabited T] (P : PriorityQueue T → Nat → Prop)
    (hstep : ∀ (pq : PriorityQueue T) k, P pq k → 1 ≤ k → 2 * k ≤ pq.currentSize →
      pq.currentSize < pq.heap.length →
      pq.key (pq.minChild k) < pq.key k → P (pq.swapped k (pq.minChild k)) (pq.minChild k)) :
    ∀ (fuel : Nat) (pq : PriorityQueue T) (k : Nat), pq.currentSize + 1 ≤ k + fuel → 1 ≤ k →
      pq.currentSize < pq.heap.length → P pq k →
      ∃ pq1 k1, percolateDownLoop fuel pq k = .ok pq1 ∧ P pq1 k1 ∧ 1 ≤ k1 ∧
        (pq1.currentSize < 2 * k1 ∨ ¬ pq1.key (pq1.minChild k1) < pq1.key k1) := by
  intro fuel
  induction fuel with
  | zero =>
    intro pq k hk h1 _ hP
    refine ⟨pq, k, ?_, hP, h1, Or.inl (by omega)⟩
    have : ¬ 2 * k ≤ pq.currentSize := by omega
    simp [percolateDownLoop, this]
  | succ fuel ih =>
    intro pq k hk h1 hlen hP
    by_cases h2 : 2 * k ≤ pq.currentSize
    · obtain ⟨hcase, hmn, _, _⟩ := minChild_cases pq k h2
      rw [percolateDownLoop_succ fuel pq k h2 hlen]
      by_cases hlt : pq.key (pq.minChild k) < pq.key k
      · have hrec := ih (pq.swapped k (pq.minChild k)) (pq.minChild k)
          (by rw [swapped_currentSize]; omega) (by omega)
          (by rw [swapped_currentSize, swapped_length]; exact hlen)
          (hstep pq k hP h1 h2 hlen hlt)
        obtain ⟨pq1, k1, hrun, hP1, hk1, hstop⟩ := hrec
        exact ⟨pq1, k1, by rw [if_pos hlt]; exact hrun, hP1, hk1, hstop⟩
      · exact ⟨pq, k, by rw [if_neg hlt], hP, h1, Or.inr hlt⟩
    · exact ⟨pq, k, by simp [percolateDownLoop, h2], hP, h1, Or.inl (by omega)⟩

/-! ### Heap order through the loops -/

theorem keyOrdered_iff [Inhabited T] (pq : PriorityQueue T) (h : pq.InBounds) :
    pq.HeapOrdered ↔ pq.KeyOrdered := by
  unfold InBounds at h
  constructor
  · intro ho j h2 hj
    obtain ⟨a, b, ha, hb, hab⟩ := ho j h2 hj
    simpa [key, entry, ha, hb] using hab
  · intro ho j h2 hj
    have hjl : j < pq.heap.length := by omega
    have hpl : j / 2 < pq.heap.length := by omega
    refine ⟨pq.heap[j / 2], pq.heap[j], List.getElem?_eq_getElem hpl,
      List.getElem?_eq_getElem hjl, ?_⟩
    have := ho j h2 hj
    simpa [key, entry, List.getElem?_eq_getElem hpl, List.getElem?_eq_getElem hjl] using this

theorem upInv_step [Inhabited T] (pq : PriorityQueue T) (k : Nat) (hinv : pq.UpInv k)
    (h1 : 1 < k) (hlen : k < pq.heap.length) (hlt : pq.key k < pq.key (k / 2)) :
    (pq.swapped k (k / 2)).UpInv (k / 2) := by
  have hp : k / 2 < pq.heap.length := by omega
  obtain ⟨inv1, inv2⟩ := hinv
  refine ⟨?_, ?_⟩
  · intro j h2 hjn hjp
    rw [swapped_currentSize] at hjn
    rw [key_swapped pq _ hlen hp, key_swapped pq _ hlen hp]
    by_cases hjk : j = k
    · subst hjk
      rw [if_pos rfl, if_neg hjp, if_pos rfl]
      exact le_of_lt hlt
    · rw [if_neg hjp, if_neg hjk]
      by_cases ha : j / 2 = k / 2
      · rw [if_pos ha]
        have := inv1 j h2 hjn hjk
        rw [ha] at this
        exact le_trans (le_of_lt hlt) this
      · rw [if_neg ha]
        by_cases hb : j / 2 = k
        · rw [if_pos hb]
          exact inv2 (by omega) j hjn hb
        · rw [if_neg hb]
          exact inv1 j h2 hjn hjk
  · intro hp2 c hcn hcp
    rw [swapped_currentSize] at hcn
    rw [key_swapped pq _ hlen hp, key_swapped pq _ hlen hp]
    have e1 : k / 2 / 2 ≠ k / 2 := by omega
    have e2 : k / 2 / 2 ≠ k := by omega
    have e3 : c ≠ k / 2 := by omega
    have hpar : pq.key (k / 2 / 2) ≤ pq.key (k / 2) := inv1 (k / 2) hp2 (by omega) (by omega)
    rw [if_neg e1, if_neg e2, if_neg e3]
    by_cases hck : c = k
    · rw [if_pos hck]; exact hpar
    · rw [if_neg hck]
      have := inv1 c (by omega) hcn hck
      rw [hcp] at this
      exact le_trans hpar this

theorem upInv_stop [Inhabited T] (pq : PriorityQueue T) (k : Nat) (hinv : pq.UpInv k)
    (hstop : k ≤ 1 ∨ ¬ pq.key k < pq.key (k / 2)) : pq.KeyOrdered := by
  intro j h2 hjn
  by_cases hjk : j = k
  · subst hjk
    rcases hstop with h | h
    · omega
    · exact not_lt.mp h
  · exact hinv.1 j h2 hjn hjk

theorem downInv_step [Inhabited T] (pq : PriorityQueue T) (k : Nat) (hinv : pq.DownInv k)
    (h1 : 1 ≤ k) (h2k : 2 * k ≤ pq.currentSize) (hlen : pq.currentSize < pq.heap.length)
    (hlt : pq.key (pq.minChild k) < pq.key k) :
    (pq.swapped k (pq.minChild k)).DownInv (pq.minChild k) := by
  obtain ⟨hcase, hmn, hm1, hm2⟩ := minChild_cases pq k h2k
  have hkl : k < pq.heap.length := by omega
  have hml : pq.minChild k < pq.heap.length := by omega
  obtain ⟨inv1, inv2⟩ := hinv
  generalize pq.minChild k = m at *
  refine ⟨?_, ?_⟩
  · intro j h2 hjn hjp
    rw [swapped_currentSize] at hjn
    rw [key_swapped pq _ hkl hml, key_swapped pq _ hkl hml]
    rw [if_neg hjp]
    by_cases hjm : j = m
    · subst hjm
      have : j / 2 = k := by omega
      rw [if_pos this, if_pos rfl]
      exact le_of_lt hlt
    · rw [if_neg hjm]
      by_cases hjk : j = k
      · subst hjk
        have e1 : j / 2 ≠ j := by omega
        rw [if_neg e1, if_pos rfl]
        exact inv2 (by omega) m hmn (by omega)
      · rw [if_neg hjk]
        by_cases hb : j / 2 = k
        · rw [if_pos hb]
          have hj : j = 2 * k ∨ j = 2 * k + 1 := by omega
          rcases hj with hj | hj
          · rw [hj]; exact hm1
          · rw [hj]; exact hm2 (by omega)
        · rw [if_neg hb]
          exact inv1 j h2 hjn hb
  · intro hm2' c hcn hcp
    rw [swapped_currentSize] at hcn
    rw [key_swapped pq _ hkl hml, key_swapped pq _ hkl hml]
    have e1 : m / 2 ≠ m := by omega
    have e2 : m / 2 = k := by omega
    have e3 : c ≠ m := by omega
    have e4 : c ≠ k := by omega
    rw [if_neg e1, if_pos e2, if_neg e3, if_neg e4]
    have := inv1 c (by omega) hcn (by omega)
    rw [hcp] at this
    exact this

theorem downInv_stop [Inhabited T] (pq : PriorityQueue T) (k : Nat) (hinv : pq.DownInv k)
    (hstop : pq.currentSize < 2 * k ∨ ¬ pq.key (pq.minChild k) < pq.key k) :
    pq.KeyOrdered := by
  intro j h2 hjn
  by_cases hjk : j / 2 = k
  · rcases hstop with h | h
    · omega
    · obtain ⟨_, _, hm1, hm2⟩ := minChild_cases pq k (by omega)
      have hk : pq.key k ≤ pq.key (pq.minChild k) := not_lt.mp h
      have hj : j = 2 * k ∨ j = 2 * k + 1 := by omega
      rw [hjk]
      rcases hj with hj | hj
      · rw [hj]; exact le_trans hk hm1
      · rw [hj]; exact le_trans hk (hm2 (by omega))
  · exact hinv.1 j h2 hjn hjk

end PriorityQueue

/-! ### Exchanging two positions of a list -/

theorem perm_set_cons {α : Type} (l : List α) (j : Nat) (b x : α) (h : l[j]? = some b) :
    (b :: l.set j x).Perm (x :: l) := by
  induction l generalizing j with
  | nil => simp at h
  | cons y t ih =>
    cases j with
    | zero =>
      simp at h
      subst h
      simpa using List.Perm.swap x y t
    | succ j =>
      simp at h
      have h1 : (b :: y :: t.set j x).Perm (y :: b :: t.set j x) := List.Perm.swap y b _
      have h2 : (y :: b :: t.set j x).Perm (y :: x :: t) := List.Perm.cons y (ih j h)
      have h3 : (y :: x :: t).Perm (x :: y :: t) := List.Perm.swap x y t
      simpa using (h1.trans h2).trans h3

theorem perm_set_set {α : Type} (l : List α) (i j : Nat) (a b : α)
    (hi : l[i]? = some a) (hj : l[j]? = some b) :
    ((l.set i b).set j a).Perm l := by
  induction l generalizing i j with
  | nil => simp at hi
  | cons x t ih =>
    cases i with
    | zero =>
      simp at hi
      subst hi
      cases j with
      | zero =>
        simp at hj
        subst hj
        simp
      | succ j =>
        simp at hj
        simpa using perm_set_cons t j b x hj
    | succ i =>
      simp at hi
      cases j with
      | zero =>
        simp at hj
        subst hj
        simpa using perm_set_cons t i a x hi
      | succ j =>
        simp at hj
        simpa using ih i j hi hj

namespace PriorityQueue

variable {T : Type}

/-! ### The queued entries -/

theorem entries_getElem? (pq : PriorityQueue T) (m : Nat) (h : m < pq.currentSize) :
    (pq.entries)[m]? = pq.heap[m + 1]? := by
  unfold entries
  rw [List.getElem?_take_of_lt h, List.getElem?_drop, Nat.add_comm]

theorem entries_length (pq : PriorityQueue T) (h : pq.InBounds) :
    pq.entries.length = pq.currentSize := by
  unfold InBounds at h
  unfold entries
  simp
  omega

theorem entries_slot [Inhabited T] (pq : PriorityQueue T) (i : Nat) (h : pq.InBounds)
    (h1 : 1 ≤ i) (hn : i ≤ pq.currentSize) :
    (pq.entries)[i - 1]? = some (pq.entry i) := by
  unfold InBounds at h
  rw [entries_getElem? pq (i - 1) (by omega)]
  have : i - 1 + 1 = i := by omega
  rw [this]
  unfold entry
  rw [List.getElem?_eq_getElem (by omega)]
  rfl

theorem entry_mem_entries [Inhabited T] (pq : PriorityQueue T) (i : Nat) (h : pq.InBounds)
    (h1 : 1 ≤ i) (hn : i ≤ pq.currentSize) : pq.entry i ∈ pq.entries :=
  List.mem_iff_getElem?.mpr ⟨i - 1, entries_slot pq i h h1 hn⟩

theorem mem_entries_iff [Inhabited T] (pq : PriorityQueue T) (e : HeapEntry T)
    (h : pq.InBounds) :
    e ∈ pq.entries ↔ ∃ i, 1 ≤ i ∧ i ≤ pq.currentSize ∧ pq.entry i = e := by
  constructor
  · intro he
    obtain ⟨m, hm⟩ := List.mem_iff_getElem?.mp he
    have hlt : m < pq.currentSize := by
      have := (List.getElem?_eq_some_iff.mp hm).1
      rw [entries_length pq h] at this
      exact this
    refine ⟨m + 1, by omega, by omega, ?_⟩
    have := entries_slot pq (m + 1) h (by omega) (by omega)
    simp at this
    rw [hm] at this
    exact (Option.some.inj this).symm
  · rintro ⟨i, h1, hn, rfl⟩
    exact entry_mem_entries pq i h h1 hn

theorem entries_swapped [Inhabited T] (pq : PriorityQueue T) (i j : Nat) (h : pq.InBounds)
    (hi1 : 1 ≤ i) (hin : i ≤ pq.currentSize) (hj1 : 1 ≤ j) (hjn : j ≤ pq.currentSize) :
    (pq.swapped i j).entries.Perm pq.entries := by
  have hi := entries_slot pq i h hi1 hin
  have hj := entries_slot pq j h hj1 hjn
  have key : (pq.swapped i j).entries = (pq.entries.set (i - 1) (pq.entry j)).set (j - 1) (pq.entry i) := by
    unfold swapped entries
    simp only [List.drop_set]
    rw [if_neg (by omega), if_neg (by omega), List.set_take, List.set_take]
  rw [key]
  exact perm_set_set _ _ _ _ _ hi hj

/-! ### `percolateUp` and `percolateDown` -/

theorem percolateUp_spec [Inhabited T] (pq : PriorityQueue T) (k : Nat) (hb : pq.InBounds)
    (hk : k ≤ pq.currentSize) :
    ∃ pq1, pq.percolateUp k = .ok pq1 ∧ pq1.currentSize = pq.currentSize ∧
      pq1.heap.length = pq.heap.length ∧ pq1.entries.Perm pq.entries ∧
      (pq.UpInv k → pq1.KeyOrdered) ∧
      (∀ e, 1 ≤ k → pq.StrictMinAt k e → pq1.entry 1 = e) ∧
      (∀ m, m = 0 ∨ pq.currentSize < m → pq1.entry m = pq.entry m) := by
  have hb0 := hb
  unfold InBounds at hb
  let P : PriorityQueue T → Nat → Prop := fun q m =>
    q.currentSize = pq.currentSize ∧ q.heap.length = pq.heap.length ∧ m ≤ k ∧
    q.entries.Perm pq.entries ∧ (pq.UpInv k → q.UpInv m) ∧
    (∀ e, 1 ≤ k → pq.StrictMinAt k e → 1 ≤ m ∧ q.StrictMinAt m e) ∧
    (∀ i, i = 0 ∨ pq.currentSize < i → q.entry i = pq.entry i)
  have hstep : ∀ (q : PriorityQueue T) m, P q m → 1 < m → m < q.heap.length →
      q.key m < q.key (m / 2) → P (q.swapped m (m / 2)) (m / 2) := by
    intro q m hP h1 hml hlt
    obtain ⟨hs, hl, hmk, hperm, hup, hmin, hout⟩ := hP
    have hqb : q.InBounds := by unfold InBounds; omega
    have hpl : m / 2 < q.heap.length := by omega
    refine ⟨by rw [swapped_currentSize]; exact hs, by rw [swapped_length]; exact hl,
      by omega, ?_, ?_, ?_, ?_⟩
    · exact (entries_swapped q m (m / 2) hqb (by omega) (by omega) (by omega) (by omega)).trans
        hperm
    · intro h
      exact upInv_step q m (hup h) h1 hml hlt
    · intro e hk1 hmin0
      obtain ⟨_, hme, hmall⟩ := hmin e hk1 hmin0
      refine ⟨by omega, ?_, ?_⟩
      · rw [entry_swapped q _ hml hpl, if_pos rfl]; exact hme
      · intro i hi1 hin hne
        rw [swapped_currentSize] at hin
        rw [key_swapped q _ hml hpl, if_neg hne]
        by_cases him : i = m
        · rw [if_pos him]; exact hmall (m / 2) (by omega) (by omega) (by omega)
        · rw [if_neg him]; exact hmall i hi1 hin him
    · intro i hi
      rw [entry_swapped q _ hml hpl, if_neg (by omega), if_neg (by omega)]
      exact hout i hi
  have hP0 : P pq k := ⟨rfl, rfl, le_refl _, List.Perm.refl _, id,
    fun e hk1 h => ⟨hk1, h⟩, fun _ _ => rfl⟩
  obtain ⟨pq1, k1, hrun, hP1, hstop⟩ :=
    percolateUpLoop_rule P hstep k pq k (le_refl _) (by omega) hP0
  obtain ⟨hs, hl, _, hperm, hup, hmin, hout⟩ := hP1
  refine ⟨pq1, hrun, hs, hl, hperm, fun h => upInv_stop pq1 k1 (hup h) hstop, ?_, hout⟩
  intro e hk1 hmin0
  obtain ⟨hk11, hme, hmall⟩ := hmin e hk1 hmin0
  rcases hstop with h | h
  · have : k1 = 1 := by omega
    rw [← this]; exact hme
  · by_cases h1 : k1 = 1
    · rw [← h1]; exact hme
    · exfalso
      apply h
      have := hmall (k1 / 2) (by omega) (by omega) (by omega)
      unfold key
      rw [hme]
      exact this

theorem percolateDown_spec [Inhabited T] (pq : PriorityQueue T) (k : Nat) (hb : pq.InBounds)
    (hk : 1 ≤ k) :
    ∃ pq1, pq.percolateDown k = .ok pq1 ∧ pq1.currentSize = pq.currentSize ∧
      pq1.heap.length = pq.heap.length ∧ pq1.entries.Perm pq.entries ∧
      (pq.DownInv k → pq1.KeyOrdered) ∧
      (∀ m, m = 0 ∨ pq.currentSize < m → pq1.entry m = pq.entry m) := by
  have hb0 := hb
  unfold InBounds at hb
  let P : PriorityQueue T → Nat → Prop := fun q m =>
    q.currentSize = pq.currentSize ∧ q.heap.length = pq.heap.length ∧ 1 ≤ m ∧
    q.entries.Perm pq.entries ∧ (pq.DownInv k → q.DownInv m) ∧
    (∀ i, i = 0 ∨ pq.currentSize < i → q.entry i = pq.entry i)
  have hstep : ∀ (q : PriorityQueue T) m, P q m → 1 ≤ m → 2 * m ≤ q.currentSize →
      q.currentSize < q.heap.length →
      q.key (q.minChild m) < q.key m → P (q.swapped m (q.minChild m)) (q.minChild m) := by
    intro q m hP h1 h2 hql hlt
    obtain ⟨hs, hl, _, hperm, hdown, hout⟩ := hP
    obtain ⟨hcase, hmn, _, _⟩ := minChild_cases q m h2
    have hqb : q.InBounds := hql
    have hml : m < q.heap.length := by omega
    have hcl : q.minChild m < q.heap.length := by omega
    refine ⟨by rw [swapped_currentSize]; exact hs, by rw [swapped_length]; exact hl,
      by omega, ?_, ?_, ?_⟩
    · exact (entries_swapped q m (q.minChild m) hqb h1 (by omega) (by omega) hmn).trans hperm
    · intro h
      exact downInv_step q m (hdown h) h1 h2 hql hlt
    · intro i hi
      rw [entry_swapped q _ hml hcl, if_neg (by omega), if_neg (by omega)]
      exact hout i hi
  have hP0 : P pq k := ⟨rfl, rfl, hk, List.Perm.refl _, id, fun _ _ => rfl⟩
  obtain ⟨pq1, k1, hrun, hP1, _, hstop⟩ :=
    percolateDownLoop_rule P hstep pq.currentSize pq k (by omega) hk hb hP0
  obtain ⟨hs, hl, _, hperm, hdown, hout⟩ := hP1
  exact ⟨pq1, hrun, hs, hl, hperm, fun h => downInv_stop pq1 k1 (hdown h) hstop, hout⟩

/-! ### `push`, `pop` and `changePriority` -/

/-- The queue that `push` hands to `percolateUp`: the vector resized when it
is full, the new entry in slot `currentSize + 1`. -/
theorem push_eq [Inhabited T] (pq : PriorityQueue T) (element : T) (priority : Rat)
    (hb : pq.InBounds) :
    ∃ ext : List (HeapEntry T),
      pq.currentSize + 1 < (pq.heap ++ ext).length ∧
      pq.push element priority =
        percolateUp ⟨(pq.heap ++ ext).set (pq.currentSize + 1) ⟨element, priority⟩,
          pq.currentSize + 1⟩ (pq.currentSize + 1) := by
  unfold InBounds at hb
  by_cases hfull : pq.currentSize + 1 = pq.heap.length
  · have hc : (pq.currentSize : Int) = (pq.heap.length : Int) - 1 := by omega
    refine ⟨List.replicate (2 * pq.heap.length - pq.heap.length) default, ?_, ?_⟩
    · simp; omega
    · have hl : pq.currentSize + 1 <
          pq.heap.length + (2 * pq.heap.length - pq.heap.length) := by omega
      simp [push, hc, slot, setSlot, bind, Except.bind, hl, List.getElem?_eq_getElem]
  · have hc : ¬ (pq.currentSize : Int) = (pq.heap.length : Int) - 1 := by omega
    have hl : pq.currentSize + 1 < pq.heap.length := by omega
    refine ⟨[], by simpa using hl, ?_⟩
    simp [push, hc, slot, setSlot, bind, Except.bind, hl, List.getElem?_eq_getElem]

theorem entry_append_set_of_ne [Inhabited T] (pq : PriorityQueue T) (ext : List (HeapEntry T))
    (e : HeapEntry T) (size i m : Nat) (hm : m < pq.heap.length) (hne : m ≠ i) :
    entry ⟨(pq.heap ++ ext).set i e, size⟩ m = pq.entry m := by
  unfold entry
  simp only
  rw [List.getElem?_set_ne (Ne.symm hne), List.getElem?_append_left hm]

theorem push_spec [Inhabited T] (pq : PriorityQueue T) (element : T) (priority : Rat)
    (hb : pq.InBounds) :
    ∃ pq1, pq.push element priority = .ok pq1 ∧ pq1.InBounds ∧
      pq1.currentSize = pq.currentSize + 1 ∧
      pq1.entries.Perm (⟨element, priority⟩ :: pq.entries) ∧
      (pq.KeyOrdered → pq1.KeyOrdered) ∧ pq1.entry 0 = pq.entry 0 := by
  obtain ⟨ext, hlen, heq⟩ := push_eq pq element priority hb
  have hb0 := hb
  unfold InBounds at hb
  generalize hq : (⟨(pq.heap ++ ext).set (pq.currentSize + 1) ⟨element, priority⟩,
    pq.currentSize + 1⟩ : PriorityQueue T) = q at heq
  have hqs : q.currentSize = pq.currentSize + 1 := by rw [← hq]
  have hql : q.heap.length = (pq.heap ++ ext).length := by rw [← hq]; simp
  have hqb : q.InBounds := by unfold InBounds; omega
  have hkey : ∀ m, m ≤ pq.currentSize → q.entry m = pq.entry m := by
    intro m hm
    rw [← hq]
    exact entry_append_set_of_ne pq ext _ _ _ m (by omega) (by omega)
  obtain ⟨pq1, hrun, hs, hl, hperm, hord, _, hout⟩ :=
    percolateUp_spec q (pq.currentSize + 1) hqb (by omega)
  refine ⟨pq1, by rw [heq]; exact hrun, by unfold InBounds; omega, by omega, ?_, ?_, ?_⟩
  · refine hperm.trans ?_
    have : q.entries = pq.entries ++ [⟨element, priority⟩] := by
      have hel := entries_length pq hb0
      apply List.ext_getElem?
      intro i
      rcases Nat.lt_trichotomy i pq.currentSize with hi | hi | hi
      · rw [entries_getElem? q i (by omega), List.getElem?_append_left (by omega),
          entries_getElem? pq i hi, ← hq]
        simp only
        rw [List.getElem?_set_ne (by omega), List.getElem?_append_left (by omega)]
      · subst hi
        rw [entries_getElem? q _ (by omega), List.getElem?_append_right (by omega), ← hq]
        simp only
        rw [List.getElem?_set_self hlen, hel]
        simp
      · rw [List.getElem?_eq_none (by rw [entries_length q hqb]; omega),
          List.getElem?_eq_none (by simp; omega)]
    rw [this]
    exact List.perm_append_singleton _ _
  · intro ho
    apply hord
    constructor
    · intro j h2 hjn hne
      rw [hqs] at hjn
      unfold key
      rw [hkey j (by omega), hkey (j / 2) (by omega)]
      exact ho j h2 (by omega)
    · intro _ c hcn hc
      omega
  · rw [hout 0 (Or.inl rfl)]
    exact hkey 0 (by omega)

theorem changePriority_eq [Inhabited T] (pq : PriorityQueue T) (element : T) (priority : Rat)
    (hb : pq.InBounds) :
    pq.changePriority element priority =
      (pq.overwriteLast element priority).percolateUp pq.currentSize := by
  unfold InBounds at hb
  simp [changePriority, overwriteLast, slot, setSlot, bind, Except.bind, hb,
    List.getElem?_eq_getElem]

theorem entry_overwriteLast [Inhabited T] (pq : PriorityQueue T) (element : T)
    (priority : Rat) (hb : pq.InBounds) (m : Nat) :
    (pq.overwriteLast element priority).entry m =
      if m = pq.currentSize then ⟨element, priority⟩ else pq.entry m :=
  entry_set pq pq.currentSize m _ hb

theorem changePriority_spec [Inhabited T] (pq : PriorityQueue T) (element : T)
    (priority : Rat) (hb : pq.InBounds) :
    ∃ pq1, pq.changePriority element priority = .ok pq1 ∧ pq1.InBounds ∧
      pq1.currentSize = pq.currentSize ∧
      pq1.entries.Perm (pq.overwriteLast element priority).entries ∧
      (pq.KeyOrdered → pq1.KeyOrdered) ∧
      (1 ≤ pq.currentSize →
        (∀ m, 1 ≤ m → m < pq.currentSize → priority < pq.key m) →
        pq1.entry 1 = ⟨element, priority⟩) := by
  have hqb : (pq.overwriteLast element priority).InBounds := by
    unfold InBounds overwriteLast; simpa using hb
  have hb0 := hb
  unfold InBounds at hb
  obtain ⟨pq1, hrun, hs, hl, hperm, hord, hmin, _⟩ :=
    percolateUp_spec (pq.overwriteLast element priority) pq.currentSize hqb (le_refl _)
  have hs0 : (pq.overwriteLast element priority).currentSize = pq.currentSize := rfl
  have hl0 : (pq.overwriteLast element priority).heap.length = pq.heap.length := by
    simp [overwriteLast]
  refine ⟨pq1, by rw [changePriority_eq pq _ _ hb0]; exact hrun,
    by unfold InBounds; omega, by omega, hperm, ?_, ?_⟩
  · intro ho
    apply hord
    constructor
    · intro j h2 hjn hne
      rw [hs0] at hjn
      unfold key
      rw [entry_overwriteLast pq _ _ hb0, entry_overwriteLast pq _ _ hb0,
        if_neg (by omega), if_neg hne]
      exact ho j h2 hjn
    · intro _ c hcn hc
      rw [hs0] at hcn
      omega
  · intro h1 hall
    apply hmin _ h1
    refine ⟨?_, ?_⟩
    · rw [entry_overwriteLast pq _ _ hb0, if_pos rfl]
    · intro m hm1 hmn hne
      rw [hs0] at hmn
      unfold key
      rw [entry_overwriteLast pq _ _ hb0, if_neg hne]
      exact hall m hm1 (by omega)

theorem pop_spec [Inhabited T] (pq : PriorityQueue T) (hb : pq.InBounds)
    (hn : 0 < pq.currentSize) :
    ∃ pq1, pq.pop = .ok pq1 ∧ pq1.InBounds ∧ pq1.currentSize + 1 = pq.currentSize ∧
      pq.entries.Perm (pq.entry 1 :: pq1.entries) ∧
      (pq.KeyOrdered → pq1.KeyOrdered) ∧ pq1.entry 0 = pq.entry 0 := by
  have hb0 := hb
  unfold InBounds at hb
  generalize hq : (⟨pq.heap.set 1 (pq.entry pq.currentSize), pq.currentSize - 1⟩ :
    PriorityQueue T) = q
  have heq : pq.pop = q.percolateDown 1 := by
    rw [← hq]
    have h1 : 1 < pq.heap.length := by omega
    simp [pop, hn, slot_of_lt pq hb, setSlot, h1, bind, Except.bind]
  have hqs : q.currentSize = pq.currentSize - 1 := by rw [← hq]
  have hql : q.heap.length = pq.heap.length := by rw [← hq]; simp
  have hqb : q.InBounds := by unfold InBounds; omega
  have hqe : ∀ m, q.entry m = if m = 1 then pq.entry pq.currentSize else pq.entry m := by
    intro m
    rw [← hq]
    exact entry_set pq 1 m _ (by omega)
  obtain ⟨pq1, hrun, hs, hl, hperm, hord, hout⟩ := percolateDown_spec q 1 hqb (le_refl _)
  refine ⟨pq1, by rw [heq]; exact hrun, by unfold InBounds; omega, by omega, ?_, ?_, ?_⟩
  · have hqent : q.entries = (pq.entries.take (pq.currentSize - 1)).set 0
        (pq.entry pq.currentSize) := by
      rw [← hq]
      unfold entries
      simp only
      rw [List.drop_set, if_neg (by omega), List.set_take, List.take_take]
      simp
    have hsplit : pq.entries =
        pq.entries.take (pq.currentSize - 1) ++ [pq.entry pq.currentSize] := by
      have h1 := entries_slot pq pq.currentSize hb0 hn (le_refl _)
      have h2 : pq.entries.take (pq.currentSize - 1 + 1) =
          pq.entries.take (pq.currentSize - 1) ++ [pq.entry pq.currentSize] := by
        rw [List.take_succ, h1]; rfl
      have h3 : pq.currentSize - 1 + 1 = pq.entries.length := by
        rw [entries_length pq hb0]; omega
      rw [h3, List.take_length] at h2
      exact h2
    refine List.Perm.trans ?_ (List.Perm.cons _ hperm.symm)
    rw [hqent]
    by_cases h1 : pq.currentSize = 1
    · rw [hsplit, h1]
      simp
    · have hfirst : (pq.entries.take (pq.currentSize - 1))[0]? = some (pq.entry 1) := by
        rw [List.getElem?_take_of_lt (by omega)]
        exact entries_slot pq 1 hb0 (le_refl _) (by omega)
      have hp := perm_set_cons _ 0 _ (pq.entry pq.currentSize) hfirst
      refine List.Perm.trans ?_ hp.symm
      conv_lhs => rw [hsplit]
      exact List.perm_append_singleton _ _
  · intro ho
    apply hord
    constructor
    · intro j h2 hjn hne
      rw [hqs] at hjn
      unfold key
      rw [hqe, hqe, if_neg (by omega), if_neg (by omega)]
      exact ho j h2 (by omega)
    · intro h
      omega
  · rw [hout 0 (Or.inl rfl), hqe, if_neg (by omega)]

theorem keyOrdered_root_le [Inhabited T] (pq : PriorityQueue T) (ho : pq.KeyOrdered) :
    ∀ i, 1 ≤ i → i ≤ pq.currentSize → pq.key 1 ≤ pq.key i := by
  intro i
  induction i using Nat.strong_induction_on with
  | _ i ih =>
    intro h1 hn
    by_cases hi : i = 1
    · rw [hi]
    · have hp := ih (i / 2) (by omega) (by omega) (by omega)
      exact le_trans hp (ho i (by omega) hn)

/-! ### Reachable queues -/

theorem reachable_inv [Inhabited T] (pq : PriorityQueue T) (h : Reachable pq) :
    pq.InBounds ∧ pq.KeyOrdered := by
  induction h with
  | init c pq hc hmk =>
    have hc0 : ¬ c < 0 := by omega
    simp only [mkPriorityQueue, hc0, if_false, Except.ok.injEq] at hmk
    subst hmk
    refine ⟨?_, ?_⟩
    · unfold InBounds
      simp
      omega
    · intro j h2 hj
      simp at hj
      omega
  | push pq pq1 v p _ hrun ih =>
    obtain ⟨q, hq, hb, _, _, hord, _⟩ := push_spec pq v p ih.1
    rw [hq] at hrun
    cases hrun
    exact ⟨hb, hord ih.2⟩
  | pop pq pq1 _ hrun ih =>
    have hn : 0 < pq.currentSize := by
      by_contra hcon
      simp [pop, hcon] at hrun
    obtain ⟨q, hq, hb, _, _, hord, _⟩ := pop_spec pq ih.1 hn
    rw [hq] at hrun
    cases hrun
    exact ⟨hb, hord ih.2⟩
  | changePriority pq pq1 v p _ hrun ih =>
    obtain ⟨q, hq, hb, _, _, hord, _⟩ := changePriority_spec pq v p ih.1
    rw [hq] at hrun
    cases hrun
    exact ⟨hb, hord ih.2⟩

/-- On a reachable queue `push` returns. -/
theorem reachable_push_ok [Inhabited T] (pq : PriorityQueue T) (h : Reachable pq)
    (element : T) (priority : Rat) : ∃ pq1, pq.push element priority = .ok pq1 := by
  obtain ⟨q, hq, _⟩ := push_spec pq element priority (reachable_inv pq h).1
  exact ⟨q, hq⟩

/-- On a reachable queue `changePriority` returns. -/
theorem reachable_changePriority_ok [Inhabited T] (pq : PriorityQueue T) (h : Reachable pq)
    (element : T) (priority : Rat) : ∃ pq1, pq.changePriority element priority = .ok pq1 := by
  obtain ⟨q, hq, _⟩ := changePriority_spec pq element priority (reachable_inv pq h).1
  exact ⟨q, hq⟩

/-- On a reachable queue `pop` returns exactly when the queue is not empty. -/
theorem reachable_pop_ok [Inhabited T] (pq : PriorityQueue T) (h : Reachable pq) :
    (∃ pq1, pq.pop = .ok pq1) ↔ 0 < pq.size := by
  constructor
  · rintro ⟨q, hq⟩
    by_contra hcon
    simp [size] at hcon
    simp [pop, hcon] at hq
  · intro hn
    obtain ⟨q, hq, _⟩ := pop_spec pq (reachable_inv pq h).1 hn
    exact ⟨q, hq⟩

theorem sampleQueue_reachable : Reachable sampleQueue :=
  Reachable.push ⟨[⟨0, 0⟩, ⟨8, 1⟩, ⟨7, 3⟩, ⟨0, 0⟩], 2⟩ sampleQueue 9 2
    (Reachable.push ⟨[⟨0, 0⟩, ⟨7, 3⟩], 1⟩ ⟨[⟨0, 0⟩, ⟨8, 1⟩, ⟨7, 3⟩, ⟨0, 0⟩], 2⟩ 8 1
      (Reachable.push ⟨[⟨0, 0⟩, ⟨0, 0⟩], 0⟩ ⟨[⟨0, 0⟩, ⟨7, 3⟩], 1⟩ 7 3
        (Reachable.init 2 ⟨[⟨0, 0⟩, ⟨0, 0⟩], 0⟩ (by decide) (by decide))
        (by decide))
      (by decide))
    (by decide)

/-! ### The root and the heap order, with rational priorities -/

/-- With rational priorities: on a non-empty queue reached from an empty one
(capacity at least 1) by `push`, `pop` and `changePriority`, `top()` returns
the value of the entry in slot 1, that entry is queued and no queued entry has
a smaller priority, and `pop()` (and with it `delMin()`, which returns that
value) returns a queue whose entries are the previous ones with that one entry
taken out; `size()` goes down by one. -/
theorem top_is_minimum_and_pop_removes_it [Inhabited T] (pq : PriorityQueue T)
    (h : Reachable pq) (hne : 0 < pq.size) :
    ∃ root pq1, pq.slot 1 = .ok root ∧ pq.top = .ok root.value ∧ root ∈ pq.entries ∧
      (∀ e ∈ pq.entries, root.priority ≤ e.priority) ∧
      pq.pop = .ok pq1 ∧ pq.delMin = .ok (root.value, pq1) ∧
      pq.entries.Perm (root :: pq1.entries) ∧ pq1.size + 1 = pq.size := by
  obtain ⟨hb, hord⟩ := reachable_inv pq h
  have hb0 := hb
  unfold InBounds at hb
  unfold size at hne
  have h1l : 1 < pq.heap.length := by omega
  obtain ⟨pq1, hpop, _, hsz, hperm, _, _⟩ := pop_spec pq hb0 hne
  have htop : pq.top = .ok (pq.entry 1).value := by
    simp [top, slot_of_lt pq h1l, bind, Except.bind]
  refine ⟨pq.entry 1, pq1, slot_of_lt pq h1l, htop,
    entry_mem_entries pq 1 hb0 (le_refl _) hne, ?_, hpop, ?_, hperm, hsz⟩
  · intro e he
    obtain ⟨i, hi1, hin, rfl⟩ := (mem_entries_iff pq e hb0).mp he
    exact keyOrdered_root_le pq hord i hi1 hin
  · simp [delMin, htop, hpop, bind, Except.bind]

/-- With rational priorities heap order is an invariant: in every queue
reached from an empty one (capacity at least 1) by `push`, `pop` on a
non-empty queue and `changePriority`, for every slot `k` with
`2 ≤ k ≤ size()` the slots `k / 2` and `k` lie inside the vector and the
priority in slot `k / 2` is at most the priority in slot `k`. -/
theorem heap_order_is_invariant [Inhabited T] (pq : PriorityQueue T) (h : Reachable pq) :
    ∀ k, 2 ≤ k → k ≤ pq.size →
      ∃ a b, pq.heap[k / 2]? = some a ∧ pq.heap[k]? = some b ∧ a.priority ≤ b.priority := by
  obtain ⟨hb, hord⟩ := reachable_inv pq h
  exact (keyOrdered_iff pq hb).mpr hord

/-- C9, amended: on a queue whose slots in use lie inside the vector,
`currentSize < heap.size()` (every queue constructed with capacity at least 1
is such, the one constructed with capacity 0 is not), and with finite
priorities, `push(v, p1)` followed by `changePriority(v, p2)` with `p2 < p1`
and `p2` smaller than the priority of every entry queued before the two calls
returns, and `top()` then returns `v`.  Heap order of the starting queue is
not needed for this. -/
theorem push_then_changePriority_top [Inhabited T] (pq : PriorityQueue T) (v : T)
    (p1 p2 : Rat) (hb : pq.InBounds) (hlt : p2 < p1)
    (hmin : ∀ e ∈ pq.entries, p2 < e.priority) :
    ∃ pq1 pq2, pq.push v p1 = .ok pq1 ∧ pq1.changePriority v p2 = .ok pq2 ∧
      pq2.top = .ok v := by
  obtain ⟨pq1, hpush, hb1, hs1, hperm1, _, _⟩ := push_spec pq v p1 hb
  obtain ⟨pq2, hchg, hb2, hs2, _, _, hroot⟩ := changePriority_spec pq1 v p2 hb1
  refine ⟨pq1, pq2, hpush, hchg, ?_⟩
  have hall : ∀ m, 1 ≤ m → m < pq1.currentSize → p2 < pq1.key m := by
    intro m hm1 hmn
    have hmem : pq1.entry m ∈ pq1.entries := entry_mem_entries pq1 m hb1 hm1 (by omega)
    have hmem2 := hperm1.subset hmem
    rcases List.mem_cons.mp hmem2 with heq | hin
    · unfold key; rw [heq]; exact hlt
    · exact hmin _ hin
  have hr := hroot (by omega) hall
  unfold InBounds at hb2
  have h1l : 1 < pq2.heap.length := by omega
  simp [top, slot_of_lt pq2 h1l, hr, bind, Except.bind]

theorem push_then_changePriority_top_witness :
    sampleQueue.InBounds ∧ (0 : Rat) < 5 ∧
    (∀ e ∈ sampleQueue.entries, (0 : Rat) < e.priority) ∧
    ∃ pq1 pq2, sampleQueue.push 4 5 = .ok pq1 ∧ pq1.changePriority 4 0 = .ok pq2 ∧
      pq2.top = .ok 4 :=
  ⟨by decide, by decide, by decide,
    push_then_changePriority_top sampleQueue 4 5 0 (by decide) (by decide) (by decide)⟩

end PriorityQueue

/-! ### The queue with finite priorities inside the queue with `double` priorities -/

namespace Ieee

variable {T : Type}

theorem slot_embed (pq : Algorithms.PriorityQueue T) (i : Nat) :
    (embed pq).slot i = (pq.slot i).map embedEntry := by
  simp only [PriorityQueue.slot, Algorithms.PriorityQueue.slot, embed, List.getElem?_map]
  cases pq.heap[i]? <;> rfl

theorem setSlot_embed (pq : Algorithms.PriorityQueue T) (i : Nat) (e : Algorithms.HeapEntry T) :
    (embed pq).setSlot i (embedEntry e) = (pq.setSlot i e).map embed := by
  simp only [PriorityQueue.setSlot, Algorithms.PriorityQueue.setSlot, embed, List.length_map]
  split
  · simp [Except.map, List.map_set, embed]
  · rfl

theorem swap_embed (pq : Algorithms.PriorityQueue T) (i j : Nat) :
    (embed pq).swap i j = (pq.swap i j).map embed := by
  simp only [PriorityQueue.swap, Algorithms.PriorityQueue.swap, slot_embed, bind, Except.bind]
  cases pq.slot i with
  | error err => rfl
  | ok a =>
    cases pq.slot j with
    | error err => rfl
    | ok b =>
      simp only [Except.map, setSlot_embed]
      cases pq.setSlot i b with
      | error err => rfl
      | ok pq1 =>
        simp only [Except.map, setSlot_embed]

theorem greater_embed (pq : Algorithms.PriorityQueue T) (i j : Nat) :
    (embed pq).greater i j = pq.greater i j := by
  simp only [PriorityQueue.greater, Algorithms.PriorityQueue.greater, slot_embed, bind,
    Except.bind]
  cases pq.slot i with
  | error err => rfl
  | ok a =>
    cases pq.slot j with
    | error err => rfl
    | ok b => rfl

theorem percolateUpLoop_embed : ∀ (fuel : Nat) (pq : Algorithms.PriorityQueue T) (k : Nat),
    PriorityQueue.percolateUpLoop fuel (embed pq) k =
      (Algorithms.PriorityQueue.percolateUpLoop fuel pq k).map embed := by
  intro fuel
  induction fuel with
  | zero =>
    intro pq k
    simp only [PriorityQueue.percolateUpLoop, Algorithms.PriorityQueue.percolateUpLoop]
    split <;> rfl
  | succ n ih =>
    intro pq k
    simp only [PriorityQueue.percolateUpLoop, Algorithms.PriorityQueue.percolateUpLoop,
      greater_embed, swap_embed, bind, Except.bind]
    split
    · cases pq.greater (k / 2) k with
      | error err => rfl
      | ok g =>
        cases g with
        | false => rfl
        | true =>
          simp only [if_true]
          cases pq.swap k (k / 2) with
          | error err => rfl
          | ok pq1 => exact ih pq1 (k / 2)
    · rfl

theorem percolateDownLoop_embed : ∀ (fuel : Nat) (pq : Algorithms.PriorityQueue T) (k : Nat),
    PriorityQueue.percolateDownLoop fuel (embed pq) k =
      (Algorithms.PriorityQueue.percolateDownLoop fuel pq k).map embed := by
  intro fuel
  induction fuel with
  | zero =>
    intro pq k
    have hcs : (embed pq).currentSize = pq.currentSize := rfl
    simp only [PriorityQueue.percolateDownLoop, Algorithms.PriorityQueue.percolateDownLoop, hcs]
    split <;> rfl
  | succ n ih =>
    intro pq k
    have hcs : (embed pq).currentSize = pq.currentSize := rfl
    simp only [PriorityQueue.percolateDownLoop, Algorithms.PriorityQueue.percolateDownLoop,
      greater_embed, swap_embed, bind, Except.bind, hcs]
    by_cases h1 : 2 * k ≤ pq.currentSize
    · simp only [h1, if_true]
      by_cases h2 : 2 * k < pq.currentSize
      · simp only [h2, if_true]
        cases pq.greater (2 * k) (2 * k + 1) with
        | error err => rfl
        | ok g1 =>
          simp only []
          cases pq.greater k (if g1 = true then 2 * k + 1 else 2 * k) with
          | error err => rfl
          | ok g2 =>
            cases g2 with
            | false => rfl
            | true =>
              simp only [Bool.not_true, Bool.false_eq_true, if_false]
              cases pq.swap k (if g1 = true then 2 * k + 1 else 2 * k) with
              | error err => rfl
              | ok pq1 => exact ih pq1 (if g1 = true then 2 * k + 1 else 2 * k)
      · simp only [h2, if_false, Bool.false_eq_true]
        cases pq.greater k (2 * k) with
        | error err => rfl
        | ok g2 =>
          cases g2 with
          | false => rfl
          | true =>
            simp only [Bool.not_true, Bool.false_eq_true, if_false]
            cases pq.swap k (2 * k) with
            | error err => rfl
            | ok pq1 => exact ih pq1 (2 * k)
    · simp only [h1, if_false]
      rfl

theorem percolateUp_embed (pq : Algorithms.PriorityQueue T) (k : Nat) :
    (embed pq).percolateUp k = (pq.percolateUp k).map embed :=
  percolateUpLoop_embed k pq k

theorem percolateDown_embed (pq : Algorithms.PriorityQueue T) (k : Nat) :
    (embed pq).percolateDown k = (pq.percolateDown k).map embed :=
  percolateDownLoop_embed pq.currentSize pq k

theorem embedEntry_default [Inhabited T] :
    (default : HeapEntry T) = embedEntry (default : Algorithms.HeapEntry T) := rfl

/-- On finite priorities `push` is the `push` of the queue with rational
priorities. -/
theorem push_embed [Inhabited T] (pq : Algorithms.PriorityQueue T) (element : T)
    (priority : Rat) :
    (embed pq).push element (.finite priority) = (pq.push element priority).map embed := by
  have hstep : ∀ (q : Algorithms.PriorityQueue T),
      (do
        let e ← (embed q).slot q.currentSize
        let pq3 ← (embed q).setSlot q.currentSize { e with value := element }
        let e ← pq3.slot q.currentSize
        let pq4 ← pq3.setSlot q.currentSize { e with priority := .finite priority }
        pq4.percolateUp q.currentSize) =
      (do
        let e ← q.slot q.currentSize
        let pq3 ← q.setSlot q.currentSize { e with value := element }
        let e ← pq3.slot q.currentSize
        let pq4 ← pq3.setSlot q.currentSize { e with priority := priority }
        pq4.percolateUp q.currentSize : Except Err (Algorithms.PriorityQueue T)).map embed := by
    intro q
    simp only [slot_embed, bind, Except.bind]
    cases q.slot q.currentSize with
    | error err => rfl
    | ok e =>
      have h1 : ({ embedEntry e with value := element } : HeapEntry T) =
          embedEntry { e with value := element } := rfl
      simp only [Except.map, h1, setSlot_embed]
      cases q.setSlot q.currentSize { e with value := element } with
      | error err => rfl
      | ok pq3 =>
        simp only [Except.map, slot_embed]
        cases pq3.slot q.currentSize with
        | error err => rfl
        | ok e2 =>
          have h2 : ({ embedEntry e2 with priority := .finite priority } : HeapEntry T) =
              embedEntry { e2 with priority := priority } := rfl
          simp only [Except.map, h2, setSlot_embed]
          cases pq3.setSlot q.currentSize { e2 with priority := priority } with
          | error err => rfl
          | ok pq4 => exact percolateUp_embed pq4 q.currentSize
  have hlen : (embed pq).heap.length = pq.heap.length := by simp [embed]
  have hcs : (embed pq).currentSize = pq.currentSize := rfl
  unfold PriorityQueue.push Algorithms.PriorityQueue.push
  simp only [hlen, hcs]
  split
  · have h := hstep ⟨pq.heap ++ List.replicate (2 * pq.heap.length - pq.heap.length) default,
      pq.currentSize + 1⟩
    simpa [embed, embedEntry_default] using h
  · exact hstep ⟨pq.heap, pq.currentSize + 1⟩

/-- On finite priorities `changePriority` is the `changePriority` of the queue
with rational priorities. -/
theorem changePriority_embed (pq : Algorithms.PriorityQueue T) (element : T) (priority : Rat) :
    (embed pq).changePriority element (.finite priority) =
      (pq.changePriority element priority).map embed := by
  have hcs : ∀ q : Algorithms.PriorityQueue T, (embed q).currentSize = q.currentSize :=
    fun _ => rfl
  unfold PriorityQueue.changePriority Algorithms.PriorityQueue.changePriority
  simp only [slot_embed, bind, Except.bind, hcs]
  cases pq.slot pq.currentSize with
  | error err => rfl
  | ok e =>
    have h1 : ({ embedEntry e with value := element } : HeapEntry T) =
        embedEntry { e with value := element } := rfl
    simp only [Except.map, h1, setSlot_embed]
    cases pq.setSlot pq.currentSize { e with value := element } with
    | error err => rfl
    | ok pq1 =>
      simp only [Except.map, slot_embed, hcs]
      cases pq1.slot pq1.currentSize with
      | error err => rfl
      | ok e2 =>
        have h2 : ({ embedEntry e2 with priority := .finite priority } : HeapEntry T) =
            embedEntry { e2 with priority := priority } := rfl
        simp only [Except.map, h2, setSlot_embed]
        cases pq1.setSlot pq1.currentSize { e2 with priority := priority } with
        | error err => rfl
        | ok pq2 =>
          simp only [Except.map, hcs]
          exact percolateUp_embed pq2 pq2.currentSize

/-- The member `pop` of the queue with `double` priorities is the `pop` of the
queue with rational priorities. -/
theorem pop_embed (pq : Algorithms.PriorityQueue T) :
    (embed pq).pop = (pq.pop).map embed := by
  have hcs : (embed pq).currentSize = pq.currentSize := rfl
  unfold PriorityQueue.pop Algorithms.PriorityQueue.pop
  simp only [hcs]
  split
  · simp only [slot_embed, bind, Except.bind]
    cases pq.slot pq.currentSize with
    | error err => rfl
    | ok last =>
      have h := setSlot_embed ⟨pq.heap, pq.currentSize - 1⟩ 1 last
      simp only [Except.map]
      have h1 : ({ embed pq with currentSize := pq.currentSize - 1 } : PriorityQueue T) =
          embed ⟨pq.heap, pq.currentSize - 1⟩ := rfl
      rw [h1, h]
      cases Algorithms.PriorityQueue.setSlot ⟨pq.heap, pq.currentSize - 1⟩ 1 last with
      | error err => rfl
      | ok pq2 => exact percolateDown_embed pq2 1
  · rfl

theorem top_embed (pq : Algorithms.PriorityQueue T) : (embed pq).top = pq.top := by
  unfold PriorityQueue.top Algorithms.PriorityQueue.top
  simp only [slot_embed, bind, Except.bind]
  cases pq.slot 1 with
  | error err => rfl
  | ok e => rfl

theorem delMin_embed (pq : Algorithms.PriorityQueue T) :
    (embed pq).delMin = (pq.delMin).map (fun r => (r.1, embed r.2)) := by
  unfold PriorityQueue.delMin Algorithms.PriorityQueue.delMin
  simp only [top_embed, pop_embed, bind, Except.bind]
  cases pq.top with
  | error err => rfl
  | ok u =>
    simp only []
    cases pq.pop with
    | error err => rfl
    | ok pq1 => rfl

theorem mkPriorityQueue_embed [Inhabited T] (maxCapacity : Int) :
    (mkPriorityQueue maxCapacity : Except Err (PriorityQueue T)) =
      (Algorithms.mkPriorityQueue maxCapacity).map embed := by
  unfold mkPriorityQueue Algorithms.mkPriorityQueue
  split
  · rfl
  · simp [Except.map, embed, embedEntry_default]

theorem entries_embed (pq : Algorithms.PriorityQueue T) :
    (embed pq).entries = pq.entries.map embedEntry := by
  simp [PriorityQueue.entries, Algorithms.PriorityQueue.entries, embed, List.map_take,
    List.map_drop]

/-- Every queue reached by calls with finite priorities is the image of a
queue reached in the model with rational priorities. -/
theorem finiteReachable_embed [Inhabited T] (dq : PriorityQueue T) (h : FiniteReachable dq) :
    ∃ pq : Algorithms.PriorityQueue T, Algorithms.PriorityQueue.Reachable pq ∧ dq = embed pq := by
  induction h with
  | init maxCapacity dq hc hmk =>
    rw [mkPriorityQueue_embed] at hmk
    cases hq : (Algorithms.mkPriorityQueue maxCapacity : Except Err (Algorithms.PriorityQueue T)) with
    | error err => rw [hq] at hmk; cases hmk
    | ok pq =>
      rw [hq] at hmk
      cases hmk
      exact ⟨pq, .init maxCapacity pq hc hq, rfl⟩
  | push dq dq1 element priority _ hcall ih =>
    obtain ⟨pq, hr, rfl⟩ := ih
    rw [push_embed] at hcall
    cases hq : pq.push element priority with
    | error err => rw [hq] at hcall; cases hcall
    | ok pq1 =>
      rw [hq] at hcall
      cases hcall
      exact ⟨pq1, .push pq pq1 element priority hr hq, rfl⟩
  | pop dq dq1 _ hcall ih =>
    obtain ⟨pq, hr, rfl⟩ := ih
    rw [pop_embed] at hcall
    cases hq : pq.pop with
    | error err => rw [hq] at hcall; cases hcall
    | ok pq1 =>
      rw [hq] at hcall
      cases hcall
      exact ⟨pq1, .pop pq pq1 hr hq, rfl⟩
  | changePriority dq dq1 element priority _ hcall ih =>
    obtain ⟨pq, hr, rfl⟩ := ih
    rw [changePriority_embed] at hcall
    cases hq : pq.changePriority element priority with
    | error err => rw [hq] at hcall; cases hcall
    | ok pq1 =>
      rw [hq] at hcall
      cases hcall
      exact ⟨pq1, .changePriority pq pq1 element priority hr hq, rfl⟩

theorem sampleQueue_finiteReachable : FiniteReachable sampleQueue :=
  FiniteReachable.push
    ⟨[⟨0, .finite 0⟩, ⟨8, .finite 1⟩, ⟨7, .finite 3⟩, ⟨0, .finite 0⟩], 2⟩ sampleQueue 9 2
    (FiniteReachable.push ⟨[⟨0, .finite 0⟩, ⟨7, .finite 3⟩], 1⟩
      ⟨[⟨0, .finite 0⟩, ⟨8, .finite 1⟩, ⟨7, .finite 3⟩, ⟨0, .finite 0⟩], 2⟩ 8 1
      (FiniteReachable.push ⟨[⟨0, .finite 0⟩, ⟨0, .finite 0⟩], 0⟩
        ⟨[⟨0, .finite 0⟩, ⟨7, .finite 3⟩], 1⟩ 7 3
        (FiniteReachable.init 2 ⟨[⟨0, .finite 0⟩, ⟨0, .finite 0⟩], 0⟩ (by decide) (by decide))
        (by decide))
      (by decide))
    (by decide)

end Ieee


/-! ### The claims on the priority queue, with priorities of type `double` -/

/-- C3, counterexample: after `PriorityQueue<int> pq(4)`, `push(1, 2.0)`,
`push(2, NaN)`, `push(3, 3.0)`, `push(4, 1.0)`, all of which return, `top()`
returns 1, queued in slot 1 with priority 2.0, although 4 is queued with the
smaller priority 1.0: the NaN in slot 2 stops `percolateUp(4)`, `greater(2, 4)`
being false.  No queued entry with value 1 has a priority `<=` all queued
priorities. -/
theorem top_is_not_minimum_behind_nan :
    ∃ pq : Ieee.PriorityQueue Int,
      (Ieee.mkPriorityQueue 4 >>= fun q : Ieee.PriorityQueue Int =>
        Ieee.pushAll q [(1, .finite 2), (2, .nan), (3, .finite 3), (4, .finite 1)]) = .ok pq ∧
      pq.size = 4 ∧ pq.greater 2 4 = .ok false ∧
      pq.slot 1 = .ok ⟨1, .finite 2⟩ ∧ pq.top = .ok 1 ∧
      (⟨4, .finite 1⟩ : Ieee.HeapEntry Int) ∈ pq.entries ∧
      Double.le (.finite 2) (.finite 1) = false ∧
      ¬ ∃ root ∈ pq.entries, root.value = 1 ∧
          ∀ e ∈ pq.entries, Double.le root.priority e.priority = true :=
  ⟨⟨[⟨0, .finite 0⟩, ⟨1, .finite 2⟩, ⟨2, .nan⟩, ⟨3, .finite 3⟩, ⟨4, .finite 1⟩,
      ⟨0, .finite 0⟩, ⟨0, .finite 0⟩, ⟨0, .finite 0⟩], 4⟩,
    by decide, by decide, by decide, by decide, by decide, by decide, by decide, by decide⟩

/-- C3, amended: on a non-empty queue reached from an empty one (capacity at
least 1) by `push`, `pop` and `changePriority` with finite priorities (no NaN,
no infinity), `top()` returns the value of the entry in slot 1, that entry is
queued and its priority is `<=` the priority of every queued entry, and
`pop()` (and with it `delMin()`, which returns that value) returns a queue
whose entries are the previous ones with that one entry taken out; `size()`
goes down by one. -/
theorem top_is_minimum_for_finite_priorities {T : Type} [Inhabited T]
    (pq : Ieee.PriorityQueue T) (h : Ieee.FiniteReachable pq) (hne : 0 < pq.size) :
    ∃ root pq1, pq.slot 1 = .ok root ∧ pq.top = .ok root.value ∧ root ∈ pq.entries ∧
      (∀ e ∈ pq.entries, Double.le root.priority e.priority = true) ∧
      pq.pop = .ok pq1 ∧ pq.delMin = .ok (root.value, pq1) ∧
      pq.entries.Perm (root :: pq1.entries) ∧ pq1.size + 1 = pq.size := by
  obtain ⟨q, hq, rfl⟩ := Ieee.finiteReachable_embed pq h
  obtain ⟨root, q1, hslot, htop, hmem, hmin, hpop, hdel, hperm, hsize⟩ :=
    PriorityQueue.top_is_minimum_and_pop_removes_it q hq hne
  refine ⟨Ieee.embedEntry root, Ieee.embed q1, ?_, ?_, ?_, ?_, ?_, ?_, ?_, hsize⟩
  · rw [Ieee.slot_embed, hslot]
    rfl
  · rw [Ieee.top_embed, htop]
    rfl
  · rw [Ieee.entries_embed]
    exact List.mem_map_of_mem _ hmem
  · intro e he
    rw [Ieee.entries_embed] at he
    obtain ⟨e0, he0, rfl⟩ := List.mem_map.mp he
    exact decide_eq_true (hmin e0 he0)
  · rw [Ieee.pop_embed, hpop]
    rfl
  · rw [Ieee.delMin_embed, hdel]
    rfl
  · rw [Ieee.entries_embed, Ieee.entries_embed, ← List.map_cons]
    exact hperm.map _

theorem top_is_minimum_for_finite_priorities_witness :
    Ieee.FiniteReachable Ieee.sampleQueue ∧ 0 < Ieee.sampleQueue.size ∧
    ∃ root pq1, Ieee.sampleQueue.slot 1 = .ok root ∧ Ieee.sampleQueue.top = .ok root.value ∧
      root ∈ Ieee.sampleQueue.entries ∧
      (∀ e ∈ Ieee.sampleQueue.entries, Double.le root.priority e.priority = true) ∧
      Ieee.sampleQueue.pop = .ok pq1 ∧ Ieee.sampleQueue.delMin = .ok (root.value, pq1) ∧
      Ieee.sampleQueue.entries.Perm (root :: pq1.entries) ∧
      pq1.size + 1 = Ieee.sampleQueue.size :=
  ⟨Ieee.sampleQueue_finiteReachable, by decide,
    top_is_minimum_for_finite_priorities Ieee.sampleQueue Ieee.sampleQueue_finiteReachable
      (by decide)⟩

/-- C8, counterexample: after `PriorityQueue<int> pq(3)`, `push(1, NaN)`,
`push(2, 2.0)`, `push(3, 1.0)`, all of which return, slot 1 holds NaN, slot 2
holds 2.0 and slot 3 holds 1.0: `greater(1, 2)` and `greater(1, 3)` are false,
so `percolateUp` swaps nothing, and `heap[1].priority <= heap[2].priority` is
false.  Heap order fails at `k = 2` and at `k = 3`. -/
theorem heap_order_fails_below_nan :
    ∃ pq : Ieee.PriorityQueue Int,
      (Ieee.mkPriorityQueue 3 >>= fun q : Ieee.PriorityQueue Int =>
        Ieee.pushAll q [(1, .nan), (2, .finite 2), (3, .finite 1)]) = .ok pq ∧
      pq.size = 3 ∧
      pq.heap[1]? = some ⟨1, .nan⟩ ∧ pq.heap[2]? = some ⟨2, .finite 2⟩ ∧
      pq.heap[3]? = some ⟨3, .finite 1⟩ ∧
      Double.le .nan (.finite 2) = false ∧ Double.le .nan (.finite 1) = false ∧
      ¬ pq.HeapOrdered := by
  refine ⟨⟨[⟨0, .finite 0⟩, ⟨1, .nan⟩, ⟨2, .finite 2⟩, ⟨3, .finite 1⟩,
      ⟨0, .finite 0⟩, ⟨0, .finite 0⟩], 3⟩, ?_, rfl, rfl, rfl, rfl, rfl, rfl, ?_⟩
  · decide
  · intro hord
    obtain ⟨a, b, ha, _, hab⟩ := hord 2 (le_refl _) (by decide)
    cases ha
    cases hab

/-- C8, amended: heap order is an invariant for finite priorities.  In every
queue reached from an empty one (capacity at least 1) by `push`, `pop` on a
non-empty queue and `changePriority` with finite priorities (no NaN, no
infinity), for every slot `k` with `2 ≤ k ≤ size()` the slots `k / 2` and `k`
lie inside the vector and the priority in slot `k / 2` is `<=` the priority
in slot `k`. -/
theorem heap_order_for_finite_priorities {T : Type} [Inhabited T] (pq : Ieee.PriorityQueue T)
    (h : Ieee.FiniteReachable pq) :
    ∀ k, 2 ≤ k → k ≤ pq.size →
      ∃ a b, pq.heap[k / 2]? = some a ∧ pq.heap[k]? = some b ∧
        Double.le a.priority b.priority = true := by
  obtain ⟨q, hq, rfl⟩ := Ieee.finiteReachable_embed pq h
  intro k hk2 hks
  obtain ⟨a, b, ha, hb, hab⟩ := PriorityQueue.heap_order_is_invariant q hq k hk2 hks
  refine ⟨Ieee.embedEntry a, Ieee.embedEntry b, ?_, ?_, decide_eq_true hab⟩
  · simp [Ieee.embed, ha]
  · simp [Ieee.embed, hb]

theorem heap_order_for_finite_priorities_witness :
    Ieee.FiniteReachable Ieee.sampleQueue ∧ ∀ k, 2 ≤ k → k ≤ Ieee.sampleQueue.size →
      ∃ a b, Ieee.sampleQueue.heap[k / 2]? = some a ∧ Ieee.sampleQueue.heap[k]? = some b ∧
        Double.le a.priority b.priority = true :=
  ⟨Ieee.sampleQueue_finiteReachable,
    heap_order_for_finite_priorities Ieee.sampleQueue Ieee.sampleQueue_finiteReachable⟩

/-- C9, counterexample: the queue made by `PriorityQueue<int>(0)` is empty and
so heap-ordered, `0 < 5`, and no other entry has a priority below 0; yet
`push(4, 5)` does not return: `heap.size()` is 0, `currentSize == length - 1`
is false, and `heap[1]` lies outside the empty vector. -/
theorem push_on_capacity_zero_reads_outside :
    ∃ pq : PriorityQueue Int, mkPriorityQueue 0 = .ok pq ∧ pq.HeapOrdered ∧ (0 : Rat) < 5 ∧
      (∀ e ∈ pq.entries, (0 : Rat) < e.priority) ∧ ¬ pq.InBounds ∧
      pq.slot 1 = .error .bounds ∧ pq.push 4 5 = .error .bounds := by
  refine ⟨⟨[], 0⟩, rfl, ?_, by decide, by decide, by decide, rfl, by decide⟩
  intro k hk2 hks
  simp only at hks
  omega

/-! ### Runs that show a defect -/

theorem joined_step (es : List Edge) (a b c : Int) (e : Edge) (h : Joined es a b)
    (he : e ∈ es) (hdir : (e.x = b ∧ e.y = c) ∨ (e.x = c ∧ e.y = b)) : Joined es a c :=
  Relation.ReflTransGen.tail h ⟨e, he, hdir⟩

/-- C1: on `Graph(5)` with the undirected edges 0-1 (3), 0-2 (1), 0-3 (2),
2-3 (1), 3-4 (5), 1-4 (1), each added in both directions, `MST` returns the
edges 4-1, 0-2, 2-3, 3-4 of total `cost()` 8, although the stored edges 0-1,
0-2, 2-3, 1-4 join all five vertices with total weight 6. -/
theorem mst_cost_not_minimal :
    runMST 5 callsA = .ok ([⟨4, 1, 1⟩, ⟨0, 2, 1⟩, ⟨2, 3, 1⟩, ⟨3, 4, 5⟩], .finite 8) ∧
    ∃ g : Graph, buildGraph 5 callsA = .ok g ∧
      (∀ e ∈ treeA, e ∈ g.storedEdges) ∧
      (∀ v ∈ [(0 : Int), 1, 2, 3, 4], Joined treeA 0 v) ∧
      (treeA.map Edge.getWeight).sum = 6 := by
  have hg : buildGraph 5 callsA = .ok ⟨5, 12,
      [[⟨0, 1, 3⟩, ⟨0, 2, 1⟩, ⟨0, 3, 2⟩], [⟨1, 0, 3⟩, ⟨1, 4, 1⟩], [⟨2, 0, 1⟩, ⟨2, 3, 1⟩],
       [⟨3, 0, 2⟩, ⟨3, 2, 1⟩, ⟨3, 4, 5⟩], [⟨4, 3, 5⟩, ⟨4, 1, 1⟩]]⟩ := by decide
  have hm : (buildGraph 5 callsA >>= mkMST) = .ok
      ⟨[none, some ⟨4, 1, 1⟩, some ⟨0, 2, 1⟩, some ⟨2, 3, 1⟩, some ⟨3, 4, 5⟩],
       [0, 1, 1, 1, 5], [true, true, true, true, true],
       ⟨[⟨0, 0⟩, ⟨1, 1⟩, ⟨4, 5⟩, ⟨3, 2⟩, ⟨0, 0⟩], 0⟩⟩ := by decide
  refine ⟨?_, _, hg, by decide, ?_, by norm_num [treeA, Edge.getWeight]⟩
  · rw [hg] at hm
    simp only [bind, Except.bind] at hm
    simp only [runMST, hg, hm, bind, Except.bind]
    rw [MST.cost_of_small_ints _ 5 (by decide) (by decide)]
    norm_num [MST.edges, Edge.getWeight, List.filterMap_cons]
  · have h0 : Joined treeA 0 0 := Relation.ReflTransGen.refl
    have h1 := joined_step _ 0 0 1 ⟨0, 1, 3⟩ h0 (by decide) (by decide)
    have h2 := joined_step _ 0 0 2 ⟨0, 2, 1⟩ h0 (by decide) (by decide)
    have h3 := joined_step _ 0 2 3 ⟨2, 3, 1⟩ h2 (by decide) (by decide)
    have h4 := joined_step _ 0 1 4 ⟨1, 4, 1⟩ h1 (by decide) (by decide)
    intro v hv
    simp only [List.mem_cons, List.mem_singleton, List.mem_nil_iff, or_false] at hv
    rcases hv with rfl | rfl | rfl | rfl | rfl
    · exact h0
    · exact h1
    · exact h2
    · exact h3
    · exact h4

/-- C2: on `Graph(5)` with the undirected edges 0-4, 0-2, 0-3, 2-3, 4-1, each
added in both directions, all five vertices are joined (one component, so
`V - k = 4`) and `MST(graph).edges()` has 3 elements. -/
theorem mst_edge_count_short :
    ∃ g st, buildGraph 5 callsB = .ok g ∧ mkMST g = .ok st ∧
      st.edges = [⟨0, 2, 1⟩, ⟨2, 3, 1⟩, ⟨1, 4, 1⟩] ∧ st.edges.length = 3 ∧
      (∀ v ∈ [(0 : Int), 1, 2, 3, 4], Joined g.storedEdges 0 v) := by
  have hg : buildGraph 5 callsB = .ok ⟨5, 10,
      [[⟨0, 4, 3⟩, ⟨0, 2, 1⟩, ⟨0, 3, 2⟩], [⟨1, 4, 1⟩], [⟨2, 0, 1⟩, ⟨2, 3, 1⟩],
       [⟨3, 0, 2⟩, ⟨3, 2, 1⟩], [⟨4, 0, 3⟩, ⟨4, 1, 1⟩]]⟩ := by decide
  have hm : mkMST ⟨5, 10,
      [[⟨0, 4, 3⟩, ⟨0, 2, 1⟩, ⟨0, 3, 2⟩], [⟨1, 4, 1⟩], [⟨2, 0, 1⟩, ⟨2, 3, 1⟩],
       [⟨3, 0, 2⟩, ⟨3, 2, 1⟩], [⟨4, 0, 3⟩, ⟨4, 1, 1⟩]]⟩ = .ok
      ⟨[none, none, some ⟨0, 2, 1⟩, some ⟨2, 3, 1⟩, some ⟨1, 4, 1⟩],
       [0, 0, 1, 1, 1], [true, true, true, true, true],
       ⟨[⟨0, 0⟩, ⟨4, 1⟩, ⟨3, 2⟩, ⟨3, 2⟩, ⟨0, 0⟩], 0⟩⟩ := by decide
  refine ⟨_, _, hg, hm, by decide, by decide, ?_⟩
  have h0 : Joined (Graph.storedEdges ⟨5, 10,
      [[⟨0, 4, 3⟩, ⟨0, 2, 1⟩, ⟨0, 3, 2⟩], [⟨1, 4, 1⟩], [⟨2, 0, 1⟩, ⟨2, 3, 1⟩],
       [⟨3, 0, 2⟩, ⟨3, 2, 1⟩], [⟨4, 0, 3⟩, ⟨4, 1, 1⟩]]⟩) 0 0 := Relation.ReflTransGen.refl
  have h4 := joined_step _ 0 0 4 ⟨0, 4, 3⟩ h0 (by decide) (by decide)
  have h2 := joined_step _ 0 0 2 ⟨0, 2, 1⟩ h0 (by decide) (by decide)
  have h3 := joined_step _ 0 0 3 ⟨0, 3, 2⟩ h0 (by decide) (by decide)
  have h1 := joined_step _ 0 4 1 ⟨4, 1, 1⟩ h4 (by decide) (by decide)
  intro v hv
  simp only [List.mem_cons, List.mem_singleton, List.mem_nil_iff, or_false] at hv
  rcases hv with rfl | rfl | rfl | rfl | rfl
  · exact h0
  · exact h1
  · exact h2
  · exact h3
  · exact h4

/-- C4: after `PriorityQueue<int>(2)` and `push(5, 1)` the only queued entry
has value 5, yet `contains(5)` returns false and `contains(0)` returns true:
the loop reads slots `0 .. currentSize - 1` while the entries are in slots
`1 .. currentSize`. -/
theorem contains_reads_the_wrong_slots :
    ∃ q0 q1 : PriorityQueue Int, mkPriorityQueue 2 = .ok q0 ∧ q0.push 5 1 = .ok q1 ∧
      q1.entries = [⟨5, 1⟩] ∧ q1.contains 5 = .ok false ∧ q1.contains 0 = .ok true :=
  ⟨⟨[⟨0, 0⟩, ⟨0, 0⟩], 0⟩, ⟨[⟨0, 0⟩, ⟨5, 1⟩], 1⟩, by decide, by decide, by decide, by decide,
    by decide⟩

/-- C5: on `Graph(2)` a second `addEdge(0, 1, _)` returns true although the
list of vertex 0 already holds an edge to 1, and stores a second such edge;
`getE()` becomes 2. -/
theorem addEdge_accepts_duplicate :
    ∃ g0 g1 g2 : Graph, mkGraph 2 = .ok g0 ∧ g0.addEdge 0 1 1 = .ok (true, g1) ∧
      g1.isAdjacent 0 1 = .ok true ∧ g1.addEdge 0 1 2 = .ok (true, g2) ∧
      g2.getE = 2 ∧ g2.getNeighbors 0 = .ok [⟨0, 1, 1⟩, ⟨0, 1, 2⟩] :=
  ⟨⟨2, 0, [[], []]⟩, ⟨2, 1, [[⟨0, 1, 1⟩], []]⟩, ⟨2, 2, [[⟨0, 1, 1⟩, ⟨0, 1, 2⟩], []]⟩,
    by decide, by decide, by decide, by decide, by decide, by decide⟩

/-- C6: on `Graph(2)`, `addEdge(0, 1, 1)` followed by `removeEdge(0, 1)`
makes `removeEdge` return false and change nothing: `getE()` stays 1 (it was
0 before the `addEdge`) and `isAdjacent(0, 1)` stays true. -/
theorem removeEdge_misses_the_added_edge :
    ∃ g0 g1 : Graph, mkGraph 2 = .ok g0 ∧ g0.getE = 0 ∧ g0.isAdjacent 0 1 = .ok false ∧
      g0.addEdge 0 1 1 = .ok (true, g1) ∧ g1.removeEdge 0 1 = .ok (false, g1) ∧
      g1.getE = 1 ∧ g1.isAdjacent 0 1 = .ok true :=
  ⟨⟨2, 0, [[], []]⟩, ⟨2, 1, [[⟨0, 1, 1⟩], []]⟩, by decide, by decide, by decide, by decide,
    by decide, by decide, by decide⟩

/-! ### Vectors indexed by `int` -/

theorem vecGet_ok {α : Type} (xs : List α) (i : Int) (h0 : 0 ≤ i) (h : i.toNat < xs.length) :
    vecGet xs i = .ok xs[i.toNat] := by
  have : ¬ i < 0 := by omega
  simp [vecGet, this, List.getElem?_eq_getElem h]

theorem vecSet_ok {α : Type} (xs : List α) (i : Int) (a : α) (h0 : 0 ≤ i)
    (h : i.toNat < xs.length) : vecSet xs i a = .ok (xs.set i.toNat a) := by
  simp [vecSet, h0, h]

theorem vecGet_set_ne {α : Type} (xs : List α) (i j : Int) (a : α) (h0 : 0 ≤ i)
    (hne : j ≠ i) : vecGet (xs.set i.toNat a) j = vecGet xs j := by
  unfold vecGet
  by_cases hj : j < 0
  · simp [hj]
  · have : i.toNat ≠ j.toNat := by omega
    simp only [hj, if_false]
    rw [List.getElem?_set_ne this]

theorem vecGet_set_self {α : Type} (xs : List α) (i : Int) (a : α) (h0 : 0 ≤ i)
    (h : i.toNat < xs.length) : vecGet (xs.set i.toNat a) i = .ok a := by
  have : ¬ i < 0 := by omega
  simp [vecGet, this, h]

namespace Graph

theorem assertVertex_ok (g : Graph) (x : Int) (hV : 0 ≤ g.V) : g.assertVertex x = .ok () := by
  have : x > 0 ∨ x ≤ g.V := by omega
  simp [assertVertex, this]

/-- C7: on a graph with one adjacency list per vertex and `x` in range,
`addEdge(x, y, w)` returns.  When it returns true, `getE()` has grown by 1,
the list of `x` is its previous content followed by the edge `(x, y, w)`,
`getDegree(x)` has grown by 1, `isAdjacent(x, y)` is true and the list of
every other vertex is as before; when it returns false the graph is
unchanged. -/
theorem addEdge_frame (g : Graph) (x y : Int) (w : Rat) (hwf : g.WellFormed)
    (hx0 : 0 ≤ x) (hxV : x < g.V) :
    ∃ l b g1, g.getNeighbors x = .ok l ∧ g.addEdge x y w = .ok (b, g1) ∧
      (b = true →
        g1.getE = g.getE + 1 ∧ g1.getNeighbors x = .ok (l ++ [⟨x, y, w⟩]) ∧
        g.getDegree x = .ok (l.length : Int) ∧
        g1.getDegree x = .ok ((l.length : Int) + 1) ∧
        g1.isAdjacent x y = .ok true ∧ g1.getV = g.getV ∧
        ∀ v, v ≠ x → g1.getNeighbors v = g.getNeighbors v) ∧
      (b = false → g1 = g) := by
  obtain ⟨hV, hlen⟩ := hwf
  have hxl : x.toNat < g.adjacencyList.length := by omega
  have hget := vecGet_ok g.adjacencyList x hx0 hxl
  have hax := assertVertex_ok g x hV
  have hay := assertVertex_ok g y hV
  refine ⟨g.adjacencyList[x.toNat], ?_⟩
  by_cases hany : (g.adjacencyList[x.toNat].any fun e => decide (e.x = y)) = true
  · refine ⟨false, g, ?_, ?_, by simp, fun _ => rfl⟩
    · simp [getNeighbors, hax, hget, bind, Except.bind]
    · simp [addEdge, hax, hay, hget, hany, bind, Except.bind]
  · have hset := vecSet_ok g.adjacencyList x (g.adjacencyList[x.toNat] ++ [⟨x, y, w⟩]) hx0 hxl
    refine ⟨true, ⟨g.V, g.E + 1,
      g.adjacencyList.set x.toNat (g.adjacencyList[x.toNat] ++ [⟨x, y, w⟩])⟩, ?_, ?_, ?_,
      by simp⟩
    · simp [getNeighbors, hax, hget, bind, Except.bind]
    · simp only [addEdge, hax, hay, hget, hany, hset, bind, Except.bind]
      simp
    · intro _
      have hax1 : ∀ v, assertVertex ⟨g.V, g.E + 1,
          g.adjacencyList.set x.toNat (g.adjacencyList[x.toNat] ++ [⟨x, y, w⟩])⟩ v = .ok () :=
        fun v => assertVertex_ok _ v hV
      have hget1 := vecGet_set_self g.adjacencyList x
        (g.adjacencyList[x.toNat] ++ [⟨x, y, w⟩]) hx0 hxl
      refine ⟨rfl, ?_, ?_, ?_, ?_, rfl, ?_⟩
      · simp [getNeighbors, hax1, hget1, bind, Except.bind]
      · simp [getDegree, hax, hget, bind, Except.bind]
      · simp [getDegree, hax1, hget1, bind, Except.bind]
      · simp [isAdjacent, hax1, hget1, bind, Except.bind]
      · intro v hv
        simp only [getNeighbors, hax1, assertVertex_ok g v hV, bind, Except.bind]
        exact vecGet_set_ne g.adjacencyList x v _ hx0 hv

theorem addEdge_frame_witness :
    sampleGraph.WellFormed ∧ (0 : Int) ≤ 0 ∧ (0 : Int) < sampleGraph.V ∧
    ∃ l b g1, sampleGraph.getNeighbors 0 = .ok l ∧
      sampleGraph.addEdge 0 1 4 = .ok (b, g1) ∧
      (b = true →
        g1.getE = sampleGraph.getE + 1 ∧ g1.getNeighbors 0 = .ok (l ++ [⟨0, 1, 4⟩]) ∧
        sampleGraph.getDegree 0 = .ok (l.length : Int) ∧
        g1.getDegree 0 = .ok ((l.length : Int) + 1) ∧
        g1.isAdjacent 0 1 = .ok true ∧ g1.getV = sampleGraph.getV ∧
        ∀ v, v ≠ 0 → g1.getNeighbors v = sampleGraph.getNeighbors v) ∧
      (b = false → g1 = sampleGraph) :=
  ⟨by decide, by decide, by decide,
    addEdge_frame sampleGraph 0 1 4 (by decide) (by decide) (by decide)⟩

end Graph

namespace MST

/-! ### The loop of `prim` -/

theorem primLoop_of_isEmpty (g : Graph) (fuel : Nat) (st : MST) (h : st.pq.isEmpty = true) :
    primLoop g fuel st = .ok st := by
  cases fuel <;> simp [primLoop, h]

theorem primLoop_succ (g : Graph) (fuel : Nat) (st : MST) (h : st.pq.isEmpty = false) :
    primLoop g (fuel + 1) st =
      (st.pq.top >>= fun v => st.pq.pop >>= fun pq =>
        scan { st with pq := pq } g v >>= fun st1 => primLoop g fuel st1) := by
  simp [primLoop, h]

/-! ### A graph without edges -/

theorem prim_edgeless (V : Int) (E : Int) (st : MST) (v : Nat) (hv : v < V.toNat)
    (hinv : EdgelessInv V.toNat st) :
    ∃ st1, prim st ⟨V, E, List.replicate V.toNat []⟩ (v : Int) = .ok st1 ∧
      EdgelessInv V.toNat st1 := by
  obtain ⟨hedge, hmark, hdist, hsize, hb⟩ := hinv
  have hv0 : (0 : Int) ≤ (v : Int) := by omega
  have hvn : ((v : Int)).toNat = v := by simp
  obtain ⟨pq1, hpush, hb1, hs1, hperm1, _, _⟩ := PriorityQueue.push_spec st.pq (v : Int) 0 hb
  have hent0 : st.pq.entries = [] := by
    simp [PriorityQueue.entries, hsize]
  rw [hent0] at hperm1
  have hent1 : pq1.entries = [⟨(v : Int), 0⟩] := List.perm_singleton.mp hperm1
  have hroot : pq1.entry 1 = ⟨(v : Int), 0⟩ := by
    have := PriorityQueue.entries_slot pq1 1 hb1 (le_refl _) (by omega)
    rw [hent1] at this
    simp at this
    exact this.symm
  have h1l : 1 < pq1.heap.length := by
    unfold PriorityQueue.InBounds at hb1; omega
  have htop : pq1.top = .ok (v : Int) := by
    simp [PriorityQueue.top, PriorityQueue.slot_of_lt pq1 h1l, hroot, bind, Except.bind]
  obtain ⟨pq2, hpop, hb2, hs2, _, _, _⟩ := PriorityQueue.pop_spec pq1 hb1 (by omega)
  have hs20 : pq2.currentSize = 0 := by omega
  have hset := vecSet_ok st.distTo (v : Int) 0 hv0 (by rw [hvn, hdist]; exact hv)
  have hget := vecGet_set_self st.distTo (v : Int) 0 hv0 (by rw [hvn, hdist]; exact hv)
  have hmset := vecSet_ok st.marked (v : Int) true hv0 (by rw [hvn, hmark]; exact hv)
  have hadj : vecGet (List.replicate V.toNat ([] : List Edge)) (v : Int) = .ok [] := by
    rw [vecGet_ok _ _ hv0 (by rw [hvn]; simpa using hv)]
    simp
  have hne : PriorityQueue.isEmpty pq1 = false := by
    simp [PriorityQueue.isEmpty, hs1, hsize]
  have hemp : PriorityQueue.isEmpty pq2 = true := by
    simp [PriorityQueue.isEmpty, hs20]
  refine ⟨⟨st.edgeTo, st.distTo.set v 0, st.marked.set v true, pq2⟩, ?_, ?_⟩
  · have hfuel : loopFuel ⟨V, E, List.replicate V.toNat []⟩ =
        (V.toNat + ((List.replicate V.toNat ([] : List Edge)).map List.length).sum) + 1 := by
      simp [loopFuel]
    unfold prim
    rw [hfuel]
    simp only [hset, hget, hpush, bind, Except.bind]
    rw [primLoop_succ _ _ _ (by simpa using hne)]
    simp only [htop, hpop, bind, Except.bind, scan, hmset, hadj, scanLoop]
    rw [primLoop_of_isEmpty _ _ _ (by simpa using hemp)]
    simp [hvn]
  · exact ⟨hedge, by simpa using hmark, by simpa using hdist, hs20, hb2⟩

theorem ctorLoop_edgeless (V : Int) (E : Int) :
    ∀ (vs : List Nat) (st : MST), (∀ v ∈ vs, v < V.toNat) → EdgelessInv V.toNat st →
      ∃ st1, ctorLoop ⟨V, E, List.replicate V.toNat []⟩ vs st = .ok st1 ∧
        st1.edgeTo = List.replicate V.toNat none := by
  intro vs
  induction vs with
  | nil =>
    intro st _ hinv
    exact ⟨st, by simp [ctorLoop], hinv.1⟩
  | cons v rest ih =>
    intro st hvs hinv
    have hv : v < V.toNat := hvs v (List.mem_cons_self _ _)
    have hrest : ∀ u ∈ rest, u < V.toNat := fun u hu => hvs u (List.mem_cons_of_mem _ hu)
    have hv0 : (0 : Int) ≤ (v : Int) := by omega
    have hvl : ((v : Int)).toNat < st.marked.length := by
      rw [Int.toNat_ofNat, hinv.2.1]; exact hv
    have hmget := vecGet_ok st.marked (v : Int) hv0 hvl
    by_cases hm : st.marked[((v : Int)).toNat] = true
    · obtain ⟨st1, hrun, hres⟩ := ih st hrest hinv
      refine ⟨st1, ?_, hres⟩
      simp only [ctorLoop, hmget, hm, bind, Except.bind]
      simpa using hrun
    · obtain ⟨st1, hprim, hinv1⟩ := prim_edgeless V E st v hv hinv
      obtain ⟨st2, hrun, hres⟩ := ih st1 hrest hinv1
      refine ⟨st2, ?_, hres⟩
      simp only [ctorLoop, hmget, hm, bind, Except.bind]
      simpa [hprim] using hrun

end MST

/-- C10: for every `V ≥ 0` the constructor `Graph(V)` returns, `MST` of that
graph returns, `edges()` is empty and `cost()` is 0. -/
theorem mst_of_edgeless_graph (V : Int) (hV : 0 ≤ V) :
    ∃ g st, mkGraph V = .ok g ∧ g.getE = 0 ∧ mkMST g = .ok st ∧ st.edges = [] ∧
      st.cost = .finite 0 := by
  have hV0 : ¬ V < 0 := by omega
  refine ⟨⟨V, 0, List.replicate V.toNat []⟩, ?_⟩
  by_cases hz : V.toNat = 0
  · refine ⟨⟨[], [], [], ⟨[], 0⟩⟩, by simp [mkGraph, hV0], rfl, ?_, by simp [MST.edges],
      by simp [MST.cost, MST.edges]⟩
    simp [mkMST, Graph.getV, hV0, mkPriorityQueue, hz, bind, Except.bind, MST.ctorLoop]
  · have hinv : MST.EdgelessInv V.toNat
        ⟨List.replicate V.toNat none, List.replicate V.toNat DBL_MAX,
          List.replicate V.toNat false, ⟨List.replicate V.toNat default, 0⟩⟩ := by
      refine ⟨rfl, by simp, by simp, rfl, ?_⟩
      unfold PriorityQueue.InBounds
      simp
      omega
    obtain ⟨st, hrun, hres⟩ := MST.ctorLoop_edgeless V 0 (List.range V.toNat) _
      (fun v hv => List.mem_range.mp hv) hinv
    refine ⟨st, by simp [mkGraph, hV0], rfl, ?_, ?_, ?_⟩
    · simp only [mkMST, Graph.getV, hV0, mkPriorityQueue, if_false, bind, Except.bind]
      exact hrun
    · simp [MST.edges, hres]
    · simp [MST.cost, MST.edges, hres]

theorem mst_of_edgeless_graph_witness :
    (0 : Int) ≤ 3 ∧
    ∃ g st, mkGraph 3 = .ok g ∧ g.getE = 0 ∧ mkMST g = .ok st ∧ st.edges = [] ∧
      st.cost = .finite 0 :=
  ⟨by decide, mst_of_edgeless_graph 3 (by decide)⟩

/-- Stored only in the list of vertex 1, the edge 1-0 is never looked at from
vertex 0: `Graph(2)` with `addEdge(1, 0, 5)` gives an empty `edges()`. -/
theorem mst_ignores_edge_stored_at_the_other_endpoint :
    runMST 2 [(1, 0, 5)] = .ok ([], .finite 0) := by decide

/-! ### Scenarios and further runs that show a defect -/

/-- C11: for `Graph(4)` with `addEdge(0,1,1.0)`, `addEdge(1,2,2.0)`,
`addEdge(0,2,3.0)`, `addEdge(2,3,4.0)` in that order, `MST(graph).edges()` is
the three edges `(0,1,1.0)`, `(1,2,2.0)`, `(2,3,4.0)` and `cost()` is 7. -/
theorem mst_four_vertex_scenario :
    runMST 4 callsS = .ok ([⟨0, 1, 1⟩, ⟨1, 2, 2⟩, ⟨2, 3, 4⟩], .finite 7) := by
  have hm : (buildGraph 4 callsS >>= mkMST) = .ok
      ⟨[none, some ⟨0, 1, 1⟩, some ⟨1, 2, 2⟩, some ⟨2, 3, 4⟩], [0, 1, 2, 4],
       [true, true, true, true], ⟨[⟨0, 0⟩, ⟨3, 4⟩, ⟨3, 4⟩, ⟨0, 0⟩], 0⟩⟩ := by decide
  cases hg : buildGraph 4 callsS with
  | error err => rw [hg] at hm; cases hm
  | ok g =>
    rw [hg] at hm
    simp only [bind, Except.bind] at hm
    simp only [runMST, hg, hm, bind, Except.bind]
    rw [MST.cost_of_small_ints _ 5 (by decide) (by decide)]
    norm_num [MST.edges, Edge.getWeight, List.filterMap_cons]

/-- C12: the calls of `callsQ` are those of `callsP` in another order (all
endpoints in range and distinct, no endpoint pair twice), yet on `Graph(5)`
the first order gives `cost()` 9 and the second gives `cost()` 5. -/
theorem mst_cost_depends_on_insertion_order :
    callsP.Perm callsQ ∧
    runMST 5 callsP = .ok ([⟨0, 1, 1⟩, ⟨0, 2, 2⟩, ⟨1, 3, 1⟩, ⟨3, 4, 5⟩], .finite 9) ∧
    runMST 5 callsQ = .ok ([⟨0, 1, 1⟩, ⟨0, 2, 2⟩, ⟨1, 3, 1⟩, ⟨2, 4, 1⟩], .finite 5) := by
  have hp : (buildGraph 5 callsP >>= mkMST) = .ok
      ⟨[none, some ⟨0, 1, 1⟩, some ⟨0, 2, 2⟩, some ⟨1, 3, 1⟩, some ⟨3, 4, 5⟩],
       [0, 1, 0, 1, 5], [true, true, true, true, true],
       ⟨[⟨0, 0⟩, ⟨2, 0⟩, ⟨4, 5⟩, ⟨3, 2⟩, ⟨0, 0⟩], 0⟩⟩ := by decide
  have hq : (buildGraph 5 callsQ >>= mkMST) = .ok
      ⟨[none, some ⟨0, 1, 1⟩, some ⟨0, 2, 2⟩, some ⟨1, 3, 1⟩, some ⟨2, 4, 1⟩],
       [0, 1, 2, 1, 1], [true, true, true, true, true],
       ⟨[⟨0, 0⟩, ⟨4, 5⟩, ⟨4, 5⟩, ⟨3, 2⟩, ⟨0, 0⟩], 0⟩⟩ := by decide
  refine ⟨by decide, ?_, ?_⟩
  · cases hg : buildGraph 5 callsP with
    | error err => rw [hg] at hp; cases hp
    | ok g =>
      rw [hg] at hp
      simp only [bind, Except.bind] at hp
      simp only [runMST, hg, hp, bind, Except.bind]
      rw [MST.cost_of_small_ints _ 5 (by decide) (by decide)]
      norm_num [MST.edges, Edge.getWeight, List.filterMap_cons]
  · cases hg : buildGraph 5 callsQ with
    | error err => rw [hg] at hq; cases hq
    | ok g =>
      rw [hg] at hq
      simp only [bind, Except.bind] at hq
      simp only [runMST, hg, hq, bind, Except.bind]
      rw [MST.cost_of_small_ints _ 5 (by decide) (by decide)]
      norm_num [MST.edges, Edge.getWeight, List.filterMap_cons]

/-- C14: on `Graph(2)` the checks that open `addEdge` pass for the vertex ids
7 and -3, and `addEdge(0, 7, 1.0)` returns true and stores the edge `(0, 7)`;
`getE()` becomes 1. -/
theorem addEdge_accepts_vertex_out_of_range :
    ∃ g0 g1 : Graph, mkGraph 2 = .ok g0 ∧ g0.assertVertex 7 = .ok () ∧
      g0.assertVertex (-3) = .ok () ∧ g0.addEdge 0 7 1 = .ok (true, g1) ∧
      g1.getE = 1 ∧ g1.getNeighbors 0 = .ok [⟨0, 7, 1⟩] :=
  ⟨⟨2, 0, [[], []]⟩, ⟨2, 1, [[⟨0, 7, 1⟩], []]⟩, by decide, by decide, by decide, by decide,
    by decide, by decide⟩

/-- C15, as stated, fails: on `Graph(1)`, `addEdge(0, 0, 1.0)` returns true and
stores the self-loop `(0, 0)`. -/
theorem addEdge_self_loop_counterexample :
    ∃ g0 : Graph, mkGraph 1 = .ok g0 ∧
      g0.addEdge 0 0 1 = .ok (true, ⟨1, 1, [[⟨0, 0, 1⟩]]⟩) :=
  ⟨⟨1, 0, [[]]⟩, by decide, by decide⟩

/-- C18: `other(v)` returns `y` when `v` is `x`, returns `x` when `v` is `y`
and not `x`, and throws `invalid_argument` exactly when `v` is neither; for
example `other(2)` on the edge `(0, 3)` throws. -/
theorem other_endpoint (e : Edge) (v : Int) :
    (v = e.x → e.other v = .ok e.y) ∧
    (v = e.y ∧ v ≠ e.x → e.other v = .ok e.x) ∧
    (e.other v = .error .invalidArgument ↔ v ≠ e.x ∧ v ≠ e.y) ∧
    (∀ w : Rat, Edge.other ⟨0, 3, w⟩ 2 = .error .invalidArgument) := by
  refine ⟨?_, ?_, ?_, ?_⟩
  · intro h
    simp [Edge.other, h]
  · rintro ⟨h1, h2⟩
    simp [Edge.other, h2, h1]
  · unfold Edge.other
    by_cases h1 : v = e.x
    · simp [h1]
    · by_cases h2 : v = e.y
      · have h3 : ¬ e.y = e.x := fun h => h1 (h2.trans h)
        simp [h2, h3]
      · simp [h1, h2]
  · intro w
    simp [Edge.other]

/-- C19: after `PriorityQueue<int>(3)`, `push(1, 1.0)`, `push(2, 2.0)` the
queue holds the values 1 and 2; `changePriority(1, 0.0)` returns a queue that
holds the value 1 twice, with priorities 0 and 1, and no longer holds 2. -/
theorem changePriority_overwrites_the_last_entry :
    ∃ q0 q1 q2 q3 : PriorityQueue Int, mkPriorityQueue 3 = .ok q0 ∧
      q0.push 1 1 = .ok q1 ∧ q1.push 2 2 = .ok q2 ∧ q2.entries = [⟨1, 1⟩, ⟨2, 2⟩] ∧
      q2.changePriority 1 0 = .ok q3 ∧ q3.size = q2.size ∧
      q3.entries = [⟨1, 0⟩, ⟨1, 1⟩] :=
  ⟨⟨[⟨0, 0⟩, ⟨0, 0⟩, ⟨0, 0⟩], 0⟩, ⟨[⟨0, 0⟩, ⟨1, 1⟩, ⟨0, 0⟩], 1⟩,
    ⟨[⟨0, 0⟩, ⟨1, 1⟩, ⟨2, 2⟩], 2⟩, ⟨[⟨0, 0⟩, ⟨1, 0⟩, ⟨1, 1⟩], 2⟩,
    by decide, by decide, by decide, by decide, by decide, by decide, by decide⟩


/-! ### Graphs reached by `addEdge` and `removeEdge` -/

theorem vecGet_eq_ok {α : Type} (xs : List α) (i : Int) (a : α) :
    vecGet xs i = .ok a ↔ 0 ≤ i ∧ xs[i.toNat]? = some a := by
  unfold vecGet
  by_cases h : i < 0
  · have h0 : ¬ 0 ≤ i := by omega
    simp [h, h0]
  · have h0 : 0 ≤ i := by omega
    simp only [h, if_false]
    cases hx : xs[i.toNat]? with
    | none => simp
    | some b => simp [h0]

namespace Graph

theorem addEdge_eq (g : Graph) (x y : Int) (w : Rat) (hV : 0 ≤ g.V) (hx0 : 0 ≤ x)
    (hxl : x.toNat < g.adjacencyList.length) :
    g.addEdge x y w =
      if (g.adjacencyList[x.toNat].any fun e => decide (e.x = y)) = true then .ok (false, g)
      else .ok (true, ⟨g.V, g.E + 1,
        g.adjacencyList.set x.toNat (g.adjacencyList[x.toNat] ++ [⟨x, y, w⟩])⟩) := by
  have hget := vecGet_ok g.adjacencyList x hx0 hxl
  have hset := vecSet_ok g.adjacencyList x (g.adjacencyList[x.toNat] ++ [⟨x, y, w⟩]) hx0 hxl
  simp only [addEdge, assertVertex_ok g x hV, assertVertex_ok g y hV, hget, hset, bind,
    Except.bind]

theorem removeEdge_eq (g : Graph) (x y : Int) (hV : 0 ≤ g.V) (hx0 : 0 ≤ x)
    (hxl : x.toNat < g.adjacencyList.length) :
    g.removeEdge x y =
      match g.adjacencyList[x.toNat].findIdx? fun e => decide (e.x = y) with
      | some i => .ok (true, ⟨g.V, g.E - 1,
          g.adjacencyList.set x.toNat (g.adjacencyList[x.toNat].eraseIdx i)⟩)
      | none => .ok (false, g) := by
  have hget := vecGet_ok g.adjacencyList x hx0 hxl
  simp only [removeEdge, assertVertex_ok g x hV, assertVertex_ok g y hV, hget, bind,
    Except.bind]
  split
  · rename_i i hi
    rw [vecSet_ok g.adjacencyList x _ hx0 hxl]
  · rfl

theorem index_of_addEdge_ok (g : Graph) (x y : Int) (w : Rat) (r : Bool × Graph)
    (h : g.addEdge x y w = .ok r) : 0 ≤ x ∧ x.toNat < g.adjacencyList.length := by
  unfold addEdge at h
  simp only [bind, Except.bind] at h
  cases h1 : g.assertVertex x with
  | error err => simp [h1] at h
  | ok u1 =>
    cases h2 : g.assertVertex y with
    | error err => simp [h1, h2] at h
    | ok u2 =>
      cases h3 : vecGet g.adjacencyList x with
      | error err => simp [h1, h2, h3] at h
      | ok l =>
        obtain ⟨h0, hl⟩ := (vecGet_eq_ok _ _ _).mp h3
        exact ⟨h0, (List.getElem?_eq_some_iff.mp hl).1⟩

theorem index_of_removeEdge_ok (g : Graph) (x y : Int) (r : Bool × Graph)
    (h : g.removeEdge x y = .ok r) : 0 ≤ x ∧ x.toNat < g.adjacencyList.length := by
  unfold removeEdge at h
  simp only [bind, Except.bind] at h
  cases h1 : g.assertVertex x with
  | error err => simp [h1] at h
  | ok u1 =>
    cases h2 : g.assertVertex y with
    | error err => simp [h1, h2] at h
    | ok u2 =>
      cases h3 : vecGet g.adjacencyList x with
      | error err => simp [h1, h2, h3] at h
      | ok l =>
        obtain ⟨h0, hl⟩ := (vecGet_eq_ok _ _ _).mp h3
        exact ⟨h0, (List.getElem?_eq_some_iff.mp hl).1⟩

theorem recordCount_set (adj : List (List Edge)) (i : Nat) (l : List Edge)
    (h : i < adj.length) :
    ((adj.set i l).map fun l => (l.length : Int)).sum =
      (adj.map fun l => (l.length : Int)).sum - (adj[i].length : Int) + (l.length : Int) := by
  induction adj generalizing i with
  | nil => simp at h
  | cons a t ih =>
    cases i with
    | zero => simp; ring
    | succ i =>
      simp at h
      simp only [List.set_cons_succ, List.map_cons, List.sum_cons, List.getElem_cons_succ]
      rw [ih i h]
      ring

theorem firstEndpointOwns_set (g : Graph) (i : Nat) (l : List Edge)
    (hown : g.FirstEndpointOwns) (hl : ∀ e ∈ l, e.x = (i : Int)) (V E : Int) :
    FirstEndpointOwns ⟨V, E, g.adjacencyList.set i l⟩ := by
  intro v l1 hv e he
  by_cases hvi : i = v
  · subst hvi
    simp only at hv
    by_cases hlt : i < g.adjacencyList.length
    · rw [List.getElem?_set_self hlt] at hv
      cases hv
      exact hl e he
    · rw [List.getElem?_eq_none (by simp; omega)] at hv
      cases hv
  · simp only at hv
    rw [List.getElem?_set_ne hvi] at hv
    exact hown v l1 hv e he

theorem graph_reachable_inv (g : Graph) (h : g.Reachable) :
    g.WellFormed ∧ g.E = g.recordCount ∧ 0 ≤ g.E ∧ g.FirstEndpointOwns := by
  induction h with
  | init V g hmk =>
    unfold mkGraph at hmk
    by_cases hV : V < 0
    · simp [hV] at hmk
    · simp only [hV, if_false, Except.ok.injEq] at hmk
      subst hmk
      refine ⟨⟨by simp; omega, by simp⟩, ?_, le_refl _, ?_⟩
      · simp [recordCount]
      · intro v l hv e he
        rw [List.getElem?_replicate] at hv
        split at hv
        · cases hv; simp at he
        · cases hv
  | addEdge g g1 x y w b _ hrun ih =>
    obtain ⟨⟨hV, hlen⟩, hE, hE0, hown⟩ := ih
    obtain ⟨hx0, hxl⟩ := index_of_addEdge_ok g x y w _ hrun
    rw [addEdge_eq g x y w hV hx0 hxl] at hrun
    split at hrun
    · cases hrun
      exact ⟨⟨hV, hlen⟩, hE, hE0, hown⟩
    · cases hrun
      refine ⟨⟨hV, by simpa using hlen⟩, ?_, ?_, ?_⟩
      · simp only [recordCount]
        rw [recordCount_set _ _ _ hxl]
        simp only [recordCount] at hE
        simp only [List.length_append, List.length_singleton]
        push_cast
        omega
      · simp only; omega
      · apply firstEndpointOwns_set g x.toNat _ hown
        intro e he
        rcases List.mem_append.mp he with h1 | h1
        · exact hown x.toNat _ (List.getElem?_eq_getElem hxl) e h1
        · simp at h1
          subst h1
          simp
          omega
  | removeEdge g g1 x y b _ hrun ih =>
    obtain ⟨⟨hV, hlen⟩, hE, hE0, hown⟩ := ih
    obtain ⟨hx0, hxl⟩ := index_of_removeEdge_ok g x y _ hrun
    rw [removeEdge_eq g x y hV hx0 hxl] at hrun
    split at hrun
    · rename_i i hi
      cases hrun
      have hil : i < g.adjacencyList[x.toNat].length := by
        have := (List.findIdx?_eq_some_iff_getElem.mp hi).1
        exact this
      have hpos : 0 < (g.adjacencyList.map fun l => (l.length : Int)).sum := by
        have h1 := recordCount_set g.adjacencyList x.toNat [] hxl
        have h2 : 0 ≤ ((g.adjacencyList.set x.toNat []).map fun l => (l.length : Int)).sum :=
          List.sum_nonneg (by
            intro z hz
            obtain ⟨l, _, rfl⟩ := List.mem_map.mp hz
            exact Int.natCast_nonneg _)
        simp only [List.length_nil] at h1
        have h3 : (0 : Int) < (g.adjacencyList[x.toNat].length : Int) := by omega
        omega
      refine ⟨⟨hV, by simpa using hlen⟩, ?_, ?_, ?_⟩
      · simp only [recordCount]
        rw [recordCount_set _ _ _ hxl, List.length_eraseIdx_of_lt hil]
        simp only [recordCount] at hE
        omega
      · simp only [recordCount] at hE
        simp only
        omega
      · apply firstEndpointOwns_set g x.toNat _ hown
        intro e he
        exact hown x.toNat _ (List.getElem?_eq_getElem hxl) e (List.mem_of_mem_eraseIdx he)
    · cases hrun
      exact ⟨⟨hV, hlen⟩, hE, hE0, hown⟩

end Graph


namespace Graph

theorem storedEdges_length (g : Graph) : (g.storedEdges.length : Int) = g.recordCount := by
  unfold storedEdges recordCount
  induction g.adjacencyList with
  | nil => simp
  | cons a t ih =>
    simp only [List.flatten_cons, List.length_append, List.map_cons, List.sum_cons]
    push_cast
    rw [ih]

theorem getDegree_ok (g : Graph) (v : Nat) (hV : 0 ≤ g.V) (hv : v < g.adjacencyList.length) :
    g.getDegree (v : Int) = .ok (g.adjacencyList[v].length : Int) := by
  have h0 : (0 : Int) ≤ (v : Int) := by omega
  have hget := vecGet_ok g.adjacencyList (v : Int) h0 (by simpa using hv)
  simp only [getDegree, assertVertex_ok g _ hV, hget, bind, Except.bind]
  simp

theorem degreeSum_upTo (g : Graph) (hV : 0 ≤ g.V) :
    ∀ n, n ≤ g.adjacencyList.length →
      (List.range n).foldlM
        (fun (acc : Int) (v : Nat) => do
          let d ← g.getDegree (v : Int)
          pure (acc + d)) (0 : Int) =
      (.ok ((g.adjacencyList.map fun l => (l.length : Int)).take n).sum : Except Err Int) := by
  intro n
  induction n with
  | zero => intro _; rfl
  | succ n ih =>
    intro hn
    have hlt : n < g.adjacencyList.length := by omega
    have hlt2 : n < (g.adjacencyList.map fun l => (l.length : Int)).length := by
      simpa using hlt
    rw [List.range_succ, List.foldlM_append, ih (by omega)]
    simp only [List.foldlM, bind, Except.bind, getDegree_ok g n hV hlt, pure, Except.pure]
    rw [List.take_succ, List.getElem?_eq_getElem hlt2]
    simp

theorem degreeSum_eq (g : Graph) (hwf : g.WellFormed) : g.degreeSum = .ok g.recordCount := by
  obtain ⟨hV, hlen⟩ := hwf
  unfold degreeSum getV recordCount
  rw [degreeSum_upTo g hV g.V.toNat (by omega), List.take_of_length_le (by simp; omega)]

theorem sampleGraph_reachable : sampleGraph.Reachable :=
  Reachable.addEdge ⟨2, 0, [[], []]⟩ sampleGraph 0 1 1 true
    (Reachable.init 2 ⟨2, 0, [[], []]⟩ (by decide)) (by decide)

/-- On a reachable graph `addEdge` and `removeEdge` return whenever `x` is in
range. -/
theorem reachable_calls_ok (g : Graph) (h : g.Reachable) (x y : Int) (w : Rat)
    (hx0 : 0 ≤ x) (hxV : x < g.V) :
    (∃ r, g.addEdge x y w = .ok r) ∧ (∃ r, g.removeEdge x y = .ok r) := by
  obtain ⟨⟨hV, hlen⟩, _, _, _⟩ := graph_reachable_inv g h
  have hxl : x.toNat < g.adjacencyList.length := by omega
  constructor
  · rw [addEdge_eq g x y w hV hx0 hxl]
    split
    · exact ⟨_, rfl⟩
    · exact ⟨_, rfl⟩
  · rw [removeEdge_eq g x y hV hx0 hxl]
    split
    · exact ⟨_, rfl⟩
    · exact ⟨_, rfl⟩

/-- C13: in every graph reached from `Graph(V)` by calls of `addEdge` and
`removeEdge`, `getE()` is not negative, equals the number of edge records
stored over all adjacency lists, and equals the sum of `getDegree(v)` over
`v = 0, ..., getV() - 1`. -/
theorem edge_count_matches_records (g : Graph) (h : g.Reachable) :
    0 ≤ g.getE ∧ g.getE = (g.storedEdges.length : Int) ∧ g.degreeSum = .ok g.getE := by
  obtain ⟨hwf, hE, hE0, _⟩ := graph_reachable_inv g h
  refine ⟨hE0, ?_, ?_⟩
  · rw [storedEdges_length]; exact hE
  · rw [degreeSum_eq g hwf]
    unfold getE
    rw [hE]

theorem edge_count_matches_records_witness :
    sampleGraph.Reachable ∧ 0 ≤ sampleGraph.getE ∧
      sampleGraph.getE = (sampleGraph.storedEdges.length : Int) ∧
      sampleGraph.degreeSum = .ok sampleGraph.getE :=
  ⟨sampleGraph_reachable, edge_count_matches_records sampleGraph sampleGraph_reachable⟩

/-- C15, amended: `addEdge` has no test for `x == y`.  On a graph with one
adjacency list per vertex, for `x` in range whose list is empty,
`addEdge(x, x, w)` returns true, stores the self-loop `(x, x, w)` as the only
edge of `x` and raises `getE()` by 1. -/
theorem addEdge_self_loop_on_empty_list (g : Graph) (x : Int) (w : Rat)
    (hwf : g.WellFormed) (hx0 : 0 ≤ x) (hxV : x < g.V)
    (hempty : g.getNeighbors x = .ok []) :
    ∃ g1, g.addEdge x x w = .ok (true, g1) ∧ g1.getE = g.getE + 1 ∧
      g1.getNeighbors x = .ok [⟨x, x, w⟩] ∧ g1.isAdjacent x x = .ok true := by
  obtain ⟨hV, hlen⟩ := hwf
  have hxl : x.toNat < g.adjacencyList.length := by omega
  have hl : g.adjacencyList[x.toNat] = [] := by
    simp only [getNeighbors, assertVertex_ok g x hV, bind, Except.bind] at hempty
    have := ((vecGet_eq_ok _ _ _).mp hempty).2
    rw [List.getElem?_eq_getElem hxl] at this
    exact Option.some.inj this
  have hax : ∀ v, assertVertex ⟨g.V, g.E + 1,
      g.adjacencyList.set x.toNat ([] ++ [⟨x, x, w⟩])⟩ v = .ok () :=
    fun v => assertVertex_ok _ v hV
  have hget := vecGet_set_self g.adjacencyList x ([] ++ [⟨x, x, w⟩]) hx0 hxl
  refine ⟨⟨g.V, g.E + 1, g.adjacencyList.set x.toNat ([] ++ [⟨x, x, w⟩])⟩, ?_, rfl, ?_, ?_⟩
  · rw [addEdge_eq g x x w hV hx0 hxl, hl]
    simp
  · simp only [getNeighbors, hax, hget, bind, Except.bind]
    simp
  · simp only [isAdjacent, hax, hget, bind, Except.bind]
    simp

theorem addEdge_self_loop_on_empty_list_witness :
    sampleGraph.WellFormed ∧ (0 : Int) ≤ 1 ∧ (1 : Int) < sampleGraph.V ∧
    sampleGraph.getNeighbors 1 = .ok [] ∧
    ∃ g1, sampleGraph.addEdge 1 1 7 = .ok (true, g1) ∧ g1.getE = sampleGraph.getE + 1 ∧
      g1.getNeighbors 1 = .ok [⟨1, 1, 7⟩] ∧ g1.isAdjacent 1 1 = .ok true :=
  ⟨by decide, by decide, by decide, by decide,
    addEdge_self_loop_on_empty_list sampleGraph 1 7 (by decide) (by decide) (by decide)
      (by decide)⟩

/-- C16: in every graph reached from `Graph(V)` by calls of `addEdge` and
`removeEdge`, every edge in the adjacency list of `x` has first endpoint `x`,
and `isAdjacent(x, y)` returns true exactly when that list holds an edge
whose second endpoint is `y`. -/
theorem isAdjacent_iff_second_endpoint (g : Graph) (h : g.Reachable) :
    ∀ (x : Int) (l : List Edge), g.getNeighbors x = .ok l →
      (∀ e ∈ l, e.x = x) ∧
      ∀ y, ∃ b, g.isAdjacent x y = .ok b ∧ (b = true ↔ ∃ e ∈ l, e.y = y) := by
  obtain ⟨⟨hV, hlen⟩, _, _, hown⟩ := graph_reachable_inv g h
  intro x l hl
  simp only [getNeighbors, assertVertex_ok g x hV, bind, Except.bind] at hl
  obtain ⟨hx0, hget⟩ := (vecGet_eq_ok _ _ _).mp hl
  have hx : ∀ e ∈ l, e.x = x := by
    intro e he
    have := hown x.toNat l hget e he
    omega
  refine ⟨hx, fun y => ⟨l.any fun e => decide (e.x = x ∧ e.y = y), ?_, ?_⟩⟩
  · simp only [isAdjacent, assertVertex_ok g _ hV, hl, bind, Except.bind]
  · rw [List.any_eq_true]
    constructor
    · rintro ⟨e, he, hd⟩
      exact ⟨e, he, (of_decide_eq_true hd).2⟩
    · rintro ⟨e, he, hy⟩
      exact ⟨e, he, decide_eq_true ⟨hx e he, hy⟩⟩

theorem isAdjacent_iff_second_endpoint_witness :
    sampleGraph.Reachable ∧
    ∀ (x : Int) (l : List Edge), sampleGraph.getNeighbors x = .ok l →
      (∀ e ∈ l, e.x = x) ∧
      ∀ y, ∃ b, sampleGraph.isAdjacent x y = .ok b ∧ (b = true ↔ ∃ e ∈ l, e.y = y) :=
  ⟨sampleGraph_reachable, isAdjacent_iff_second_endpoint sampleGraph sampleGraph_reachable⟩

end Graph


/-! ### Graphs built by `addEdge` -/

namespace Graph

theorem endpointsInRange_set (g : Graph) (i : Nat) (l : List Edge)
    (hr : g.EndpointsInRange) (hl : ∀ e ∈ l, 0 ≤ e.y ∧ e.y < g.V) (E : Int) :
    EndpointsInRange ⟨g.V, E, g.adjacencyList.set i l⟩ := by
  intro v l1 hv e he
  by_cases hvi : i = v
  · subst hvi
    simp only at hv
    by_cases hlt : i < g.adjacencyList.length
    · rw [List.getElem?_set_self hlt] at hv
      cases hv
      exact hl e he
    · rw [List.getElem?_eq_none (by simp; omega)] at hv
      cases hv
  · simp only at hv
    rw [List.getElem?_set_ne hvi] at hv
    exact hr v l1 hv e he

theorem addEdge_built (g : Graph) (x y : Int) (w : Rat) (hb : g.Built)
    (hx0 : 0 ≤ x) (hxV : x < g.V) (hy0 : 0 ≤ y) (hyV : y < g.V) :
    ∃ r, g.addEdge x y w = .ok r ∧ r.2.Built ∧ r.2.V = g.V := by
  obtain ⟨⟨hV, hlen⟩, hown, hr⟩ := hb
  have hxl : x.toNat < g.adjacencyList.length := by omega
  rw [addEdge_eq g x y w hV hx0 hxl]
  split
  · exact ⟨_, rfl, ⟨⟨hV, hlen⟩, hown, hr⟩, rfl⟩
  · refine ⟨_, rfl, ⟨⟨hV, by simpa using hlen⟩, ?_, ?_⟩, rfl⟩
    · apply firstEndpointOwns_set g x.toNat _ hown
      intro e he
      rcases List.mem_append.mp he with h1 | h1
      · exact hown x.toNat _ (List.getElem?_eq_getElem hxl) e h1
      · simp at h1
        subst h1
        simp
        omega
    · apply endpointsInRange_set g x.toNat _ hr
      intro e he
      rcases List.mem_append.mp he with h1 | h1
      · exact hr x.toNat _ (List.getElem?_eq_getElem hxl) e h1
      · simp at h1
        subst h1
        exact ⟨hy0, hyV⟩

theorem addEdges_built :
    ∀ (calls : List (Int × Int × Rat)) (g : Graph), g.Built →
      (∀ c ∈ calls, 0 ≤ c.1 ∧ c.1 < g.V ∧ 0 ≤ c.2.1 ∧ c.2.1 < g.V) →
      ∃ g1, g.addEdges calls = .ok g1 ∧ g1.Built ∧ g1.V = g.V := by
  intro calls
  induction calls with
  | nil =>
    intro g hb _
    exact ⟨g, rfl, hb, rfl⟩
  | cons c rest ih =>
    intro g hb hc
    obtain ⟨x, y, w⟩ := c
    obtain ⟨hx0, hxV, hy0, hyV⟩ := hc (x, y, w) (List.mem_cons_self _ _)
    obtain ⟨r, hr, hrb, hrV⟩ := addEdge_built g x y w hb hx0 hxV hy0 hyV
    obtain ⟨g1, hg1, hb1, hV1⟩ := ih r.2 hrb (by
      intro c hcm
      rw [hrV]
      exact hc c (List.mem_cons_of_mem _ hcm))
    refine ⟨g1, ?_, hb1, by rw [hV1, hrV]⟩
    simp only [addEdges, hr, bind, Except.bind]
    exact hg1

theorem mem_storedEdges (g : Graph) (e : Edge) :
    e ∈ g.storedEdges ↔ ∃ (v : Nat) (l : List Edge), g.adjacencyList[v]? = some l ∧ e ∈ l := by
  unfold storedEdges
  rw [List.mem_flatten]
  constructor
  · rintro ⟨l, hl, he⟩
    obtain ⟨v, hv⟩ := List.mem_iff_getElem?.mp hl
    exact ⟨v, l, hv, he⟩
  · rintro ⟨v, l, hv, he⟩
    exact ⟨l, List.mem_iff_getElem?.mpr ⟨v, hv⟩, he⟩

end Graph

theorem buildGraph_built (V : Int) (calls : List (Int × Int × Rat)) (hV : 0 ≤ V)
    (hcalls : ∀ c ∈ calls, 0 ≤ c.1 ∧ c.1 < V ∧ 0 ≤ c.2.1 ∧ c.2.1 < V) :
    ∃ g, buildGraph V calls = .ok g ∧ g.Built ∧ g.V = V := by
  have hV0 : ¬ V < 0 := by omega
  have hb : Graph.Built ⟨V, 0, List.replicate V.toNat []⟩ := by
    refine ⟨⟨hV, by simp⟩, ?_, ?_⟩
    · intro v l hv e he
      rw [List.getElem?_replicate] at hv
      split at hv
      · cases hv; simp at he
      · cases hv
    · intro v l hv e he
      rw [List.getElem?_replicate] at hv
      split at hv
      · cases hv; simp at he
      · cases hv
  obtain ⟨g, hg, hgb, hgV⟩ := Graph.addEdges_built calls _ hb hcalls
  refine ⟨g, ?_, hgb, hgV⟩
  simp only [buildGraph, mkGraph, hV0, if_false, bind, Except.bind]
  exact hg

namespace Graph

end Graph

theorem countP_succ_le_of_imp {α : Type} (L : List α) (p q : α → Bool)
    (himp : ∀ x ∈ L, q x = true → p x = true) (e : α) (he : e ∈ L) (hpe : p e = true)
    (hqe : q e = false) : L.countP q + 1 ≤ L.countP p := by
  induction L with
  | nil => simp at he
  | cons x t ih =>
    have hmono : t.countP q ≤ t.countP p :=
      List.countP_mono_left fun y hy hq => himp y (List.mem_cons_of_mem _ hy) hq
    rcases List.mem_cons.mp he with h | h
    · subst h
      rw [List.countP_cons_of_pos _ _ hpe, List.countP_cons_of_neg _ _ (by simp [hqe])]
      omega
    · have := ih (fun y hy => himp y (List.mem_cons_of_mem _ hy)) h
      by_cases hq : q x = true
      · rw [List.countP_cons_of_pos _ _ hq,
          List.countP_cons_of_pos _ _ (himp x (List.mem_cons_self _ _) hq)]
        omega
      · rw [List.countP_cons_of_neg _ _ hq, List.countP_cons]
        omega


/-! ### The queue inside `scan` -/

namespace PriorityQueue

theorem containsLoop_ok {T : Type} [DecidableEq T] (pq : PriorityQueue T) (element : T) :
    ∀ is : List Nat, (∀ i ∈ is, i < pq.heap.length) →
      ∃ b, containsLoop pq element is = .ok b := by
  intro is
  induction is with
  | nil => intro _; exact ⟨false, rfl⟩
  | cons i rest ih =>
    intro h
    have hi : i < pq.heap.length := h i (List.mem_cons_self _ _)
    obtain ⟨b, hb⟩ := ih fun j hj => h j (List.mem_cons_of_mem _ hj)
    by_cases hv : pq.heap[i].value = element
    · exact ⟨true, by simp [containsLoop, slot, List.getElem?_eq_getElem hi, hv, bind,
        Except.bind]⟩
    · exact ⟨b, by simp [containsLoop, slot, List.getElem?_eq_getElem hi, hv, bind,
        Except.bind, hb]⟩

/-- With the slots in use inside the vector, `contains` returns. -/
theorem contains_ok {T : Type} [DecidableEq T] (pq : PriorityQueue T) (hb : pq.InBounds)
    (element : T) : ∃ b, pq.contains element = .ok b := by
  unfold InBounds at hb
  exact containsLoop_ok pq element _ fun i hi => by
    have := List.mem_range.mp hi
    omega

theorem mem_entries_overwriteLast {T : Type} [Inhabited T] (pq : PriorityQueue T)
    (hb : pq.InBounds) (element : T) (priority : Rat) :
    ∀ e ∈ (pq.overwriteLast element priority).entries,
      e = ⟨element, priority⟩ ∨ e ∈ pq.entries := by
  intro e he
  have hb1 : (pq.overwriteLast element priority).InBounds := by
    unfold InBounds overwriteLast; simpa using hb
  obtain ⟨i, hi1, hin, hie⟩ := (mem_entries_iff _ e hb1).mp he
  rw [entry_overwriteLast pq _ _ hb] at hie
  split at hie
  · exact Or.inl hie.symm
  · exact Or.inr ((mem_entries_iff pq e hb).mpr ⟨i, hi1, hin, hie⟩)

end PriorityQueue

/-! ### The construction of `MST` returns -/

namespace MST

theorem vecGet_marked (st : MST) (w : Int) (h0 : 0 ≤ w) (hl : w.toNat < st.marked.length) :
    vecGet st.marked w = .ok (st.isMarked w) := by
  rw [vecGet_ok _ _ h0 hl]
  simp [isMarked, List.getElem?_eq_getElem hl]

theorem vecGet_distTo (st : MST) (w : Int) (h0 : 0 ≤ w) (hl : w.toNat < st.distTo.length) :
    vecGet st.distTo w = .ok (st.dist w) := by
  rw [vecGet_ok _ _ h0 hl]
  simp [dist, List.getElem?_eq_getElem hl]

theorem dist_relaxEdge (st : MST) (e : Edge) (pq : PriorityQueue Int) (y : Int)
    (hl : e.y.toNat < st.distTo.length) :
    (st.relaxEdge e pq).dist y =
      if y.toNat = e.y.toNat then e.weight else st.dist y := by
  unfold dist relaxEdge
  simp only
  by_cases h : y.toNat = e.y.toNat
  · rw [if_pos h, h, List.getElem?_set_self hl]
    rfl
  · rw [if_neg h, List.getElem?_set_ne (Ne.symm h)]

theorem isMarked_markVertex (st : MST) (v : Int) (pq : PriorityQueue Int) (y : Int)
    (hl : v.toNat < st.marked.length) :
    (st.markVertex v pq).isMarked y =
      if y.toNat = v.toNat then true else st.isMarked y := by
  unfold isMarked markVertex
  simp only
  by_cases h : y.toNat = v.toNat
  · rw [if_pos h, h, List.getElem?_set_self hl]
    rfl
  · rw [if_neg h, List.getElem?_set_ne (Ne.symm h)]

/-- Relaxing an edge keeps the shape of the state and does not raise the
potential, when the queue grew by at most one entry. -/
theorem relaxEdge_props (g : Graph) (st : MST) (e : Edge) (pq1 : PriorityQueue Int)
    (hinv : Inv g st) (hes : e ∈ g.storedEdges) (hy0 : 0 ≤ e.y) (hyV : e.y < g.V)
    (hrange : ∀ x ∈ g.storedEdges, 0 ≤ x.y)
    (hm : st.isMarked e.y = false) (hlt : e.weight < st.dist e.y)
    (hb1 : pq1.InBounds) (hs1 : pq1.currentSize ≤ st.pq.currentSize + 1)
    (hv1 : ∀ x ∈ pq1.entries, x = ⟨e.y, e.weight⟩ ∨ x ∈ st.pq.entries) :
    Inv g (st.relaxEdge e pq1) ∧ potential g (st.relaxEdge e pq1) ≤ potential g st := by
  have hdl : e.y.toNat < st.distTo.length := by rw [hinv.lenD]; omega
  refine ⟨⟨?_, ?_, hinv.lenM, hb1, ?_⟩, ?_⟩
  · simp [relaxEdge, hinv.lenE]
  · simp [relaxEdge, hinv.lenD]
  · intro x hx
    rcases hv1 x hx with h | h
    · rw [h]; exact ⟨hy0, hyV⟩
    · exact hinv.vals x h
  · have hmk : ∀ y, (st.relaxEdge e pq1).isMarked y = st.isMarked y := fun _ => rfl
    have himp : ∀ x ∈ g.storedEdges, (st.relaxEdge e pq1).Relaxable x = true →
        st.Relaxable x = true := by
      intro x hx hq
      have hx0 := hrange x hx
      unfold Relaxable at hq ⊢
      rw [dist_relaxEdge st e pq1 _ hdl, hmk] at hq
      simp only [Bool.and_eq_true, Bool.not_eq_true', decide_eq_true_eq] at hq ⊢
      refine ⟨hq.1, ?_⟩
      by_cases hxy : x.y.toNat = e.y.toNat
      · rw [if_pos hxy] at hq
        have : x.y = e.y := by omega
        rw [this]
        exact lt_trans hq.2 hlt
      · rw [if_neg hxy] at hq
        exact hq.2
    have hpe : st.Relaxable e = true := by
      simp [Relaxable, hm, hlt]
    have hqe : (st.relaxEdge e pq1).Relaxable e = false := by
      unfold Relaxable
      rw [dist_relaxEdge st e pq1 _ hdl, hmk]
      simp
    have hcount := countP_succ_le_of_imp g.storedEdges _ _ himp e hes hpe hqe
    unfold potential
    have : (st.relaxEdge e pq1).pq = pq1 := rfl
    rw [this]
    omega

end MST

namespace MST

theorem scanEdge_spec (g : Graph) (Q : MST → Prop) (hpres : Preserved g Q) (st : MST)
    (v : Int) (e : Edge) (hinv : Inv g st) (hQ : Q st) (hes : e ∈ g.storedEdges)
    (hex : e.x = v) (hy0 : 0 ≤ e.y) (hyV : e.y < g.V)
    (hrange : ∀ x ∈ g.storedEdges, 0 ≤ x.y)
    (hmv : st.isMarked v = true) (hm0 : st.isMarked 0 = true) :
    ∃ st1, scanEdge st v e = .ok st1 ∧ Inv g st1 ∧ Q st1 ∧ st1.marked = st.marked ∧
      potential g st1 ≤ potential g st := by
  have hother : e.other v = .ok e.y := by simp [Edge.other, hex]
  have hml : e.y.toNat < st.marked.length := by rw [hinv.lenM]; omega
  have hdl : e.y.toNat < st.distTo.length := by rw [hinv.lenD]; omega
  have hel : e.y.toNat < st.edgeTo.length := by rw [hinv.lenE]; omega
  have hmget := vecGet_marked st e.y hy0 hml
  have hdget := vecGet_distTo st e.y hy0 hdl
  by_cases hm : st.isMarked e.y = true
  · refine ⟨st, ?_, hinv, hQ, rfl, le_refl _⟩
    simp [scanEdge, hother, hmget, hm, bind, Except.bind]
  · have hm' : st.isMarked e.y = false := by simpa using hm
    by_cases hlt : e.weight < st.dist e.y
    · obtain ⟨c, hc⟩ := PriorityQueue.contains_ok st.pq hinv.inb e.y
      have hdset := vecSet_ok st.distTo e.y e.weight hy0 hdl
      have heset := vecSet_ok st.edgeTo e.y (some e) hy0 hel
      have hdget2 := vecGet_set_self st.distTo e.y e.weight hy0 hdl
      have hQ1 : ∀ pq1, Q (st.relaxEdge e pq1) := fun pq1 =>
        hpres.relax st e pq1 hinv hQ hes hy0 hyV (by rw [hex]; exact hmv) hm0 hm' hlt
      cases c with
      | true =>
        obtain ⟨pq1, hrun, hb1, hs1, hperm, _, _⟩ :=
          PriorityQueue.changePriority_spec st.pq e.y e.weight hinv.inb
        have hprops := relaxEdge_props g st e pq1 hinv hes hy0 hyV hrange hm' hlt hb1
          (by omega) (fun x hx =>
            PriorityQueue.mem_entries_overwriteLast st.pq hinv.inb _ _ x (hperm.subset hx))
        refine ⟨st.relaxEdge e pq1, ?_, hprops.1, hQ1 pq1, rfl, hprops.2⟩
        simp [scanEdge, hother, hmget, hm', hdget, Edge.getWeight, hlt, hdset, heset, hc,
          hdget2, hrun, bind, Except.bind, relaxEdge]
      | false =>
        obtain ⟨pq1, hrun, hb1, hs1, hperm, _, _⟩ :=
          PriorityQueue.push_spec st.pq e.y e.weight hinv.inb
        have hprops := relaxEdge_props g st e pq1 hinv hes hy0 hyV hrange hm' hlt hb1
          (by omega) (fun x hx => List.mem_cons.mp (hperm.subset hx))
        refine ⟨st.relaxEdge e pq1, ?_, hprops.1, hQ1 pq1, rfl, hprops.2⟩
        simp [scanEdge, hother, hmget, hm', hdget, Edge.getWeight, hlt, hdset, heset, hc,
          hdget2, hrun, bind, Except.bind, relaxEdge]
    · refine ⟨st, ?_, hinv, hQ, rfl, le_refl _⟩
      simp [scanEdge, hother, hmget, hm', hdget, Edge.getWeight, hlt, bind, Except.bind]

theorem isMarked_of_marked_eq (st st1 : MST) (h : st1.marked = st.marked) (w : Int) :
    st1.isMarked w = st.isMarked w := by
  unfold isMarked
  rw [h]

theorem scanLoop_spec (g : Graph) (Q : MST → Prop) (hpres : Preserved g Q) (v : Int)
    (hrange : ∀ x ∈ g.storedEdges, 0 ≤ x.y) :
    ∀ (es : List Edge) (st : MST), Inv g st → Q st →
      (∀ e ∈ es, e ∈ g.storedEdges ∧ e.x = v ∧ 0 ≤ e.y ∧ e.y < g.V) →
      st.isMarked v = true → st.isMarked 0 = true →
      ∃ st1, scanLoop v es st = .ok st1 ∧ Inv g st1 ∧ Q st1 ∧ st1.marked = st.marked ∧
        potential g st1 ≤ potential g st := by
  intro es
  induction es with
  | nil =>
    intro st hinv hQ _ _ _
    exact ⟨st, rfl, hinv, hQ, rfl, le_refl _⟩
  | cons e rest ih =>
    intro st hinv hQ hes hmv hm0
    obtain ⟨he1, he2, he3, he4⟩ := hes e (List.mem_cons_self _ _)
    obtain ⟨st1, hrun1, hinv1, hQ1, hmk1, hpot1⟩ :=
      scanEdge_spec g Q hpres st v e hinv hQ he1 he2 he3 he4 hrange hmv hm0
    obtain ⟨st2, hrun2, hinv2, hQ2, hmk2, hpot2⟩ := ih st1 hinv1 hQ1
      (fun x hx => hes x (List.mem_cons_of_mem _ hx))
      (by rw [isMarked_of_marked_eq st st1 hmk1]; exact hmv)
      (by rw [isMarked_of_marked_eq st st1 hmk1]; exact hm0)
    refine ⟨st2, ?_, hinv2, hQ2, by rw [hmk2, hmk1], le_trans hpot2 hpot1⟩
    simp only [scanLoop, hrun1, bind, Except.bind]
    exact hrun2

/-- Taking the root out of the queue and marking it lowers the potential. -/
theorem markVertex_props (g : Graph) (st : MST) (v : Int) (pq2 : PriorityQueue Int)
    (hinv : Inv g st) (hv0 : 0 ≤ v) (hvV : v < g.V)
    (hb2 : pq2.InBounds) (hs2 : pq2.currentSize + 1 = st.pq.currentSize)
    (hv2 : ∀ x ∈ pq2.entries, x ∈ st.pq.entries) :
    Inv g (st.markVertex v pq2) ∧
      potential g (st.markVertex v pq2) + 1 ≤ potential g st ∧
      (st.markVertex v pq2).isMarked v = true ∧
      (∀ w, st.isMarked w = true → (st.markVertex v pq2).isMarked w = true) := by
  have hml : v.toNat < st.marked.length := by rw [hinv.lenM]; omega
  refine ⟨⟨hinv.lenE, hinv.lenD, ?_, hb2, fun x hx => hinv.vals x (hv2 x hx)⟩, ?_, ?_, ?_⟩
  · simp [markVertex, hinv.lenM]
  · have hmono : g.storedEdges.countP (st.markVertex v pq2).Relaxable ≤
        g.storedEdges.countP st.Relaxable := by
      apply List.countP_mono_left
      intro x _ hq
      have hd : (st.markVertex v pq2).dist x.y = st.dist x.y := rfl
      unfold Relaxable at hq ⊢
      rw [isMarked_markVertex st v pq2 _ hml, hd] at hq
      simp only [Bool.and_eq_true, Bool.not_eq_true', decide_eq_true_eq] at hq ⊢
      refine ⟨?_, hq.2⟩
      by_cases hxy : x.y.toNat = v.toNat
      · rw [if_pos hxy] at hq
        exact absurd hq.1 (by simp)
      · rw [if_neg hxy] at hq
        exact hq.1
    unfold potential
    have : (st.markVertex v pq2).pq = pq2 := rfl
    rw [this]
    omega
  · rw [isMarked_markVertex st v pq2 _ hml, if_pos rfl]
  · intro w hw
    rw [isMarked_markVertex st v pq2 _ hml]
    split
    · rfl
    · exact hw

end MST

namespace MST

theorem stored_of_adjacent (g : Graph) (hb : g.Built) (v : Int) (hv0 : 0 ≤ v)
    (hvl : v.toNat < g.adjacencyList.length) :
    ∀ e ∈ g.adjacencyList[v.toNat], e ∈ g.storedEdges ∧ e.x = v ∧ 0 ≤ e.y ∧ e.y < g.V := by
  intro e he
  obtain ⟨_, hown, hr⟩ := hb
  have hget : g.adjacencyList[v.toNat]? = some g.adjacencyList[v.toNat] :=
    List.getElem?_eq_getElem hvl
  refine ⟨(Graph.mem_storedEdges g e).mpr ⟨_, _, hget, he⟩, ?_, hr _ _ hget e he⟩
  have := hown _ _ hget e he
  omega

theorem stored_range (g : Graph) (hb : g.Built) : ∀ x ∈ g.storedEdges, 0 ≤ x.y := by
  intro x hx
  obtain ⟨v, l, hl, hxl⟩ := (Graph.mem_storedEdges g x).mp hx
  exact (hb.2.2 v l hl x hxl).1

/-- The loop of `prim` returns when the fuel covers the potential. -/
theorem primLoop_spec (g : Graph) (hb : g.Built) (Q : MST → Prop) (hpres : Preserved g Q) :
    ∀ (fuel : Nat) (st : MST), Inv g st → Q st → ZeroFirst st → potential g st ≤ fuel →
      ∃ st1, primLoop g fuel st = .ok st1 ∧ Inv g st1 ∧ Q st1 ∧ st1.pq.currentSize = 0 ∧
        (st.isMarked 0 = true ∨ 0 < st.pq.currentSize → st1.isMarked 0 = true) := by
  intro fuel
  induction fuel with
  | zero =>
    intro st hinv hQ _ hpot
    have hs : st.pq.currentSize = 0 := by unfold potential at hpot; omega
    refine ⟨st, ?_, hinv, hQ, hs, ?_⟩
    · exact primLoop_of_isEmpty g 0 st (by simp [PriorityQueue.isEmpty, hs])
    · rintro (h | h)
      · exact h
      · omega
  | succ fuel ih =>
    intro st hinv hQ hzero hpot
    by_cases hs : st.pq.currentSize = 0
    · refine ⟨st, ?_, hinv, hQ, hs, ?_⟩
      · exact primLoop_of_isEmpty g _ st (by simp [PriorityQueue.isEmpty, hs])
      · rintro (h | h)
        · exact h
        · omega
    · have hpos : 0 < st.pq.currentSize := by omega
      have hinb := hinv.inb
      have h1l : 1 < st.pq.heap.length := by
        unfold PriorityQueue.InBounds at hinb; omega
      have hroot : st.pq.entry 1 ∈ st.pq.entries :=
        PriorityQueue.entry_mem_entries st.pq 1 hinb (le_refl _) hpos
      obtain ⟨hv0, hvV⟩ := hinv.vals _ hroot
      have htop : st.pq.top = .ok (st.pq.entry 1).value := by
        simp [PriorityQueue.top, PriorityQueue.slot_of_lt st.pq h1l, bind, Except.bind]
      obtain ⟨pq2, hpop, hb2, hs2, hperm2, _, _⟩ := PriorityQueue.pop_spec st.pq hinb hpos
      generalize hv : (st.pq.entry 1).value = v at hv0 hvV htop
      have hz : st.isMarked 0 = true ∨ v = 0 := by
        rcases hzero with h | h
        · exact Or.inl h
        · exact Or.inr (by rw [← hv]; exact h _ hroot)
      obtain ⟨hinvM, hpotM, hmvM, hmonoM⟩ := markVertex_props g st v pq2 hinv hv0 hvV hb2 hs2
        (fun x hx => hperm2.symm.subset (List.mem_cons_of_mem _ hx))
      have hQM : Q (st.markVertex v pq2) := hpres.mark st v pq2 hinv hQ hv0 hvV hz
      have hm0M : (st.markVertex v pq2).isMarked 0 = true := by
        rcases hz with h | h
        · exact hmonoM 0 h
        · rw [← h]; exact hmvM
      have hvl : v.toNat < g.adjacencyList.length := by
        have := hb.1.2; omega
      obtain ⟨st1, hscan, hinv1, hQ1, hmk1, hpot1⟩ :=
        scanLoop_spec g Q hpres v (stored_range g hb) g.adjacencyList[v.toNat]
          (st.markVertex v pq2) hinvM hQM (stored_of_adjacent g hb v hv0 hvl) hmvM hm0M
      have hm01 : st1.isMarked 0 = true := by
        rw [isMarked_of_marked_eq _ st1 hmk1]; exact hm0M
      obtain ⟨st2, hrun2, hinv2, hQ2, hs2', hm02⟩ :=
        ih st1 hinv1 hQ1 (Or.inl hm01) (by omega)
      refine ⟨st2, ?_, hinv2, hQ2, hs2', fun _ => hm02 (Or.inl hm01)⟩
      have hne : PriorityQueue.isEmpty st.pq = false := by
        simp [PriorityQueue.isEmpty, hs]
      have hmset := vecSet_ok st.marked v true hv0 (by rw [hinv.lenM]; omega)
      have hadj := vecGet_ok g.adjacencyList v hv0 hvl
      have hscan' : scan ⟨st.edgeTo, st.distTo, st.marked, pq2⟩ g v = .ok st1 := by
        simp only [scan, hmset, hadj, bind, Except.bind]
        exact hscan
      rw [primLoop_succ g fuel st hne]
      simp only [htop, hpop, bind, Except.bind, hscan']
      exact hrun2

theorem potential_le_loopFuel (g : Graph) (st : MST) (h : st.pq.currentSize ≤ 1) :
    potential g st ≤ loopFuel g := by
  unfold potential loopFuel
  have h1 : g.storedEdges.countP st.Relaxable ≤ g.storedEdges.length := List.countP_le_length _
  have h2 : g.storedEdges.length = (g.adjacencyList.map List.length).sum := by
    unfold Graph.storedEdges
    exact List.length_flatten _
  omega

/-- A run of `prim` from an unmarked vertex returns. -/
theorem prim_spec (g : Graph) (hb : g.Built) (Q : MST → Prop) (hpres : Preserved g Q)
    (st : MST) (s : Int) (hinv : Inv g st) (hQ : Q st) (hs0 : 0 ≤ s) (hsV : s < g.V)
    (hempty : st.pq.currentSize = 0) (hms : st.isMarked s = false)
    (hz : st.isMarked 0 = true ∨ s = 0) :
    ∃ st1, prim st g s = .ok st1 ∧ Inv g st1 ∧ Q st1 ∧ st1.pq.currentSize = 0 ∧
      st1.isMarked 0 = true := by
  have hdl : s.toNat < st.distTo.length := by rw [hinv.lenD]; omega
  have hset := vecSet_ok st.distTo s 0 hs0 hdl
  have hget := vecGet_set_self st.distTo s 0 hs0 hdl
  obtain ⟨pq1, hpush, hb1, hs1, hperm1, _, _⟩ := PriorityQueue.push_spec st.pq s 0 hinv.inb
  have hent0 : st.pq.entries = [] := by simp [PriorityQueue.entries, hempty]
  rw [hent0] at hperm1
  have hent1 : pq1.entries = [⟨s, 0⟩] := List.perm_singleton.mp hperm1
  have hinv1 : Inv g (st.startPrim s pq1) := by
    refine ⟨hinv.lenE, ?_, hinv.lenM, hb1, ?_⟩
    · simp [startPrim, hinv.lenD]
    · intro x hx
      have : (st.startPrim s pq1).pq = pq1 := rfl
      rw [this, hent1] at hx
      simp at hx
      rw [hx]
      exact ⟨hs0, hsV⟩
  have hQ1 : Q (st.startPrim s pq1) := hpres.start st s pq1 hinv hQ hs0 hsV hms hz
  have hzero1 : ZeroFirst (st.startPrim s pq1) := by
    rcases hz with h | h
    · exact Or.inl h
    · right
      intro x hx
      have : (st.startPrim s pq1).pq = pq1 := rfl
      rw [this, hent1] at hx
      simp at hx
      rw [hx]
      exact h
  have hpot : potential g (st.startPrim s pq1) ≤ loopFuel g :=
    potential_le_loopFuel g _ (by
      have : (st.startPrim s pq1).pq = pq1 := rfl
      rw [this]; omega)
  obtain ⟨st2, hrun, hinv2, hQ2, hs2, hm2⟩ :=
    primLoop_spec g hb Q hpres (loopFuel g) _ hinv1 hQ1 hzero1 hpot
  refine ⟨st2, ?_, hinv2, hQ2, hs2, hm2 (Or.inr ?_)⟩
  · simp only [prim, hset, hget, hpush, bind, Except.bind]
    exact hrun
  · have : (st.startPrim s pq1).pq = pq1 := rfl
    rw [this]; omega

theorem ctorLoop_spec (g : Graph) (hb : g.Built) (Q : MST → Prop) (hpres : Preserved g Q) :
    ∀ (vs : List Nat) (st : MST), (∀ v ∈ vs, v < g.V.toNat) → Inv g st → Q st →
      st.pq.currentSize = 0 → (st.isMarked 0 = true ∨ vs.head? = some 0 ∨ vs = []) →
      ∃ st1, ctorLoop g vs st = .ok st1 ∧ Inv g st1 ∧ Q st1 := by
  intro vs
  induction vs with
  | nil =>
    intro st _ hinv hQ _ _
    exact ⟨st, rfl, hinv, hQ⟩
  | cons v rest ih =>
    intro st hvs hinv hQ hempty hz
    have hv : v < g.V.toNat := hvs v (List.mem_cons_self _ _)
    have hrest : ∀ u ∈ rest, u < g.V.toNat := fun u hu => hvs u (List.mem_cons_of_mem _ hu)
    have hv0 : (0 : Int) ≤ (v : Int) := by omega
    have hvV : (v : Int) < g.V := by omega
    have hml : ((v : Int)).toNat < st.marked.length := by
      rw [Int.toNat_ofNat, hinv.lenM]; exact hv
    have hmget := vecGet_marked st (v : Int) hv0 hml
    have hz' : st.isMarked 0 = true ∨ (v : Int) = 0 := by
      rcases hz with h | h | h
      · exact Or.inl h
      · simp at h
        exact Or.inr (by omega)
      · cases h
    by_cases hm : st.isMarked (v : Int) = true
    · have hm0 : st.isMarked 0 = true := by
        rcases hz' with h | h
        · exact h
        · rw [← h]; exact hm
      obtain ⟨st1, hrun, hinv1, hQ1⟩ := ih st hrest hinv hQ hempty (Or.inl hm0)
      refine ⟨st1, ?_, hinv1, hQ1⟩
      simp only [ctorLoop, hmget, hm, bind, Except.bind]
      simpa using hrun
    · have hm' : st.isMarked (v : Int) = false := by simpa using hm
      obtain ⟨st1, hprim, hinv1, hQ1, hs1, hm01⟩ :=
        prim_spec g hb Q hpres st (v : Int) hinv hQ hv0 hvV hempty hm' hz'
      obtain ⟨st2, hrun, hinv2, hQ2⟩ := ih st1 hrest hinv1 hQ1 hs1 (Or.inl hm01)
      refine ⟨st2, ?_, hinv2, hQ2⟩
      simp only [ctorLoop, hmget, hm', bind, Except.bind]
      simpa [hprim] using hrun

/-- The constructor of `MST` returns on every built graph, and a property kept
by the three state changes holds of the result. -/
theorem mkMST_spec (g : Graph) (hb : g.Built) (Q : MST → Prop) (hpres : Preserved g Q)
    (hinit : ∀ pq, Q ⟨List.replicate g.V.toNat none, List.replicate g.V.toNat DBL_MAX,
      List.replicate g.V.toNat false, pq⟩) :
    ∃ st, mkMST g = .ok st ∧ Q st ∧ st.edgeTo.length = g.V.toNat ∧
      st.distTo.length = g.V.toNat ∧ st.marked.length = g.V.toNat := by
  have hV : 0 ≤ g.V := hb.1.1
  have hV0 : ¬ g.V < 0 := by omega
  by_cases hz : g.V.toNat = 0
  · refine ⟨⟨[], [], [], ⟨[], 0⟩⟩, ?_, ?_, by simp [hz], by simp [hz], by simp [hz]⟩
    · simp [mkMST, Graph.getV, hV0, mkPriorityQueue, hz, bind, Except.bind, ctorLoop]
    · have := hinit ⟨[], 0⟩
      rw [hz] at this
      simpa using this
  · have hinv : Inv g ⟨List.replicate g.V.toNat none, List.replicate g.V.toNat DBL_MAX,
        List.replicate g.V.toNat false, ⟨List.replicate g.V.toNat default, 0⟩⟩ := by
      refine ⟨by simp, by simp, by simp, ?_, ?_⟩
      · unfold PriorityQueue.InBounds
        simp
        omega
      · intro e he
        simp [PriorityQueue.entries] at he
    obtain ⟨st, hrun, hinv1, hQ1⟩ := ctorLoop_spec g hb Q hpres (List.range g.V.toNat) _
      (fun v hv => List.mem_range.mp hv) hinv (hinit _) rfl
      (Or.inr (Or.inl (by
        cases hn : g.V.toNat with
        | zero => exact absurd hn hz
        | succ n => simp [List.range_succ_eq_map])))
    refine ⟨st, ?_, hQ1, hinv1.lenE, hinv1.lenD, hinv1.lenM⟩
    simp only [mkMST, Graph.getV, hV0, mkPriorityQueue, if_false, bind, Except.bind]
    exact hrun

end MST

/-! ### The claims on the construction of `MST` -/

namespace MST

theorem preserved_true (g : Graph) : Preserved g (fun _ => True) :=
  ⟨fun _ _ _ _ _ _ _ _ _ => trivial, fun _ _ _ _ _ _ _ _ => trivial,
    fun _ _ _ _ _ _ _ _ _ _ _ _ => trivial⟩

theorem preserved_edgeToOk (g : Graph) : Preserved g (EdgeToOk g) := by
  refine ⟨fun st s pq _ hQ _ _ _ _ => hQ, fun st v pq _ hQ _ _ _ => hQ, ?_⟩
  intro st e pq hinv hQ hes hy0 hyV _ hm0 hm _ w e1 hw
  have hel : e.y.toNat < st.edgeTo.length := by rw [hinv.lenE]; omega
  have hedge : (st.relaxEdge e pq).edgeTo = st.edgeTo.set e.y.toNat (some e) := rfl
  rw [hedge] at hw
  by_cases hwe : e.y.toNat = w
  · subst hwe
    rw [List.getElem?_set_self hel] at hw
    cases hw
    refine ⟨hes, by omega, ?_⟩
    intro h0
    have : e.y = 0 := by omega
    rw [this, hm0] at hm
    cases hm
  · rw [List.getElem?_set_ne hwe] at hw
    exact hQ w e1 hw

theorem mem_edges_iff (st : MST) (e : Edge) :
    e ∈ st.edges ↔ ∃ w : Nat, st.edgeTo[w]? = some (some e) := by
  unfold edges
  rw [List.mem_filterMap]
  constructor
  · rintro ⟨a, ha, hid⟩
    simp only [id] at hid
    subst hid
    exact List.mem_iff_getElem?.mp ha
  · rintro ⟨w, hw⟩
    exact ⟨some e, List.mem_iff_getElem?.mpr ⟨w, hw⟩, rfl⟩

theorem second_endpoints_increasing :
    ∀ (l : List (Option Edge)) (k : Nat),
      (∀ (w : Nat) (e : Edge), l[w]? = some (some e) → e.y = ((k + w : Nat) : Int)) →
      ((l.filterMap id).map Edge.y).Pairwise (· < ·) ∧
        ∀ y ∈ (l.filterMap id).map Edge.y, (k : Int) ≤ y := by
  intro l
  induction l with
  | nil => intro k _; simp
  | cons a t ih =>
    intro k h
    have ht := ih (k + 1) (fun w e hw => by
      have := h (w + 1) e (by simpa using hw)
      rw [this]
      congr 1
      omega)
    cases a with
    | none =>
      have e1 : (none :: t).filterMap id = t.filterMap id := rfl
      rw [e1]
      refine ⟨ht.1, fun y hy => ?_⟩
      have := ht.2 y hy
      omega
    | some e =>
      have he : e.y = (k : Int) := by
        have := h 0 e (by simp)
        simpa using this
      have e1 : (some e :: t).filterMap id = e :: t.filterMap id := rfl
      rw [e1]
      simp only [List.map_cons, List.pairwise_cons, List.mem_cons]
      refine ⟨⟨fun y hy => ?_, ht.1⟩, fun y hy => ?_⟩
      · have := ht.2 y hy
        omega
      · rcases hy with hy | hy
        · omega
        · have := ht.2 y hy
          omega

end MST

/-- C20: for a graph built by `Graph(V)` and calls of `addEdge` with both
endpoints in `[0, V)`, the construction `MST(graph)` returns: every run of
the loop of `prim` ends within `V + E + 1` iterations, `E` the number of
stored edge records, because each iteration lowers the number of queued
entries plus the number of records that can still be relaxed. -/
theorem mst_construction_terminates (V : Int) (calls : List (Int × Int × Rat)) (hV : 0 ≤ V)
    (hcalls : ∀ c ∈ calls, 0 ≤ c.1 ∧ c.1 < V ∧ 0 ≤ c.2.1 ∧ c.2.1 < V) :
    ∃ g st, buildGraph V calls = .ok g ∧ mkMST g = .ok st ∧
      MST.loopFuel g = V.toNat + g.storedEdges.length + 1 := by
  obtain ⟨g, hg, hb, hgV⟩ := buildGraph_built V calls hV hcalls
  obtain ⟨st, hst, _⟩ := MST.mkMST_spec g hb (fun _ => True) (MST.preserved_true g)
    (fun _ => trivial)
  refine ⟨g, st, hg, hst, ?_⟩
  unfold MST.loopFuel Graph.storedEdges
  rw [List.length_flatten, hb.1.2, hgV]

theorem mst_construction_terminates_witness :
    (0 : Int) ≤ 5 ∧ (∀ c ∈ callsA, 0 ≤ c.1 ∧ c.1 < 5 ∧ 0 ≤ c.2.1 ∧ c.2.1 < 5) ∧
    ∃ g st, buildGraph 5 callsA = .ok g ∧ mkMST g = .ok st ∧
      MST.loopFuel g = (5 : Int).toNat + g.storedEdges.length + 1 :=
  ⟨by decide, by decide, mst_construction_terminates 5 callsA (by decide) (by decide)⟩

/-! ### The constructor from a file of triples -/

/-- C23: for a file that holds only the vertex count 3, `uvw.size() - 2` is
`1 - 2` in unsigned arithmetic, that is `2^64 - 1`, the loop is entered with
`i = 1` and reads `uvw[1]` outside the vector; with one triple after the
count the constructor gives the graph of `Graph(3)` and `addEdge(0, 1, 5)`. -/
theorem graph_from_count_only_reads_outside :
    sizeMinusTwo 1 = 2 ^ 64 - 1 ∧
    tokenAt [(3 : Int)] 1 = .error .bounds ∧
    mkGraphFromTokens id (fun t : Int => (t : Rat)) [3] = .error .bounds ∧
    mkGraph 3 = .ok ⟨3, 0, [[], [], []]⟩ ∧
    mkGraphFromTokens id (fun t : Int => (t : Rat)) [3, 0, 1, 5] = buildGraph 3 [(0, 1, 5)] := by
  refine ⟨by decide, by decide, by decide, by decide, by decide⟩


theorem sizeMinusTwo_of_le (n : Nat) (h2 : 2 ≤ n) (h64 : n < 2 ^ 64) :
    sizeMinusTwo n = n - 2 := by
  unfold sizeMinusTwo
  have : n + 2 ^ 64 - 2 = (n - 2) + 2 ^ 64 := by omega
  rw [this, Nat.add_mod_right, Nat.mod_eq_of_lt (by omega)]

theorem tokenAt_of_drop {Tok : Type} (uvw : List Tok) (i j : Nat) (t : Tok)
    (h : (uvw.drop i)[j]? = some t) : tokenAt uvw (i + j) = .ok t := by
  rw [List.getElem?_drop] at h
  simp [tokenAt, h]

/-- With at least two tokens and fewer than `2^32`, the loop that starts at
the first token of a run of complete triples calls `addEdge` once for each
triple, in order, and stops at the end of the vector. -/
theorem tokenLoop_spec {Tok : Type} (convertInt : Tok → Int) (convertDouble : Tok → Rat)
    (uvw : List Tok) (h2 : 2 ≤ uvw.length) (h32 : uvw.length < 2 ^ 32) :
    ∀ (triples : List (Tok × Tok × Tok)) (fuel i : Nat) (g : Graph),
      uvw.drop i = (triples.flatMap fun t => [t.1, t.2.1, t.2.2]) → i ≤ uvw.length →
      triples.length ≤ fuel →
      Graph.tokenLoop convertInt convertDouble uvw fuel i g =
        g.addEdges (callsOf convertInt convertDouble triples) := by
  have hsz : sizeMinusTwo uvw.length = uvw.length - 2 :=
    sizeMinusTwo_of_le _ h2 (by omega)
  intro triples
  induction triples with
  | nil =>
    intro fuel i g hdrop hi _
    have hlen : uvw.length ≤ i := by
      have := congrArg List.length hdrop
      simp at this
      omega
    have hc : ¬ i < sizeMinusTwo uvw.length := by rw [hsz]; omega
    cases fuel <;> simp [Graph.tokenLoop, hc, callsOf, Graph.addEdges]
  | cons t rest ih =>
    intro fuel i g hdrop hi hfuel
    obtain ⟨a, b, c⟩ := t
    have hdrop' : uvw.drop i = a :: b :: c :: (rest.flatMap fun t => [t.1, t.2.1, t.2.2]) := by
      rw [hdrop]; simp [List.flatMap_cons]
    have hlen : i + 3 ≤ uvw.length := by
      have := congrArg List.length hdrop'
      simp at this
      omega
    have ha : tokenAt uvw i = .ok a :=
      tokenAt_of_drop uvw i 0 a (by rw [hdrop']; simp)
    have hb : tokenAt uvw (i + 1) = .ok b :=
      tokenAt_of_drop uvw i 1 b (by rw [hdrop']; simp)
    have hc : tokenAt uvw (i + 2) = .ok c :=
      tokenAt_of_drop uvw i 2 c (by rw [hdrop']; simp)
    have hrest : uvw.drop (i + 3) = (rest.flatMap fun t => [t.1, t.2.1, t.2.2]) := by
      rw [← List.drop_drop, hdrop']
      rfl
    have hcond : i < sizeMinusTwo uvw.length := by rw [hsz]; omega
    have m1 : (i + 1) % 2 ^ 32 = i + 1 := Nat.mod_eq_of_lt (by omega)
    have m2 : (i + 2) % 2 ^ 32 = i + 2 := Nat.mod_eq_of_lt (by omega)
    have m3 : (i + 3) % 2 ^ 32 = i + 3 := Nat.mod_eq_of_lt (by omega)
    cases fuel with
    | zero => simp at hfuel
    | succ fuel =>
      simp only [Graph.tokenLoop, hcond, if_true, ha, hb, hc, m1, m2, m3, bind, Except.bind,
        callsOf, List.map_cons, Graph.addEdges]
      cases hadd : g.addEdge (convertInt a) (convertInt b) (convertDouble c) with
      | error err => rfl
      | ok r =>
        simp only
        exact ih fuel (i + 3) r.2 hrest hlen (by simpa using hfuel)

/-- The part of C23 that the code keeps: for a file with the vertex count
and at least one complete triple (fewer than `2^32` tokens), the constructor
gives what `Graph(V)` followed by one `addEdge` per triple, in order, gives. -/
theorem graph_from_tokens_with_triples {Tok : Type} (convertInt : Tok → Int)
    (convertDouble : Tok → Rat) (t0 : Tok) (triples : List (Tok × Tok × Tok))
    (hk : triples ≠ []) (h32 : (tokensOf t0 triples).length < 2 ^ 32) :
    mkGraphFromTokens convertInt convertDouble (tokensOf t0 triples) =
      buildGraph (convertInt t0) (callsOf convertInt convertDouble triples) := by
  have hlen : (tokensOf t0 triples).length = 3 * triples.length + 1 := by
    unfold tokensOf
    simp only [List.length_cons, Nat.add_right_cancel_iff]
    clear hk h32
    induction triples with
    | nil => rfl
    | cons t rest ih => simp [List.flatMap_cons, ih]; omega
  have hpos : 0 < triples.length := List.length_pos.mpr hk
  have h0 : tokenAt (tokensOf t0 triples) 0 = .ok t0 := by simp [tokenAt, tokensOf]
  simp only [mkGraphFromTokens, h0, buildGraph, mkGraph, bind, Except.bind]
  by_cases hV : convertInt t0 < 0
  · simp [hV]
  · simp only [hV, if_false]
    exact tokenLoop_spec convertInt convertDouble (tokensOf t0 triples) (by omega) h32
      triples _ 1 _ (by simp [tokensOf]) (by omega) (by omega)


/-! ### No failure branch, no cycle -/

namespace MST

theorem preserved_and (g : Graph) (Q1 Q2 : MST → Prop) (h1 : Preserved g Q1)
    (h2 : Preserved g Q2) : Preserved g (fun st => Q1 st ∧ Q2 st) :=
  ⟨fun st s pq hinv hQ a b c d =>
      ⟨h1.start st s pq hinv hQ.1 a b c d, h2.start st s pq hinv hQ.2 a b c d⟩,
    fun st v pq hinv hQ a b c =>
      ⟨h1.mark st v pq hinv hQ.1 a b c, h2.mark st v pq hinv hQ.2 a b c⟩,
    fun st e pq hinv hQ a b c d e' f g' =>
      ⟨h1.relax st e pq hinv hQ.1 a b c d e' f g', h2.relax st e pq hinv hQ.2 a b c d e' f g'⟩⟩

theorem preserved_ranked (g : Graph) : Preserved g Ranked := by
  refine ⟨?_, ?_, ?_⟩
  · intro st s pq _ hQ _ _ _ _
    obtain ⟨rank, t, h1, h2, h3⟩ := hQ
    exact ⟨rank, t, h1, h2, h3⟩
  · intro st v pq hinv hQ hv0 hvV _
    obtain ⟨rank, t, h1, h2, h3⟩ := hQ
    have hml : v.toNat < st.marked.length := by rw [hinv.lenM]; omega
    have hmono : ∀ u, st.isMarked u = true → (st.markVertex v pq).isMarked u = true := by
      intro u hu
      rw [isMarked_markVertex st v pq u hml]
      split
      · rfl
      · exact hu
    refine ⟨fun u => if (st.markVertex v pq).isMarked u = true then
        (if st.isMarked u = true then rank u else t) else t + 1, t + 1, ?_, ?_, ?_⟩
    · intro u hu
      simp only [hu, if_true]
      by_cases hm : st.isMarked u = true
      · rw [if_pos hm]
        exact Nat.lt_succ_of_lt (h1 u hm)
      · rw [if_neg hm]
        exact Nat.lt_succ_self t
    · intro u hu
      simp [hu]
    · intro w e hw
      have hedge : (st.markVertex v pq).edgeTo = st.edgeTo := rfl
      rw [hedge] at hw
      obtain ⟨hex, hlt⟩ := h3 w e hw
      have hex' := hmono e.x hex
      refine ⟨hex', ?_⟩
      simp only [hex', hex, if_true]
      have hxt := h1 e.x hex
      by_cases hw1 : (st.markVertex v pq).isMarked (w : Int) = true
      · rw [if_pos hw1]
        by_cases hw2 : st.isMarked (w : Int) = true
        · rw [if_pos hw2]; exact hlt
        · rw [if_neg hw2]; exact hxt
      · rw [if_neg hw1]
        exact Nat.lt_succ_of_lt hxt
  · intro st e pq hinv hQ _ hy0 hyV hex _ hey _
    obtain ⟨rank, t, h1, h2, h3⟩ := hQ
    have hel : e.y.toNat < st.edgeTo.length := by rw [hinv.lenE]; omega
    refine ⟨rank, t, h1, h2, ?_⟩
    intro w e1 hw
    have hedge : (st.relaxEdge e pq).edgeTo = st.edgeTo.set e.y.toNat (some e) := rfl
    have hmk : ∀ u, (st.relaxEdge e pq).isMarked u = st.isMarked u := fun _ => rfl
    rw [hedge] at hw
    rw [hmk]
    by_cases hwe : e.y.toNat = w
    · subst hwe
      rw [List.getElem?_set_self hel] at hw
      cases hw
      refine ⟨hex, ?_⟩
      have hcast : ((e.y.toNat : Nat) : Int) = e.y := by omega
      rw [hcast, h2 e.y hey]
      exact h1 e.x hex
    · rw [List.getElem?_set_ne hwe] at hw
      exact h3 w e1 hw

end MST

/-- Edges that are numbered upwards, at most one per upper endpoint, contain
no cycle. -/
theorem acyclic_of_rank (es : List Edge) (rank : Int → Nat) (hnd : es.Nodup)
    (hU : ∀ e ∈ es, ∀ e' ∈ es, e.y = e'.y → e = e')
    (hR : ∀ e ∈ es, rank e.x < rank e.y) : Acyclic es := by
  refine ⟨hnd, ?_⟩
  intro e he hjoin
  have hmem : ∀ e', e' ∈ es.erase e ↔ e' ≠ e ∧ e' ∈ es := fun e' => hnd.mem_erase_iff
  -- `Below u`: following parent edges other than `e` from `u` leads to `e.y`
  let up : Int → Int → Prop := fun c p => ∃ e' ∈ es.erase e, e'.y = c ∧ e'.x = p
  have hrank : ∀ u, Relation.ReflTransGen up u e.y → rank e.y ≤ rank u := by
    intro u hu
    induction hu using Relation.ReflTransGen.head_induction_on with
    | refl => exact le_refl _
    | head hstep _ ih =>
      obtain ⟨e', he', hc, hp⟩ := hstep
      have := hR e' ((hmem e').mp he').2
      rw [hc, hp] at this
      omega
  have hclosed : ∀ a b, (∃ e' ∈ es.erase e, (e'.x = a ∧ e'.y = b) ∨ (e'.x = b ∧ e'.y = a)) →
      Relation.ReflTransGen up a e.y → Relation.ReflTransGen up b e.y := by
    rintro a b ⟨e', he', hdir⟩ ha
    rcases hdir with ⟨hx, hy⟩ | ⟨hx, hy⟩
    · exact Relation.ReflTransGen.head ⟨e', he', hy, hx⟩ ha
    · rcases Relation.ReflTransGen.cases_head ha with h | ⟨p, hstep, hrest⟩
      · exfalso
        have h1 := (hmem e').mp he'
        exact h1.1 (hU e' h1.2 e he (by rw [hy, h]))
      · obtain ⟨e'', he'', hc, hp⟩ := hstep
        have h1 := (hmem e').mp he'
        have h2 := (hmem e'').mp he''
        have : e'' = e' := hU e'' h2.2 e' h1.2 (by rw [hc, hy])
        rw [this, hx] at hp
        rw [hp]
        exact hrest
  have hback : ∀ a, Joined (es.erase e) a e.y → Relation.ReflTransGen up a e.y := by
    intro a ha
    unfold Joined at ha
    induction ha using Relation.ReflTransGen.head_induction_on with
    | refl => exact Relation.ReflTransGen.refl
    | head hstep _ ih =>
      obtain ⟨e', he', hdir⟩ := hstep
      exact hclosed _ _ ⟨e', he', hdir.symm.imp (fun h => ⟨h.1, h.2⟩) (fun h => ⟨h.1, h.2⟩)⟩ ih
  have := hrank e.x (hback e.x hjoin)
  have := hR e he
  omega


/-- C21: for a graph built by `Graph(V)` and calls of `addEdge` with both
endpoints in `[0, V)`, the construction of `MST` returns and the vertices can
be numbered in the order in which they were first marked so that every
non-null `edgeTo[w] = (v, w)` has `v` marked with a smaller number than `w`.
Hence `edges()` has no self-loop, no two edges joining the same pair of
vertices, and no cycle. -/
theorem mst_edges_contain_no_cycle (V : Int) (calls : List (Int × Int × Rat)) (hV : 0 ≤ V)
    (hcalls : ∀ c ∈ calls, 0 ≤ c.1 ∧ c.1 < V ∧ 0 ≤ c.2.1 ∧ c.2.1 < V) :
    ∃ g st, buildGraph V calls = .ok g ∧ mkMST g = .ok st ∧
      (∃ (rank : Int → Nat) (t : Nat),
        (∀ u : Int, st.isMarked u = true → rank u < t) ∧
        (∀ u : Int, st.isMarked u = false → rank u = t) ∧
        ∀ (w : Nat) (e : Edge), st.edgeTo[w]? = some (some e) →
          e.y = (w : Int) ∧ st.isMarked e.x = true ∧ rank e.x < rank e.y) ∧
      (∀ e ∈ st.edges, e.x ≠ e.y) ∧
      (∀ e ∈ st.edges, ∀ e' ∈ st.edges, e ≠ e' →
        ¬ ((e.x = e'.x ∧ e.y = e'.y) ∨ (e.x = e'.y ∧ e.y = e'.x))) ∧
      Acyclic st.edges := by
  obtain ⟨g, hg, hb, _⟩ := buildGraph_built V calls hV hcalls
  obtain ⟨st, hst, ⟨hQ1, hQ2⟩, _, _, _⟩ := MST.mkMST_spec g hb
    (fun st => MST.EdgeToOk g st ∧ MST.Ranked st)
    (MST.preserved_and g _ _ (MST.preserved_edgeToOk g) (MST.preserved_ranked g)) (by
      intro pq
      refine ⟨?_, fun _ => 0, 0, ?_, ?_, ?_⟩
      · intro w e hw
        simp only at hw
        rw [List.getElem?_replicate] at hw
        split at hw <;> cases hw
      · intro u hu
        simp only [MST.isMarked, List.getElem?_replicate] at hu
        split at hu <;> simp at hu
      · intro u _
        rfl
      · intro w e hw
        simp only at hw
        rw [List.getElem?_replicate] at hw
        split at hw <;> cases hw)
  obtain ⟨rank, t, h1, h2, h3⟩ := hQ2
  have hedge : ∀ e ∈ st.edges, ∃ w : Nat, st.edgeTo[w]? = some (some e) ∧ e.y = (w : Int) ∧
      rank e.x < rank e.y := by
    intro e he
    obtain ⟨w, hw⟩ := (MST.mem_edges_iff st e).mp he
    refine ⟨w, hw, (hQ1 w e hw).2.1, ?_⟩
    rw [(hQ1 w e hw).2.1]
    exact (h3 w e hw).2
  have hU : ∀ e ∈ st.edges, ∀ e' ∈ st.edges, e.y = e'.y → e = e' := by
    intro e he e' he' hy
    obtain ⟨w, hw, hwy, _⟩ := hedge e he
    obtain ⟨w', hw', hwy', _⟩ := hedge e' he'
    have : w = w' := by omega
    subst this
    rw [hw] at hw'
    cases hw'
    rfl
  have hR : ∀ e ∈ st.edges, rank e.x < rank e.y := fun e he => by
    obtain ⟨_, _, _, h⟩ := hedge e he
    exact h
  have hnd : st.edges.Nodup := by
    have hp := (MST.second_endpoints_increasing st.edgeTo 0 (fun w e hw => by
      rw [(hQ1 w e hw).2.1]; simp)).1
    have hnd' : (st.edges.map Edge.y).Nodup := hp.imp (fun h => ne_of_lt h)
    exact List.Nodup.of_map _ hnd'
  refine ⟨g, st, hg, hst, ⟨rank, t, h1, h2, ?_⟩, ?_, ?_, acyclic_of_rank st.edges rank hnd hU hR⟩
  · intro w e hw
    refine ⟨(hQ1 w e hw).2.1, (h3 w e hw).1, ?_⟩
    rw [(hQ1 w e hw).2.1]
    exact (h3 w e hw).2
  · intro e he hxy
    have := hR e he
    rw [hxy] at this
    exact lt_irrefl _ this
  · intro e he e' he' hne hsame
    rcases hsame with ⟨_, hy⟩ | ⟨hx, hy⟩
    · exact hne (hU e he e' he' hy)
    · have h1 := hR e he
      have h2 := hR e' he'
      rw [hx, hy] at h1
      omega

theorem mst_edges_contain_no_cycle_witness :
    (0 : Int) ≤ 5 ∧ (∀ c ∈ callsP, 0 ≤ c.1 ∧ c.1 < 5 ∧ 0 ≤ c.2.1 ∧ c.2.1 < 5) ∧
    ∃ g st, buildGraph 5 callsP = .ok g ∧ mkMST g = .ok st ∧
      (∃ (rank : Int → Nat) (t : Nat),
        (∀ u : Int, st.isMarked u = true → rank u < t) ∧
        (∀ u : Int, st.isMarked u = false → rank u = t) ∧
        ∀ (w : Nat) (e : Edge), st.edgeTo[w]? = some (some e) →
          e.y = (w : Int) ∧ st.isMarked e.x = true ∧ rank e.x < rank e.y) ∧
      (∀ e ∈ st.edges, e.x ≠ e.y) ∧
      (∀ e ∈ st.edges, ∀ e' ∈ st.edges, e ≠ e' →
        ¬ ((e.x = e'.x ∧ e.y = e'.y) ∨ (e.x = e'.y ∧ e.y = e'.x))) ∧
      Acyclic st.edges :=
  ⟨by decide, by decide, mst_edges_contain_no_cycle 5 callsP (by decide) (by decide)⟩

/-- C22: for a graph built by `Graph(V)`, `V ≥ 0`, and calls of `addEdge` with
both endpoints in `[0, V)`, the construction of `MST` reaches none of the
failure branches of the model: not the `invalid_argument` of `Edge::other`,
no index outside `distTo`, `edgeTo`, `marked`, the adjacency vector or the
heap vector, not the `assert` of `pop`, and no other one; it returns a state
whose three vectors have `V` entries. -/
theorem mst_construction_reaches_no_failure (V : Int) (calls : List (Int × Int × Rat))
    (hV : 0 ≤ V) (hcalls : ∀ c ∈ calls, 0 ≤ c.1 ∧ c.1 < V ∧ 0 ≤ c.2.1 ∧ c.2.1 < V) :
    ∃ g st, buildGraph V calls = .ok g ∧ mkMST g = .ok st ∧
      mkMST g ≠ .error .invalidArgument ∧ mkMST g ≠ .error .bounds ∧
      mkMST g ≠ .error .assertion ∧ (∀ err, mkMST g ≠ .error err) ∧
      st.edgeTo.length = V.toNat ∧ st.distTo.length = V.toNat ∧
      st.marked.length = V.toNat := by
  obtain ⟨g, hg, hb, hgV⟩ := buildGraph_built V calls hV hcalls
  obtain ⟨st, hst, _, h1, h2, h3⟩ := MST.mkMST_spec g hb (fun _ => True) (MST.preserved_true g)
    (fun _ => trivial)
  have hall : ∀ err, mkMST g ≠ .error err := by
    intro err h
    rw [hst] at h
    cases h
  rw [hgV] at h1 h2 h3
  exact ⟨g, st, hg, hst, hall _, hall _, hall _, hall, h1, h2, h3⟩

theorem mst_construction_reaches_no_failure_witness :
    (0 : Int) ≤ 5 ∧ (∀ c ∈ callsB, 0 ≤ c.1 ∧ c.1 < 5 ∧ 0 ≤ c.2.1 ∧ c.2.1 < 5) ∧
    ∃ g st, buildGraph 5 callsB = .ok g ∧ mkMST g = .ok st ∧
      mkMST g ≠ .error .invalidArgument ∧ mkMST g ≠ .error .bounds ∧
      mkMST g ≠ .error .assertion ∧ (∀ err, mkMST g ≠ .error err) ∧
      st.edgeTo.length = (5 : Int).toNat ∧ st.distTo.length = (5 : Int).toNat ∧
      st.marked.length = (5 : Int).toNat :=
  ⟨by decide, by decide, mst_construction_reaches_no_failure 5 callsB (by decide) (by decide)⟩


/-- With the vertex count as the only token, whatever its value `V ≥ 0`, the
bound `uvw.size() - 2` of the loop wraps around and the first iteration reads
`uvw[1]` outside the vector. -/
theorem graph_from_single_token {Tok : Type} (convertInt : Tok → Int) (convertDouble : Tok → Rat)
    (t0 : Tok) (h0 : 0 ≤ convertInt t0) :
    mkGraphFromTokens convertInt convertDouble [t0] = .error .bounds := by
  have hs1 : (1 : Nat) < sizeMinusTwo 1 := by decide
  have hs : (1 : Nat) < sizeMinusTwo ([t0] : List Tok).length := hs1
  have hV : ¬ convertInt t0 < 0 := by omega
  have h1 : tokenAt [t0] 1 = .error .bounds := rfl
  have hloop : ∀ g, Graph.tokenLoop convertInt convertDouble [t0] 1 1 g = .error .bounds := by
    intro g
    rw [Graph.tokenLoop, if_pos hs, h1]
    rfl
  have h00 : tokenAt [t0] 0 = .ok t0 := rfl
  simp only [mkGraphFromTokens, h00, if_neg hV, List.length_singleton, hloop, bind, Except.bind]

end Algorithms
